import Mathlib

/-!
Verification of the schema-driven object-mapping layer of `octopus`
(`octopus/lib/dataobj.py`): JSON-like documents, coercion functions,
the dotted-path engine, the `construct` engine, `construct_merge`,
`construct_lookup`, and the `DataObj` reflective attribute facade.

The Python code is shallowly embedded:
  * Python values (`None`, `bool`, `int`, `str`, `list`, `dict`) become the
    inductive `JValue`; `float` values and the date/language coercions are not
    modelled (the latter live in modules `octopus.lib.dates` /
    `octopus.lib.isolang`, outside the sources under review, and no claim
    touches them).
  * Python dicts are association lists with insertion order and unique keys;
    in-place mutation becomes explicit state passing (functions return the
    updated document).
  * Exceptions become `Except PyErr`; the constructors of `PyErr` record which
    Python exception class was raised and the data its message carries.
  * The recursion of `construct`/`conformsTo` descends through looked-up
    sub-documents, which is not syntactic structural recursion; those
    functions take an explicit fuel argument that the public wrappers seed
    with `jsize` of the document, a strict upper bound on the recursion depth.
-/

/-- A Python value as handled by `dataobj.py`: `None`, `bool`, `int`, `str`,
`list`, `dict` (with string keys, insertion-ordered). -/
inductive JValue where
  | null : JValue
  | b (v : Bool) : JValue
  | i (v : Int) : JValue
  | s (v : String) : JValue
  | arr (items : List JValue) : JValue
  | obj (fields : List (String × JValue)) : JValue

abbrev JObj := List (String × JValue)

mutual
/-- Executable structural size of a `JValue`; every proper sub-value is
strictly smaller.  Used to seed fuel for the `construct`-family recursions. -/
def jsize : JValue → Nat
  | .null => 1
  | .b _ => 1
  | .i _ => 1
  | .s _ => 1
  | .arr xs => 1 + jsizeList xs
  | .obj kvs => 1 + jsizeObj kvs
def jsizeList : List JValue → Nat
  | [] => 0
  | x :: xs => 1 + jsize x + jsizeList xs
def jsizeObj : JObj → Nat
  | [] => 0
  | kv :: xs => 1 + jsize kv.2 + jsizeObj xs
end

mutual
/-- Structural equality of `JValue`s (Python `==` on the modelled fragment;
Python's numeric cross-type equalities such as `True == 1` do not arise in
any claim and are not modelled). -/
def jbeq : JValue → JValue → Bool
  | .null, .null => true
  | .b x, .b y => x == y
  | .i x, .i y => x == y
  | .s x, .s y => x == y
  | .arr xs, .arr ys => jbeqList xs ys
  | .obj xs, .obj ys => jbeqObj xs ys
  | _, _ => false
def jbeqList : List JValue → List JValue → Bool
  | [], [] => true
  | x :: xs, y :: ys => jbeq x y && jbeqList xs ys
  | _, _ => false
def jbeqObj : JObj → JObj → Bool
  | [], [] => true
  | kv :: xs, kw :: ys => kv.1 == kw.1 && jbeq kv.2 kw.2 && jbeqObj xs ys
  | _, _ => false
end

mutual
theorem jbeq_iff : ∀ (a b : JValue), jbeq a b = true ↔ a = b
  | .null, b => by cases b <;> simp [jbeq]
  | .b x, b => by cases b <;> simp [jbeq]
  | .i x, b => by cases b <;> simp [jbeq]
  | .s x, b => by cases b <;> simp [jbeq]
  | .arr xs, b => by
      cases b <;> simp [jbeq]
      exact jbeqList_iff xs _
  | .obj xs, b => by
      cases b <;> simp [jbeq]
      exact jbeqObj_iff xs _
theorem jbeqList_iff : ∀ (a b : List JValue), jbeqList a b = true ↔ a = b
  | [], b => by cases b <;> simp [jbeqList]
  | x :: xs, b => by
      cases b with
      | nil => simp [jbeqList]
      | cons y ys => simp [jbeqList, jbeq_iff x y, jbeqList_iff xs ys]
theorem jbeqObj_iff : ∀ (a b : JObj), jbeqObj a b = true ↔ a = b
  | [], b => by cases b <;> simp [jbeqObj]
  | kv :: xs, b => by
      cases b with
      | nil => simp [jbeqObj]
      | cons kw ys =>
          simp [jbeqObj, jbeq_iff kv.2 kw.2, jbeqObj_iff xs ys, Prod.ext_iff, and_assoc]
end

instance : BEq JValue := ⟨jbeq⟩

instance : DecidableEq JValue := fun a b =>
  decidable_of_iff (jbeq a b = true) (jbeq_iff a b)

/-- Python `path.split(".")`: split on every dot, keeping empty segments
(`"".split(".") == [""]`).  Defined over the character list so that it
reduces definitionally on literals. -/
def splitDotsGo : List Char → List Char → List String
  | [], acc => [String.mk acc.reverse]
  | c :: rest, acc =>
      if c = '.' then String.mk acc.reverse :: splitDotsGo rest []
      else splitDotsGo rest (c :: acc)

def splitDots (path : String) : List String := splitDotsGo path.data []

/-- Python dict lookup `d.get(k)` on an insertion-ordered association list. -/
def alookup : List (String × α) → String → Option α
  | [], _ => none
  | kv :: rest, k => if kv.1 = k then some kv.2 else alookup rest k

/-- The key list of an association list (Python `list(d.keys())`). -/
def akeys (l : List (String × α)) : List String := l.map (·.1)

/-- Python dict assignment `d[k] = v`: replace in place if the key exists
(keeping its position), else append. -/
def asetKey : List (String × α) → String → α → List (String × α)
  | [], k, v => [(k, v)]
  | kv :: rest, k, v =>
      if kv.1 = k then (k, v) :: rest else kv :: asetKey rest k v

/-- Python `del d[k]` (removes every binding of `k`; a real dict has at most
one). -/
def aerase : List (String × α) → String → List (String × α)
  | [], _ => []
  | kv :: rest, k => if kv.1 = k then aerase rest k else kv :: aerase rest k

/-- Errors.  Each constructor records the Python exception class raised by the
source and the data interpolated into its message. `valueError`, `typeError`
and `attributeError` are the Python built-ins; the `schema…` constructors are
`DataSchemaException`; the `struct…` constructors are
`DataStructureException`; `structWrapped` is `construct`'s re-raise of a
`DataSchemaException` as a `DataStructureException`. `fuelExhausted` is a
modelling artifact, unreachable whenever fuel is seeded with `jsize`. -/
inductive PyErr where
  | valueError (msg : String) : PyErr
  | typeError (msg : String) : PyErr
  | attributeError (msg : String) : PyErr
  | schemaNoneNotAllowed (path : String) : PyErr
  | schemaNoneInList (path : String) : PyErr
  | schemaCastFailed (val : JValue) : PyErr
  | schemaValueNotPermitted (val : JValue) (path : String) : PyErr
  | schemaOutOfRange (val : JValue) (lower upper : Option Int) : PyErr
  | schemaExpectingList (path : String) (found : JValue) : PyErr
  | schemaEmptyArray (path : String) : PyErr
  | structRequired (field : String) (context : String) : PyErr
  | structNotPermitted (field : String) (context : String) : PyErr
  | structExpectedObject (pathCtx : String) (found : JValue) : PyErr
  | structExpectedObjectAt (pathCtx : String) (index : Nat) (found : JValue) : PyErr
  | structNoCoercion (coerceId : String) (context : String) : PyErr
  | structBadContains (pathCtx : String) (contains : Option String) : PyErr
  | structWrapped (inner : PyErr) : PyErr
  | keyError (key : String) : PyErr
  | fuelExhausted : PyErr
deriving DecidableEq

/-- Is this error a `DataSchemaException`?  (`construct` catches exactly these
and re-raises them as `DataStructureException`s.) -/
def PyErr.isDataSchema : PyErr → Bool
  | .schemaNoneNotAllowed _ => true
  | .schemaNoneInList _ => true
  | .schemaCastFailed _ => true
  | .schemaValueNotPermitted _ _ => true
  | .schemaOutOfRange _ _ _ => true
  | .schemaExpectingList _ _ => true
  | .schemaEmptyArray _ => true
  | _ => false

/-- A coercion function: one value in, converted value out or an error. -/
abbrev CoFn := JValue → Except PyErr JValue

/-- A coercion map: coercion identifier to coercion function (Python dict,
modelled extensionally since only lookups are performed on it). -/
abbrev CoerceMap := String → Option CoFn

mutual
/-- Python `str(v)` for the modelled values (`str` itself is returned
unchanged; containers render their elements with `repr`). -/
def pyStr : JValue → String
  | .null => "None"
  | .b true => "True"
  | .b false => "False"
  | .i n => toString n
  | .s v => v
  | .arr xs => "[" ++ pyStrList xs ++ "]"
  | .obj kvs => "\x7b" ++ pyStrObj kvs ++ "\x7d"
/-- Python `repr(v)` as used inside container `str`; string quoting is
modelled without escape sequences (no claim depends on escaping). -/
def pyRepr : JValue → String
  | .s v => "'" ++ v ++ "'"
  | .null => "None"
  | .b true => "True"
  | .b false => "False"
  | .i n => toString n
  | .arr xs => "[" ++ pyStrList xs ++ "]"
  | .obj kvs => "\x7b" ++ pyStrObj kvs ++ "\x7d"
def pyStrList : List JValue → String
  | [] => ""
  | [x] => pyRepr x
  | x :: xs => pyRepr x ++ ", " ++ pyStrList xs
def pyStrObj : JObj → String
  | [] => ""
  | [kv] => "'" ++ kv.1 ++ "': " ++ pyRepr kv.2
  | kv :: xs => "'" ++ kv.1 ++ "': " ++ pyRepr kv.2 ++ ", " ++ pyStrObj xs
end

/-- `dataobj.to_unicode()`'s inner `to_utf8_unicode`: strings pass through,
anything else becomes its string form; never fails.  (The source's
`elif isinstance(val, str)` decode branch is dead code in Python 3 and has no
counterpart here.) -/
def to_unicode (val : JValue) : Except PyErr JValue :=
  match val with
  | .s str => .ok (.s str)
  | v => .ok (.s (pyStr v))

/-- Python-3 whitespace accepted by `int()` around a numeric literal. -/
def isPySpace (c : Char) : Bool :=
  c = ' ' || c = '\t' || c = '\n' || c = '\x0d' || c = '\x0b' || c = '\x0c'

/-- Digit run with optional single underscores between digits, as accepted by
Python 3 `int()` after the sign. -/
def pyDigits : Nat → List Char → Option Nat
  | acc, [] => some acc
  | acc, '_' :: c :: rest =>
      if c.isDigit then pyDigits (acc * 10 + (c.toNat - 48)) rest else none
  | acc, c :: rest =>
      if c.isDigit then pyDigits (acc * 10 + (c.toNat - 48)) rest else none

/-- Python 3 `int(bytes_or_str)` on an ASCII character sequence: optional
surrounding whitespace, optional sign, then digits (underscore grouping
allowed); `none` models the `ValueError` raised otherwise. -/
def pyParseInt (cs : List Char) : Option Int :=
  let t := (cs.dropWhile isPySpace).reverse.dropWhile isPySpace |>.reverse
  match t with
  | '-' :: rest =>
      match rest with
      | c :: _ => if c.isDigit then (pyDigits 0 rest).map (fun n => -(n : Int)) else none
      | [] => none
  | '+' :: rest =>
      match rest with
      | c :: _ => if c.isDigit then (pyDigits 0 rest).map (fun n => (n : Int)) else none
      | [] => none
  | c :: _ => if c.isDigit then (pyDigits 0 t).map (fun n => (n : Int)) else none
  | [] => none

/-- `dataobj.to_int()`'s inner `intify`, with Python 3 semantics.  A `str`
input is first `encode`d to ASCII bytes (non-ASCII characters dropped).
`int(bytes)` either parses directly or raises `ValueError`; the `ValueError`
is caught, but the fallback `val.replace(",", "")` then calls `bytes.replace`
with `str` arguments, which raises an uncaught `TypeError` — so for string
inputs the comma-stripping and `locale.atoi` fallbacks of the source are
unreachable.  Non-string, non-numeric inputs make the very first `int(val)`
raise an uncaught `TypeError`. -/
def to_int (val : JValue) : Except PyErr JValue :=
  match val with
  | .s str =>
      let bs := str.toList.filter (fun c => c.toNat < 128)
      match pyParseInt bs with
      | some n => .ok (.i n)
      | none => .error (.typeError "a bytes-like object is required, not str")
  | .i n => .ok (.i n)
  | .b bv => .ok (.i (if bv then 1 else 0))
  | .null => .error (.typeError "int() argument must be a string or a number, not NoneType")
  | .arr _ => .error (.typeError "int() argument must be a string or a number, not list")
  | .obj _ => .error (.typeError "int() argument must be a string or a number, not dict")

/-- `dataobj.to_bool`: booleans pass through, `"true"`/`"false"` strings
match case-insensitively, everything else raises `ValueError`. -/
def to_bool (val : JValue) : Except PyErr JValue :=
  match val with
  | .null => .ok .null
  | .b bv => .ok (.b bv)
  | .s str =>
      if str.toLower = "true" then .ok (.b true)
      else if str.toLower = "false" then .ok (.b false)
      else .error (.valueError ("Could not convert string " ++ str ++ " to boolean."))
  | v => .error (.valueError ("Could not convert " ++ pyStr v ++ " to boolean."))

/-- The scheme component `urllib.parse.urlparse` extracts: the prefix before
the first `:` when it is a letter followed by letters, digits, `+`, `-`, `.`;
returned lowercased. -/
def urlScheme (str : String) : Option String :=
  match str.splitOn ":" with
  | pre :: _ :: _ =>
      match pre.toList with
      | [] => none
      | c :: rest =>
          if c.isAlpha && rest.all (fun d => d.isAlphanum || d = '+' || d = '-' || d = '.')
          then some pre.toLower else none
  | _ => none

/-- `dataobj.to_url`: `None` passes through; otherwise the parsed scheme must
start with `"http"`, and the string form is returned. -/
def to_url (val : JValue) : Except PyErr JValue :=
  match val with
  | .null => .ok .null
  | .s str =>
      match urlScheme str with
      | some sch =>
          if sch.startsWith "http" then to_unicode (.s str)
          else .error (.valueError ("Could not convert string " ++ str ++ " to viable URL"))
      | none => .error (.valueError ("Could not convert string " ++ str ++ " to viable URL"))
  | v => .error (.typeError ("Could not parse " ++ pyStr v ++ " as URL"))

/-- `DataObj.DEFAULT_COERCE`, restricted to the coercions whose code is under
review: `unicode`, `integer`, `bool`, `url`.  The `float` entry and the
date/ISO-language entries are omitted (floating point, and modules outside
the reviewed sources); no claim exercises them. -/
def DEFAULT_COERCE : CoerceMap := fun id =>
  if id = "unicode" then some to_unicode
  else if id = "integer" then some to_int
  else if id = "bool" then some to_bool
  else if id = "url" then some to_url
  else none

/-- C2: the claim states `to_int("1,234") = 1234` via a comma-stripping
fallback chain, and that `to_int("abc")` signals a `ValueError`-equivalent
conversion failure.  On the Python 3 code, a `str` input is encoded to
`bytes`; after the direct `int(bytes)` parse fails, `val.replace(",", "")`
calls `bytes.replace` with `str` arguments and raises an uncaught
`TypeError`, so `to_int("1,234")` (and `to_int("abc")`) crash with
`TypeError` before the comma-stripping and locale fallbacks described in the
code's own comments can run; `to_int("1234")` and `to_int(1234)` do yield
`1234`. -/
theorem to_int_comma_is_dead_code :
    to_int (.s "1,234") = .error (.typeError "a bytes-like object is required, not str")
    ∧ to_int (.s "1234") = .ok (.i 1234)
    ∧ to_int (.i 1234) = .ok (.i 1234)
    ∧ to_int (.s "abc") = .error (.typeError "a bytes-like object is required, not str") := by
  refine ⟨?_, ?_, ?_, ?_⟩ <;> rfl

/-- Python membership-or-get on a dict context: `context.get(p, d)`.  On a
non-dict context `.get` raises `AttributeError` (only dicts have `.get`). -/
def dictGet (ctx : JValue) (p : String) (d : JValue) : Except PyErr JValue :=
  match ctx with
  | .obj kvs => .ok ((alookup kvs p).getD d)
  | _ => .error (.attributeError "object has no attribute get")

/-- The loop body of `DataObj._get_path`: walk the split path, using `{}` as
the default for intermediate segments and the caller's default for the final
segment. -/
def getPathGo : JValue → List String → JValue → Except PyErr JValue
  | ctx, [], _ => .ok ctx
  | ctx, [p], dflt => dictGet ctx p dflt
  | ctx, p :: rest, dflt => do
      let c ← dictGet ctx p (.obj [])
      getPathGo c rest dflt

/-- `DataObj._get_path(path, default)` over an explicit document. -/
def _get_path (data : JValue) (path : String) (default : JValue) : Except PyErr JValue :=
  getPathGo data (splitDots path) default

/-- The loop body of `DataObj._set_path`: descend, creating `{}` for missing
intermediate segments, and assign at the final segment.  In-place mutation of
the nested dicts becomes rebuilding with `asetKey` (which keeps key order).
Any non-dict context raises `TypeError` in Python (string-keyed membership,
item access or item assignment on a non-dict); modelled uniformly. -/
def setPathGo : JValue → List String → JValue → Except PyErr JValue
  | ctx, [], _ => .ok ctx
  | .obj kvs, [p], v => .ok (.obj (asetKey kvs p v))
  | .obj kvs, p :: rest, v =>
      match alookup kvs p with
      | none => do
          let sub ← setPathGo (.obj []) rest v
          .ok (.obj (asetKey kvs p sub))
      | some cur => do
          let sub ← setPathGo cur rest v
          .ok (.obj (asetKey kvs p sub))
  | _, _ :: _, _ => .error (.typeError "membership or item assignment on non-dict")

/-- `DataObj._set_path(path, val)` over an explicit document. -/
def _set_path (data : JValue) (path : String) (val : JValue) : Except PyErr JValue :=
  setPathGo data (splitDots path) val

/-- Specification helper: the value actually present at a split path
(`none` when any segment is absent or a non-final segment is not a dict). -/
def lookupPath : JValue → List String → Option JValue
  | v, [] => some v
  | .obj kvs, p :: rest =>
      match alookup kvs p with
      | some v => lookupPath v rest
      | none => none
  | _, _ :: _ => none

/-- Specification helper: does `_get_path`'s descent only ever call `.get` on
dicts?  An absent intermediate segment turns the context into `{}`, which is
a dict, so descent through absent segments is always fine; a present non-dict
value at a non-final segment is what breaks descent. -/
def pathOk : JValue → List String → Bool
  | _, [] => true
  | .obj _, [_] => true
  | .obj kvs, p :: rest =>
      match alookup kvs p with
      | some v => pathOk v rest
      | none => true
  | _, _ :: _ => false

theorem getPathGo_emptyCtx (rest : List String) (dflt : JValue) (h : rest ≠ []) :
    getPathGo (.obj []) rest dflt = .ok dflt := by
  induction rest with
  | nil => exact absurd rfl h
  | cons p more ih =>
      cases more with
      | nil => rfl
      | cons q ms =>
          have h2 := ih (List.cons_ne_nil q ms)
          show getPathGo (.obj []) (p :: q :: ms) dflt = .ok dflt
          simp [getPathGo, dictGet, alookup, bind, Except.bind, h2]

theorem getPathGo_spec : ∀ (parts : List String) (ctx dflt : JValue),
    pathOk ctx parts = true →
    (∃ v, getPathGo ctx parts dflt = .ok v)
    ∧ (lookupPath ctx parts = none → getPathGo ctx parts dflt = .ok dflt)
    ∧ (∀ v, lookupPath ctx parts = some v → getPathGo ctx parts dflt = .ok v)
  | [], ctx, dflt, _ => by
      refine ⟨⟨ctx, rfl⟩, ?_, ?_⟩ <;> simp [lookupPath, getPathGo]
  | [p], ctx, dflt, h => by
      match ctx with
      | .obj kvs =>
          refine ⟨⟨(alookup kvs p).getD dflt, rfl⟩, ?_, ?_⟩
          · intro hnone
            cases hv : alookup kvs p with
            | none => simp [getPathGo, dictGet, hv]
            | some v => simp [lookupPath, hv] at hnone
          · intro v hv
            cases hl : alookup kvs p with
            | none => simp [lookupPath, hl] at hv
            | some w =>
                simp only [lookupPath, hl] at hv
                cases hv
                simp [getPathGo, dictGet, hl]
      | .null | .b _ | .i _ | .s _ | .arr _ => simp [pathOk] at h
  | p :: q :: ms, ctx, dflt, h => by
      match ctx with
      | .obj kvs =>
          cases hl : alookup kvs p with
          | none =>
              have hg : getPathGo (.obj kvs) (p :: q :: ms) dflt
                  = getPathGo (.obj []) (q :: ms) dflt := by
                simp [getPathGo, dictGet, hl, bind, Except.bind]
              refine ⟨⟨dflt, ?_⟩, fun _ => ?_, fun v hv => ?_⟩
              · rw [hg]; exact getPathGo_emptyCtx _ _ (by simp)
              · rw [hg]; exact getPathGo_emptyCtx _ _ (by simp)
              · simp [lookupPath, hl] at hv
          | some w =>
              have hok : pathOk w (q :: ms) = true := by
                simpa [pathOk, hl] using h
              have hg : getPathGo (.obj kvs) (p :: q :: ms) dflt
                  = getPathGo w (q :: ms) dflt := by
                simp [getPathGo, dictGet, hl, bind, Except.bind]
              obtain ⟨h1, h2, h3⟩ := getPathGo_spec (q :: ms) w dflt hok
              refine ⟨by rw [hg]; exact h1, ?_, ?_⟩
              · intro hnone
                rw [hg]; exact h2 (by simpa [lookupPath, hl] using hnone)
              · intro v hv
                rw [hg]; exact h3 v (by simpa [lookupPath, hl] using hv)
      | .null | .b _ | .i _ | .s _ | .arr _ => simp [pathOk] at h

/-- C7 (counterexample): the claim says that for every document and every
dotted path the descent of `_get_path` never fails with an error.  On
`{"a": 1}` with path `"a.b"`, the intermediate segment `"a"` is present but
its value `1` is not a mapping, so `context.get` raises `AttributeError`. -/
theorem get_path_fails_on_scalar_intermediate :
    _get_path (.obj [("a", .i 1)]) "a.b" .null
      = .error (.attributeError "object has no attribute get") := by
  rfl

/-- C7 (amended): for every document, dotted path and default, *provided the
descent only meets mappings* (each present non-final segment holds a dict —
absent segments are fine and are treated as the empty mapping `{}`), the
path-engine get never fails: it returns the stored value when the full path
is present and the supplied default when any segment (in particular the final
one) is absent.  -/
theorem get_path_total_on_mapping_descent (data : JValue) (path : String) (default : JValue)
    (h : pathOk data (splitDots path) = true) :
    (∃ v, _get_path data path default = .ok v)
    ∧ (lookupPath data (splitDots path) = none → _get_path data path default = .ok default)
    ∧ (∀ v, lookupPath data (splitDots path) = some v → _get_path data path default = .ok v) :=
  getPathGo_spec (splitDots path) data default h

/-- C7 witness: on `{"a": {"c": 5}}`, path `"a.b"` (absent final segment)
returns the default, and path `"a.c"` returns the stored value. -/
theorem get_path_total_on_mapping_descent_witness :
    _get_path (.obj [("a", .obj [("c", .i 5)])]) "a.b" (.i 7) = .ok (.i 7)
    ∧ _get_path (.obj [("a", .obj [("c", .i 5)])]) "a.c" (.i 7) = .ok (.i 5) :=
  ⟨(get_path_total_on_mapping_descent (.obj [("a", .obj [("c", .i 5)])]) "a.b" (.i 7)
      (by rfl)).2.1 (by rfl),
   (get_path_total_on_mapping_descent (.obj [("a", .obj [("c", .i 5)])]) "a.c" (.i 7)
      (by rfl)).2.2 (.i 5) (by rfl)⟩

/-- Field instructions (the per-field dict of a Schema Description's
`fields`/`lists` entries).  The source passes the instruction dict through
`construct_kwargs` into keyword arguments of `_set_single`/`_add_to_list`;
here each recognised setter keyword is a record field, with `none` meaning
"keyword absent, use the function's default".  `get__`-prefixed (getter-only)
instructions are not used by any claim and are not modelled. -/
structure FieldInstr where
  coerce : Option String
  allowed_values : Option (List JValue)
  allowed_range : Option (Option Int × Option Int)
  allow_none : Option Bool
  ignore_none : Option Bool
  allow_coerce_failure : Option Bool

/-- List instructions: `contains` ("field" or "object") plus the setter
keywords `_add_to_list`/`_set_list` recognise. -/
structure ListInstr where
  contains : Option String
  coerce : Option String
  allow_none : Option Bool
  ignore_none : Option Bool
  allow_coerce_failure : Option Bool
  unique : Option Bool

/-- A Schema Description: `fields`, `objects`, `lists`, `required`,
`structs`, each `.get(...)` of the source's plain dict becoming an accessor
(a missing member and an empty member are indistinguishable to the source,
which always reads them with a default). -/
inductive Struct where
  | mk : List (String × FieldInstr) → List String → List (String × ListInstr) →
         List String → List (String × Struct) → Struct

def Struct.fields : Struct → List (String × FieldInstr)
  | .mk f _ _ _ _ => f

def Struct.objects : Struct → List String
  | .mk _ o _ _ _ => o

def Struct.lists : Struct → List (String × ListInstr)
  | .mk _ _ l _ _ => l

def Struct.required : Struct → List String
  | .mk _ _ _ r _ => r

def Struct.structs : Struct → List (String × Struct)
  | .mk _ _ _ _ st => st

/-- `dataobj.construct_data_keys`. -/
def construct_data_keys (s : Struct) : List String :=
  akeys s.fields ++ s.objects ++ akeys s.lists

/-- Python `v < n` for an `int` bound: defined for `int` (and `bool`, which
is an `int` subtype); anything else raises `TypeError`. -/
def jLtInt (v : JValue) (n : Int) : Except PyErr Bool :=
  match v with
  | .i m => .ok (m < n)
  | .b bv => .ok ((if bv then (1 : Int) else 0) < n)
  | _ => .error (.typeError "comparison not supported between instances")

/-- Python `v > n` for an `int` bound. -/
def jGtInt (v : JValue) (n : Int) : Except PyErr Bool :=
  match v with
  | .i m => .ok (n < m)
  | .b bv => .ok (n < (if bv then (1 : Int) else 0))
  | _ => .error (.typeError "comparison not supported between instances")

/-- `DataObj._coerce(val, cast, accept_failure)`: apply the cast, catching
exactly `(ValueError, TypeError)`: caught failures either return the original
value (`accept_failure`) or raise `DataSchemaException`. -/
def pyCoerce (val : JValue) (cast : Option CoFn) (accept_failure : Bool) :
    Except PyErr JValue :=
  match cast with
  | none => .ok val
  | some fn =>
      match fn val with
      | .ok v => .ok v
      | .error (.valueError _) =>
          if accept_failure then .ok val else .error (.schemaCastFailed val)
      | .error (.typeError _) =>
          if accept_failure then .ok val else .error (.schemaCastFailed val)
      | .error e => .error e

/-- The `allowed_range` check of `_set_single` (`lower`/`upper` bounds are
modelled as `int`s; Python's `or` short-circuits, so the lower comparison's
`TypeError` propagates before the upper comparison runs). -/
def rangeCheck (val : JValue) (r : Option (Option Int × Option Int)) :
    Except PyErr Unit :=
  match r with
  | none => .ok ()
  | some (lo, hi) => do
      let lviol ← match lo with
        | some l => jLtInt val l
        | none => pure false
      if lviol then .error (.schemaOutOfRange val lo hi)
      else do
        let uviol ← match hi with
          | some u => jGtInt val u
          | none => pure false
        if uviol then .error (.schemaOutOfRange val lo hi) else .ok ()

/-- `DataObj._set_single(path, val, coerce, allow_coerce_failure,
allowed_values, allowed_range, allow_none, ignore_none)` over an explicit
document, returning the updated document. -/
def _set_single (data : JValue) (path : String) (val : JValue)
    (coerce : Option CoFn) (allow_coerce_failure : Bool)
    (allowed_values : Option (List JValue))
    (allowed_range : Option (Option Int × Option Int))
    (allow_none : Bool) (ignore_none : Bool) : Except PyErr JValue :=
  if val = .null ∧ ignore_none = true then .ok data
  else if val = .null ∧ allow_none = false then .error (.schemaNoneNotAllowed path)
  else do
    let val ← if coerce.isSome ∧ val ≠ .null then
        pyCoerce val coerce allow_coerce_failure
      else pure val
    match allowed_values with
    | some avs =>
        if avs.contains val then do
          rangeCheck val allowed_range
          setPathGo data (splitDots path) val
        else .error (.schemaValueNotPermitted val path)
    | none => do
        rangeCheck val allowed_range
        setPathGo data (splitDots path) val

/-- `DataObj._get_list(path, coerce, by_reference, allow_coerce_failure)`
over an explicit document.  Returns the list that the Python code returns
together with the updated document: with `by_reference` an absent value is
created as `[]` and bound at the path, and a coerced list is re-bound —
these are the mutations of the underlying document. -/
def _get_list (data : JValue) (path : String) (coerce : Option CoFn)
    (by_reference : Bool) (allow_coerce_failure : Bool) :
    Except PyErr (List JValue × JValue) := do
  let val ← getPathGo data (splitDots path) .null
  match val with
  | .null =>
      if by_reference then do
        let data1 ← _set_single data path (.arr []) none false none none true false
        .ok ([], data1)
      else .ok ([], data)
  | .arr l =>
      match coerce with
      | some fn => do
          let coerced ← l.mapM (fun v => pyCoerce v (some fn) allow_coerce_failure)
          if by_reference then do
            let data1 ← _set_single data path (.arr coerced) none false none none true false
            .ok (coerced, data1)
          else .ok (coerced, data)
      | none => .ok (l, data)
  | v => .error (.schemaExpectingList path v)

/-- `DataObj._set_list(path, val, coerce, allow_coerce_failure, allow_none,
ignore_none)` over an explicit document. -/
def _set_list (data : JValue) (path : String) (val : JValue)
    (coerce : Option CoFn) (allow_coerce_failure : Bool)
    (allow_none : Bool) (ignore_none : Bool) : Except PyErr JValue := do
  let vals := match val with
    | .arr l => l
    | v => [v]
  if vals.any (fun v => v = .null) ∧ allow_none = false ∧ ignore_none = false then
    .error (.schemaNoneNotAllowed path)
  else do
    let kept := vals.filter (fun v => v ≠ .null ∨ ignore_none = false)
    let coerced ← kept.mapM (fun v => pyCoerce v coerce allow_coerce_failure)
    if coerced.length = 0 ∧ ignore_none = true then .ok data
    else if coerced.length = 0 ∧ allow_none = false then
      .error (.schemaEmptyArray path)
    else setPathGo data (splitDots path) (.arr coerced)

/-- `DataObj._add_to_list(path, val, coerce, allow_coerce_failure,
allow_none, ignore_none, unique)` over an explicit document.  The in-place
`current.append(val)` on the list aliased at `path` becomes re-binding the
extended list at the path. -/
def _add_to_list (data : JValue) (path : String) (val : JValue)
    (coerce : Option CoFn) (allow_coerce_failure : Bool)
    (allow_none : Bool) (ignore_none : Bool) (unique : Bool) :
    Except PyErr JValue :=
  if val = .null ∧ ignore_none = true then .ok data
  else if val = .null ∧ allow_none = false then .error (.schemaNoneInList path)
  else do
    let val ← if coerce.isSome then pyCoerce val coerce allow_coerce_failure
      else pure val
    let cur ← _get_list data path none true true
    if unique = true ∧ cur.1.contains val then .ok cur.2
    else setPathGo cur.2 (splitDots path) (.arr (cur.1 ++ [val]))

/-- Re-raise a `DataSchemaException` as a `DataStructureException`
(`construct`'s `except DataSchemaException as e: raise
DataStructureException(str(e))`); other exceptions propagate unchanged. -/
def wrapSchema (r : Except PyErr α) : Except PyErr α :=
  match r with
  | .error e => if e.isDataSchema then .error (.structWrapped e) else .error e
  | .ok v => .ok v

/-- The `fields` loop of `construct`: for every declared scalar field present
(and non-`None`) in the input, apply its coercion (default id `"unicode"`)
and `_set_single` it into the accumulating output document. -/
def conFields (flds : List (String × FieldInstr)) (kvs : JObj) (c : CoerceMap)
    (context : String) (acc : JValue) : Except PyErr JValue :=
  match flds with
  | [] => .ok acc
  | (fname, instr) :: rest =>
      match alookup kvs fname with
      | none => conFields rest kvs c context acc
      | some .null => conFields rest kvs c context acc
      | some v =>
          match c (instr.coerce.getD "unicode") with
          | none => .error (.structNoCoercion (instr.coerce.getD "unicode") (context ++ fname))
          | some fn => do
              let acc1 ← wrapSchema (_set_single acc fname v (some fn)
                (instr.allow_coerce_failure.getD false) instr.allowed_values
                instr.allowed_range (instr.allow_none.getD true)
                (instr.ignore_none.getD false))
              conFields rest kvs c context acc1

/-- The `objects` loop of `construct`: declared object fields must hold
dicts; with a nested struct the recursion (passed in as `recurse`, already
carrying the coercion map and `silent_prune`) rebuilds the value, otherwise
it is deep-copied verbatim. -/
def conObjects (recurse : JValue → Struct → String → Except PyErr JValue)
    (names : List String) (structs : List (String × Struct)) (kvs : JObj)
    (context : String) (acc : JValue) : Except PyErr JValue :=
  match names with
  | [] => .ok acc
  | name :: rest =>
      match alookup kvs name with
      | none => conObjects recurse rest structs kvs context acc
      | some .null => conObjects recurse rest structs kvs context acc
      | some (.obj sub) =>
          match alookup structs name with
          | none => do
              let acc1 ← wrapSchema (_set_single acc name (.obj sub) none false none none true false)
              conObjects recurse rest structs kvs context acc1
          | some instructions => do
              let beneath ← recurse (.obj sub) instructions (context ++ name ++ ".")
              let acc1 ← wrapSchema (_set_single acc name beneath none false none none true false)
              conObjects recurse rest structs kvs context acc1
      | some v => .error (.structExpectedObject (context ++ name) v)

/-- The element loop for a `contains: "field"` list in `construct`. -/
def conListFieldElems (vals : List JValue) (name : String) (fn : CoFn)
    (instr : ListInstr) (acc : JValue) : Except PyErr JValue :=
  match vals with
  | [] => .ok acc
  | v :: rest => do
      let acc1 ← wrapSchema (_add_to_list acc name v (some fn)
        (instr.allow_coerce_failure.getD false) (instr.allow_none.getD false)
        (instr.ignore_none.getD true) (instr.unique.getD false))
      conListFieldElems rest name fn instr acc1

/-- The element loop for a `contains: "object"` list in `construct`:
each element must be a dict; with a nested struct the recursion rebuilds it
(with the element index in the error context), else it is deep-copied. -/
def conListObjElems (recurse : JValue → Struct → String → Except PyErr JValue)
    (vals : List JValue) (idx : Nat) (name : String) (subinst : Option Struct)
    (context : String) (acc : JValue) : Except PyErr JValue :=
  match vals with
  | [] => .ok acc
  | v :: rest =>
      match v with
      | .obj sub =>
          match subinst with
          | none => do
              let acc1 ← wrapSchema (_add_to_list acc name (.obj sub) none false false true false)
              conListObjElems recurse rest (idx + 1) name subinst context acc1
          | some si => do
              let beneath ← recurse (.obj sub) si
                (context ++ name ++ "[" ++ toString idx ++ "].")
              let acc1 ← wrapSchema (_add_to_list acc name beneath none false false true false)
              conListObjElems recurse rest (idx + 1) name subinst context acc1
      | _ => .error (.structExpectedObjectAt (context ++ name) idx v)

/-- The element access protocol of the `lists` loop: `for i in
range(len(vals)): val = vals[i]`.  A Python list yields its elements; a
string has a `len` and yields its characters as one-character strings; a
dict has a `len` but `vals[0]` raises `KeyError` on the first iteration
(string-keyed dicts have no key `0`), so a non-empty dict raises and an
empty one yields nothing; `len` itself raises `TypeError` on the scalars. -/
def seqItems : JValue → Except PyErr (List JValue)
  | .arr l => .ok l
  | .s t => .ok (t.data.map (fun ch => .s (String.mk [ch])))
  | .obj kvs => if kvs.isEmpty then .ok [] else .error (.keyError "0")
  | _ => .error (.typeError "object has no len")

/-- The `lists` loop of `construct`: the value at a declared list field is
iterated with `range(len(vals))`/`vals[i]` (see `seqItems`). -/
def conLists (recurse : JValue → Struct → String → Except PyErr JValue)
    (lsts : List (String × ListInstr)) (structs : List (String × Struct))
    (kvs : JObj) (c : CoerceMap) (context : String) (acc : JValue) :
    Except PyErr JValue :=
  match lsts with
  | [] => .ok acc
  | (name, instr) :: rest =>
      match alookup kvs name with
      | none => conLists recurse rest structs kvs c context acc
      | some .null => conLists recurse rest structs kvs c context acc
      | some vals =>
          match instr.contains with
          | some "field" =>
              match c (instr.coerce.getD "unicode") with
              | none => .error (.structNoCoercion (instr.coerce.getD "unicode") (context ++ name))
              | some fn => do
                  let items ← seqItems vals
                  let acc1 ← conListFieldElems items name fn instr acc
                  conLists recurse rest structs kvs c context acc1
          | some "object" => do
              let items ← seqItems vals
              let acc1 ← conListObjElems recurse items 0 name (alookup structs name) context acc
              conLists recurse rest structs kvs c context acc1
          | other => .error (.structBadContains (context ++ name) other)

/-- `dataobj.construct(obj, struct, coerce, context, silent_prune)`, with an
explicit fuel bounding the recursion depth (the wrapper `construct` seeds it
with `jsize obj`, which strictly dominates the nesting depth of `obj`; the
recursion only ever descends into proper sub-documents of `obj`).
A `None` input is returned untouched before any check; a non-dict input
makes `obj.keys()` raise `AttributeError`; the `required` check runs first,
then (unless `silent_prune`) the declared-fields check, then the three
copy loops into a fresh output document. -/
def constructF : Nat → JValue → Struct → CoerceMap → String → Bool → Except PyErr JValue
  | 0, _, _, _, _, _ => .error .fuelExhausted
  | fuel + 1, obj, s, c, context, silent_prune =>
      match obj with
      | .null => .ok .null
      | .obj kvs =>
          let keys := akeys kvs
          match s.required.find? (fun r => ¬ keys.contains r) with
          | some r => .error (.structRequired r (if context = "" then "root" else context))
          | none =>
              let allowed := akeys s.fields ++ s.objects ++ akeys s.lists
              match (if silent_prune then none
                     else keys.find? (fun k => ¬ allowed.contains k)) with
              | some k => .error (.structNotPermitted k (if context = "" then "root" else context))
              | none => do
                  let acc1 ← conFields s.fields kvs c context (.obj [])
                  let acc2 ← conObjects
                    (fun v sub ctx2 => constructF fuel v sub c ctx2 silent_prune)
                    s.objects s.structs kvs context acc1
                  conLists
                    (fun v sub ctx2 => constructF fuel v sub c ctx2 silent_prune)
                    s.lists s.structs kvs c context acc2
      | _ => .error (.attributeError "object has no attribute keys")

/-- `dataobj.construct` at the top level (`context` defaults to `""`). -/
def construct (obj : JValue) (s : Struct) (c : CoerceMap) (silent_prune : Bool) :
    Except PyErr JValue :=
  constructF (jsize obj) obj s c "" silent_prune

/-- C4: `construct` on `{"a": 1, "unexpected": 2}` against a schema declaring
only the field `"a"` (as an integer field): with `silent_prune=False` it
raises a `DataStructureException` naming `"unexpected"` (and the `root`
context); with `silent_prune=True` it succeeds and the output keeps `"a"`
and omits `"unexpected"`. -/
theorem construct_unexpected_field_c4 :
    construct (.obj [("a", .i 1), ("unexpected", .i 2)])
        (.mk [("a", ⟨some "integer", none, none, none, none, none⟩)] [] [] [] [])
        DEFAULT_COERCE false
      = .error (.structNotPermitted "unexpected" "root")
    ∧ construct (.obj [("a", .i 1), ("unexpected", .i 2)])
        (.mk [("a", ⟨some "integer", none, none, none, none, none⟩)] [] [] [] [])
        DEFAULT_COERCE true
      = .ok (.obj [("a", .i 1)]) := by
  exact ⟨rfl, rfl⟩

/-- C10: `construct(None, s, c, silent_prune)` returns `None` for every
schema (in particular schemas with non-empty `required`), coercion map and
prune flag: the `None` short-circuit precedes the required-field and
allowed-field checks. -/
theorem construct_none_skips_all_checks :
    ∀ (s : Struct) (c : CoerceMap) (silent_prune : Bool),
      construct .null s c silent_prune = .ok .null := by
  intro s c silent_prune
  rfl

/-- A chain of nested object declarations: each level declares exactly one
object field and its nested struct, ending in `leaf`. -/
def chainStruct : List String → Struct → Struct
  | [], leaf => leaf
  | n :: rest, leaf => .mk [] [n] [] [] [(n, chainStruct rest leaf)]

/-- The matching chain of nested one-key documents ending in `inner`. -/
def chainDoc : List String → JValue → JValue
  | [], inner => inner
  | n :: rest, inner => .obj [(n, chainDoc rest inner)]

/-- The dotted context string `construct` accumulates while descending a
chain of object fields (each segment followed by `"."`). -/
def dottedPath : List String → String
  | [] => ""
  | n :: rest => n ++ "." ++ dottedPath rest

theorem string_append_dot_ne_empty (a b : String) : a ++ b ++ "." ≠ "" := by
  intro h
  have := congrArg String.data h
  simp [String.data_append] at this

theorem constructF_chain_required
    (names : List String) (fuel : Nat) (ctx : String)
    (leaf : Struct) (inner : JObj) (r : String) (c : CoerceMap) (sp : Bool)
    (hne : names ≠ [])
    (hfuel : jsize (chainDoc names (.obj inner)) ≤ fuel)
    (hr : leaf.required.find? (fun x => ¬ (akeys inner).contains x) = some r) :
    constructF fuel (chainDoc names (.obj inner)) (chainStruct names leaf) c ctx sp
      = .error (.structRequired r (ctx ++ dottedPath names)) := by
  induction names generalizing fuel ctx with
  | nil => exact absurd rfl hne
  | cons n rest ih =>
      obtain ⟨f, rfl⟩ : ∃ f, fuel = f + 1 := by
        cases fuel with
        | zero => exfalso; simp [chainDoc, jsize, jsizeObj] at hfuel
        | succ f => exact ⟨f, rfl⟩
      have hfuel2 : jsize (chainDoc rest (.obj inner)) ≤ f := by
        simp only [chainDoc, jsize, jsizeObj] at hfuel
        omega
      cases rest with
      | nil =>
          obtain ⟨g, rfl⟩ : ∃ g, f = g + 1 := by
            cases f with
            | zero => exfalso; simp [chainDoc, jsize, jsizeObj] at hfuel2
            | succ g => exact ⟨g, rfl⟩
          have hctx : (ctx ++ (n ++ ".") : String) ≠ "" := by
            rw [← String.append_assoc]
            exact string_append_dot_ne_empty ctx n
          obtain ⟨lf, lo, ll, lr, ls⟩ := leaf
          simp only [Struct.required] at hr
          simp [akeys] at hr
          simp [constructF, chainDoc, chainStruct, Struct.required, Struct.fields,
            Struct.objects, Struct.lists, Struct.structs, akeys, alookup,
            conFields, conObjects, conLists, List.find?, hr, hctx, bind, Except.bind,
            dottedPath, String.append_empty, String.append_assoc]
      | cons m ms =>
          have herr := ih f (ctx ++ n ++ ".") (List.cons_ne_nil m ms) hfuel2
          simp only [chainDoc, chainStruct, dottedPath, String.append_assoc] at herr
          simp [constructF, chainDoc, chainStruct, Struct.required, Struct.fields,
            Struct.objects, Struct.lists, Struct.structs, akeys, alookup,
            conFields, conObjects, conLists, List.find?, herr, bind, Except.bind,
            dottedPath, String.append_assoc]

/-- C5: for a schema whose nested object level (reached through a chain of
declared object fields `n1.….nk`, each with its nested struct) declares a
required field, running `construct` on a document where that field is the
first required name absent at the nested level raises a
`DataStructureException` whose context is the full dotted path
`"n1.….nk."` to that level (as accumulated by the recursion), not just the
leaf field name. -/
theorem construct_required_error_names_dotted_context
    (names : List String) (leaf : Struct) (inner : JObj) (r : String)
    (c : CoerceMap) (sp : Bool)
    (hne : names ≠ [])
    (hr : leaf.required.find? (fun x => ¬ (akeys inner).contains x) = some r) :
    construct (chainDoc names (.obj inner)) (chainStruct names leaf) c sp
      = .error (.structRequired r (dottedPath names)) := by
  have h := constructF_chain_required names (jsize (chainDoc names (.obj inner))) ""
    leaf inner r c sp hne le_rfl hr
  simpa [construct, String.empty_append] using h

/-- C5 witness: a two-level chain `a.b` whose leaf requires `"r"`, with `{}`
at the nested level, fails with context `"a.b."`. -/
theorem construct_required_error_names_dotted_context_witness :
    construct (chainDoc ["a", "b"] (.obj []))
        (chainStruct ["a", "b"] (.mk [] [] [] ["r"] []))
        DEFAULT_COERCE false
      = .error (.structRequired "r" "a.b.") :=
  construct_required_error_names_dotted_context ["a", "b"]
    (.mk [] [] [] ["r"] []) [] "r" DEFAULT_COERCE false
    (List.cons_ne_nil "a" ["b"]) rfl

/-- First-of for options: the first argument when present, else the second
(used to state the additive-merge property). -/
def ofirst : Option α → Option α → Option α
  | some x, _ => some x
  | none, b => b

/-- One loop of `construct_merge` over a keyed member (`fields`, `lists`,
`structs`): every `source` entry whose key is not yet a key of the
accumulated dict is appended (Python dict assignment appends new keys at the
end); present keys are left alone.  `deepcopy` of the copied instructions is
the identity on pure values. -/
def mergeAssoc (merged : List (String × α)) : List (String × α) → List (String × α)
  | [] => merged
  | (k, v) :: rest =>
      if (alookup merged k).isSome then mergeAssoc merged rest
      else mergeAssoc (merged ++ [(k, v)]) rest

/-- One loop of `construct_merge` over a name-list member (`objects`,
`required`): absent names are appended, present ones left alone. -/
def mergeNames (merged : List String) : List String → List String
  | [] => merged
  | k :: rest =>
      if merged.contains k then mergeNames merged rest
      else mergeNames (merged ++ [k]) rest

/-- `dataobj.construct_merge(target, source)`: the additive merge of two
Schema Descriptions. -/
def construct_merge (target source : Struct) : Struct :=
  .mk (mergeAssoc target.fields source.fields)
      (mergeNames target.objects source.objects)
      (mergeAssoc target.lists source.lists)
      (mergeNames target.required source.required)
      (mergeAssoc target.structs source.structs)

theorem alookup_append (l1 l2 : List (String × α)) (k : String) :
    alookup (l1 ++ l2) k = ofirst (alookup l1 k) (alookup l2 k) := by
  induction l1 with
  | nil => simp [alookup, ofirst]
  | cons kv rest ih =>
      by_cases h : kv.1 = k <;> simp [alookup, h, ih, ofirst]

theorem mergeAssoc_lookup (src : List (String × α)) (merged : List (String × α)) (k : String) :
    alookup (mergeAssoc merged src) k
      = ofirst (alookup merged k) (alookup src k) := by
  induction src generalizing merged with
  | nil => cases h : alookup merged k <;> simp [mergeAssoc, alookup, h, ofirst]
  | cons jv rest ih =>
      obtain ⟨j, v⟩ := jv
      by_cases hj : (alookup merged j).isSome
      · rw [mergeAssoc, if_pos hj, ih]
        by_cases hk : j = k
        · subst hk
          obtain ⟨w, hw⟩ := Option.isSome_iff_exists.mp hj
          simp [hw, ofirst]
        · have : alookup ((j, v) :: rest) k = alookup rest k := by
            simp [alookup, hk]
          rw [this]
      · rw [mergeAssoc, if_neg hj, ih, alookup_append]
        by_cases hk : j = k
        · subst hk
          have hnone : alookup merged j = none := by
            cases h : alookup merged j with
            | none => rfl
            | some w => exact absurd (by simp [h]) hj
          simp [hnone, alookup, ofirst]
        · have h1 : alookup [(j, v)] k = none := by simp [alookup, hk]
          have h2 : alookup ((j, v) :: rest) k = alookup rest k := by
            simp [alookup, hk]
          rw [h1, h2]
          cases h : alookup merged k <;> simp [ofirst]

theorem beq_eq_decide_str (a b : String) : (a == b) = decide (a = b) := by
  by_cases h : a = b <;> simp [h]

theorem contains_append_one (l : List String) (j k : String) :
    (l ++ [j]).contains k = (l.contains k || k == j) := by
  induction l with
  | nil => simp [List.contains_cons, beq_eq_decide_str]
  | cons a as ih => simp [List.contains_cons, ih, Bool.or_assoc, beq_eq_decide_str]

theorem mergeNames_contains (src merged : List String) (k : String) :
    (mergeNames merged src).contains k = (merged.contains k || src.contains k) := by
  induction src generalizing merged with
  | nil => simp [mergeNames]
  | cons j rest ih =>
      rw [mergeNames]
      by_cases hj : merged.contains j = true
      · rw [if_pos hj, ih, List.contains_cons]
        by_cases hk : k = j
        · subst hk
          have hm : k ∈ merged := by simpa using hj
          simp [hm]
        · have hkj : (k == j) = false := by simpa using hk
          simp [hkj, hk, beq_eq_decide_str]
      · rw [if_neg hj, ih, contains_append_one, List.contains_cons]
        simp [Bool.or_assoc]

/-- C8: `construct_merge(target, source)` is additive on every member of a
Schema Description: looking up any key in the merged `fields`/`lists`/
`structs` gives the `target` entry when `target` declares the key (entries
already present in `target` are never overwritten) and otherwise the
`source` entry (entries present only in `source` are added); a name is in
the merged `objects`/`required` exactly when it is in `target` or in
`source`. -/
theorem construct_merge_additive (target source : Struct) (k : String) :
    alookup (construct_merge target source).fields k
        = ofirst (alookup target.fields k) (alookup source.fields k)
    ∧ alookup (construct_merge target source).lists k
        = ofirst (alookup target.lists k) (alookup source.lists k)
    ∧ alookup (construct_merge target source).structs k
        = ofirst (alookup target.structs k) (alookup source.structs k)
    ∧ (construct_merge target source).objects.contains k
        = (target.objects.contains k || source.objects.contains k)
    ∧ (construct_merge target source).required.contains k
        = (target.required.contains k || source.required.contains k) := by
  obtain ⟨tf, tob, tl, tr, ts⟩ := target
  obtain ⟨sf, sob, sl, sr, ss⟩ := source
  exact ⟨mergeAssoc_lookup sf tf k, mergeAssoc_lookup sl tl k,
    mergeAssoc_lookup ss ts k, mergeNames_contains sob tob k,
    mergeNames_contains sr tr k⟩

/-- Python `p in context` for the contexts `_delete` can walk into: key
membership for dicts, element membership for lists, substring containment
for strings, `TypeError` for anything else. -/
def pyIn (p : String) (v : JValue) : Except PyErr Bool :=
  match v with
  | .obj kvs => .ok (alookup kvs p).isSome
  | .arr xs => .ok (xs.contains (.s p))
  | .s str => .ok (decide (p.data <:+: str.data))
  | _ => .error (.typeError "argument of type is not iterable")

/-- One pass of `DataObj._prune_stack` over one stacked dict: delete every
key whose value is an empty dict. -/
def pruneChildren (kvs : JObj) : JObj :=
  kvs.filter (fun kv => match kv.2 with | .obj [] => false | _ => true)

/-- The loop of `DataObj._delete` together with `_prune_stack`, rendered as
recursion over the split path.  The Python loop keeps a stack of the child
containers it descends into; after the final `del` it discards the deepest
stacked child and removes empty-dict children of the remaining stacked
children, deepest first.  In the recursion this becomes: each level that
descends into a child applies `pruneChildren` to that (updated) child
exactly when the deletion happened (`r.2.1`) and some deeper level also
descended (`r.2.2` — otherwise the child is the deepest stacked container,
the one `stack.pop()` discards).  The root document itself is never on the
stack, so its own entries are never pruned.  A missing segment leaves the
context unchanged but still advances the segment index (`if p in context` has
no else branch), which the recursion mirrors by recursing on the tail with
the same context.  Returns (updated context, whether the final `del`
happened, whether this level or a deeper one pushed onto the stack). -/
def deleteRec (prune : Bool) : JValue → List String → Except PyErr (JValue × Bool × Bool)
  | ctx, [] => .ok (ctx, false, false)
  | ctx, [p] => do
      let m ← pyIn p ctx
      if m then
        match ctx with
        | .obj kvs => .ok (.obj (aerase kvs p), true, false)
        | _ => .error (.typeError "object does not support item deletion")
      else .ok (ctx, false, false)
  | ctx, p :: q :: rest => do
      let m ← pyIn p ctx
      if m then
        match ctx with
        | .obj kvs =>
            match alookup kvs p with
            | some child => do
                let r ← deleteRec prune child (q :: rest)
                let child1 := if r.2.1 ∧ prune ∧ r.2.2 then
                    (match r.1 with
                     | .obj sub => JValue.obj (pruneChildren sub)
                     | v => v)
                  else r.1
                .ok (.obj (asetKey kvs p child1), r.2.1, true)
            | none => .ok (ctx, false, false)
        | _ => .error (.typeError "indices must be integers")
      else
        deleteRec prune ctx (q :: rest)

/-- `DataObj._delete(path, prune)` over an explicit document. -/
def _delete (data : JValue) (path : String) (prune : Bool) : Except PyErr JValue := do
  let r ← deleteRec prune data (splitDots path)
  .ok r.1

/-- The element-match test of `DataObj._delete_from_list`: either equality
with `val`, or (when `matchsub` is given) equality of every `matchsub`
key/value pair with the element's `.get` of that key. -/
def delMatches (val : Option JValue) (matchsub : Option JObj) (entry : JValue) :
    Except PyErr Bool :=
  match val with
  | some v => .ok (entry == v)
  | none =>
      match matchsub with
      | some ms =>
          match entry with
          | .obj ekvs => .ok (ms.all (fun kv => ((alookup ekvs kv.1).getD .null) == kv.2))
          | _ => .error (.attributeError "object has no attribute get")
      | none => .ok false

/-- `DataObj._delete_from_list(path, val, matchsub, prune)` over an explicit
document: fetch the list by reference (creating `[]` at the path when
absent), delete every matching element in place (modelled by re-binding the
filtered list at the path), and, when the list ends up empty and `prune` is
set, delete the list field itself with ancestor pruning. -/
def _delete_from_list (data : JValue) (path : String) (val : Option JValue)
    (matchsub : Option JObj) (prune : Bool) : Except PyErr JValue := do
  let gl ← _get_list data path none true true
  let flags ← gl.1.mapM (delMatches val matchsub)
  let keep := ((gl.1.zip flags).filter (fun pr => !pr.2)).map (·.1)
  let data2 ← setPathGo gl.2 (splitDots path) (.arr keep)
  if keep.length = 0 ∧ prune = true then _delete data2 path prune
  else .ok data2

/-- C6 (counterexample): the claim says pruning removes *every* ancestor
mapping left empty.  On `{"w": {"x": ["v"]}}`, deleting `"v"` from the list
at `"w.x"` with `prune=True` leaves `{"w": {}}`: the mapping at the first
path segment is the deepest stacked container, which `_delete` pops without
pruning, and the root's own entries are never pruned, so the emptied
ancestor `"w"` survives. -/
theorem delete_from_list_keeps_emptied_top_mapping :
    _delete_from_list (.obj [("w", .obj [("x", .arr [.s "v"])])]) "w.x"
        (some (.s "v")) none true
      = .ok (.obj [("w", .obj [])])
    ∧ JValue.obj [("w", .obj [])] ≠ .obj [] := by
  exact ⟨rfl, by decide⟩

theorem alookup_aerase_self (l : List (String × α)) (k : String) :
    alookup (aerase l k) k = none := by
  induction l with
  | nil => rfl
  | cons kv rest ih =>
      by_cases h : kv.1 = k <;> simp [aerase, h, alookup, ih]

theorem aerase_sublist : ∀ (l : List (String × α)) (k : String),
    List.Sublist (aerase l k) l
  | [], _ => List.Sublist.slnil
  | kv :: rest, k => by
      by_cases h : kv.1 = k
      · simpa [aerase, h] using (aerase_sublist rest k).cons kv
      · simpa [aerase, h] using (aerase_sublist rest k).cons₂ kv

theorem alookup_asetKey_self (l : List (String × α)) (k : String) (v : α) :
    alookup (asetKey l k v) k = some v := by
  induction l with
  | nil => simp [asetKey, alookup]
  | cons kv rest ih =>
      by_cases h : kv.1 = k <;> simp [asetKey, h, alookup, ih]

theorem akeys_asetKey_present (l : List (String × α)) (k : String) (v : α)
    (h : (alookup l k).isSome) : akeys (asetKey l k v) = akeys l := by
  induction l with
  | nil => simp [alookup] at h
  | cons kv rest ih =>
      by_cases hk : kv.1 = k
      · simp [asetKey, hk, akeys]
      · have h2 : (alookup rest k).isSome := by simpa [alookup, hk] using h
        simp only [asetKey, if_neg hk]
        simpa [akeys] using ih h2

theorem alookup_eq_none_of_not_mem (l : List (String × α)) (k : String)
    (h : k ∉ akeys l) : alookup l k = none := by
  induction l with
  | nil => rfl
  | cons kv rest ih =>
      have hcons : akeys (kv :: rest) = kv.1 :: akeys rest := rfl
      rw [hcons] at h
      have h1 : ¬ kv.1 = k := fun he => h (he ▸ List.mem_cons_self kv.1 _)
      have h2 : k ∉ akeys rest := fun hm => h (List.mem_cons_of_mem _ hm)
      simp [alookup, h1, ih h2]

theorem alookup_filter_nodup (l : List (String × α)) (f : String × α → Bool)
    (k : String) (hnd : (akeys l).Nodup) :
    alookup (l.filter f) k
      = match alookup l k with
        | some v => if f (k, v) then some v else none
        | none => none := by
  induction l with
  | nil => simp [alookup]
  | cons kv rest ih =>
      have hnd' : (kv.1 :: akeys rest).Nodup := by simpa [akeys] using hnd
      have hnd2 : (akeys rest).Nodup := hnd'.of_cons
      have hnm : kv.1 ∉ akeys rest := (List.nodup_cons.mp hnd').1
      by_cases h : kv.1 = k
      · subst h
        have hrest : alookup rest kv.1 = none := alookup_eq_none_of_not_mem _ _ hnm
        by_cases hf : f kv = true
        · simp [List.filter, hf, alookup]
        · have hf2 : f kv = false := by simpa using hf
          have hpair : f (kv.1, kv.2) = false := by simpa using hf2
          simp [List.filter, hf2, alookup, ih hnd2, hrest, hpair]
      · by_cases hf : f kv = true
        · simp [List.filter, hf, alookup, h, ih hnd2]
        · have hf2 : f kv = false := by simpa using hf
          simp [List.filter, hf2, alookup, h, ih hnd2]

/-- Are all segments of the path present, with every non-final container a
dict?  (The premise under which `_delete`'s walk descends cleanly.) -/
def pathDicts : JValue → List String → Bool
  | _, [] => true
  | .obj kvs, p :: rest =>
      match alookup kvs p with
      | some v => pathDicts v rest
      | none => false
  | _, _ :: _ => false

/-- Key-uniqueness of each dict along the path (real Python dicts cannot
carry duplicate keys; association lists can, so the theorems assume it). -/
def pathNodup : JValue → List String → Bool
  | _, [] => true
  | .obj kvs, p :: rest =>
      decide ((akeys kvs).Nodup) &&
        (match alookup kvs p with
         | some v => pathNodup v rest
         | none => true)
  | _, _ :: _ => true

theorem pathOk_of_pathDicts : ∀ (parts : List String) (v : JValue),
    pathDicts v parts = true → pathOk v parts = true
  | [], v, _ => by simp [pathOk]
  | p :: rest, v, h => by
      match v with
      | .obj kvs =>
          cases halo : alookup kvs p with
          | none => simp [pathDicts, halo] at h
          | some w =>
              have hw : pathDicts w rest = true := by simpa [pathDicts, halo] using h
              cases rest with
              | nil => simp [pathOk]
              | cons q ms =>
                  have := pathOk_of_pathDicts (q :: ms) w hw
                  simp [pathOk, halo, this]
      | .null | .b _ | .i _ | .s _ | .arr _ => simp [pathDicts] at h

theorem splitDotsGo_ne_nil : ∀ (cs acc : List Char), splitDotsGo cs acc ≠ []
  | [], _ => by simp [splitDotsGo]
  | c :: rest, acc => by
      by_cases h : c = '.'
      · simp [splitDotsGo, h]
      · simpa [splitDotsGo, h] using splitDotsGo_ne_nil rest (c :: acc)

theorem splitDots_ne_nil (path : String) : splitDots path ≠ [] :=
  splitDotsGo_ne_nil path.data []

theorem setPath_straight : ∀ (parts : List String) (kvs : JObj) (x : JValue),
    parts ≠ [] →
    pathDicts (.obj kvs) parts = true →
    pathNodup (.obj kvs) parts = true →
    ∃ kvs2, setPathGo (.obj kvs) parts x = .ok (.obj kvs2)
      ∧ lookupPath (.obj kvs2) parts = some x
      ∧ pathDicts (.obj kvs2) parts = true
      ∧ pathNodup (.obj kvs2) parts = true
  | [], _, _, hne, _, _ => absurd rfl hne
  | [p], kvs, x, _, hpd, hpn => by
      cases halo : alookup kvs p with
      | none => simp [pathDicts, halo] at hpd
      | some v =>
          have hnd : (akeys kvs).Nodup := by
            have h0 := hpn
            simp only [pathNodup, Bool.and_eq_true, decide_eq_true_eq] at h0
            exact h0.1
          refine ⟨asetKey kvs p x, ?_, ?_, ?_, ?_⟩
          · simp [setPathGo, halo]
          · simp [lookupPath, alookup_asetKey_self]
          · simp [pathDicts, alookup_asetKey_self]
          · simp [pathNodup, alookup_asetKey_self,
              akeys_asetKey_present kvs p x (by simp [halo]), hnd]
  | p :: q :: rest, kvs, x, _, hpd, hpn => by
      cases halo : alookup kvs p with
      | none => simp [pathDicts, halo] at hpd
      | some v =>
          match v with
          | .obj sub =>
              have hpd2 : pathDicts (.obj sub) (q :: rest) = true := by
                simpa [pathDicts, halo] using hpd
              have hnd : (akeys kvs).Nodup := by
                have h0 := hpn
                simp only [pathNodup, Bool.and_eq_true, decide_eq_true_eq] at h0
                exact h0.1
              have hpn2 : pathNodup (.obj sub) (q :: rest) = true := by
                have h0 := hpn
                simp only [pathNodup, halo, Bool.and_eq_true] at h0
                simp only [pathNodup, Bool.and_eq_true]
                exact h0.2
              obtain ⟨sub2, hset, hlook, hpd3, hpn3⟩ :=
                setPath_straight (q :: rest) sub x (by simp) hpd2 hpn2
              refine ⟨asetKey kvs p (.obj sub2), ?_, ?_, ?_, ?_⟩
              · simp [setPathGo, halo, hset, bind, Except.bind]
              · simp only [lookupPath, alookup_asetKey_self]
                simp only [lookupPath] at hlook
                exact hlook
              · simp only [pathDicts, alookup_asetKey_self]
                simp only [pathDicts] at hpd3
                exact hpd3
              · simp only [pathNodup, alookup_asetKey_self,
                  akeys_asetKey_present kvs p _ (by simp [halo]),
                  Bool.and_eq_true, decide_eq_true_eq]
                refine ⟨hnd, ?_⟩
                have h3 := hpn3
                simp only [pathNodup, Bool.and_eq_true, decide_eq_true_eq] at h3
                exact h3
          | .null | .b _ | .i _ | .s _ | .arr _ =>
              simp [pathDicts, halo] at hpd

/-- The value-level predicate `_prune_stack` filters children with. -/
def notEmptyDict (kv : String × JValue) : Bool :=
  match kv.2 with
  | .obj [] => false
  | _ => true

theorem pruneChildren_eq_filter (kvs : JObj) :
    pruneChildren kvs = kvs.filter notEmptyDict := rfl

theorem deleteRec_cons_step (pr : Bool) (kvs : JObj) (p q : String)
    (rest : List String) (child : JValue) (res : JValue × Bool × Bool)
    (halo : alookup kvs p = some child)
    (hrun : deleteRec pr child (q :: rest) = .ok res) :
    deleteRec pr (.obj kvs) (p :: q :: rest)
      = .ok (.obj (asetKey kvs p
            (if res.2.1 = true ∧ pr = true ∧ res.2.2 = true then
              (match res.1 with
               | .obj sub => JValue.obj (pruneChildren sub)
               | v => v)
            else res.1)), res.2.1, true) := by
  simp only [deleteRec]
  simp [pyIn, halo, hrun, bind, Except.bind]

theorem deleteRec_last : ∀ (parts : List String) (kvs : JObj) (x : JValue),
    parts ≠ [] →
    pathDicts (.obj kvs) parts = true →
    pathNodup (.obj kvs) parts = true →
    lookupPath (.obj kvs) parts = some x →
    ∃ kvs',
      deleteRec true (.obj kvs) parts = .ok (.obj kvs', true, decide (2 ≤ parts.length))
      ∧ (akeys kvs').Nodup
      ∧ lookupPath (.obj kvs') parts = none
      ∧ (∀ i, 2 ≤ i → i < parts.length →
           ∀ w, lookupPath (.obj kvs') (parts.take i) = some w → w ≠ .obj [])
      ∧ (∀ p' rest', parts = p' :: rest' → rest' ≠ [] → (alookup kvs' p').isSome)
  | [], _, _, hne, _, _, _ => absurd rfl hne
  | [p], kvs, x, _, hpd, hpn, _ => by
      cases halo : alookup kvs p with
      | none => simp [pathDicts, halo] at hpd
      | some v =>
          have hnd : (akeys kvs).Nodup := by
            have h0 := hpn
            simp only [pathNodup, Bool.and_eq_true, decide_eq_true_eq] at h0
            exact h0.1
          refine ⟨aerase kvs p, ?_, ?_, ?_, ?_, ?_⟩
          · simp [deleteRec, pyIn, halo, bind, Except.bind]
          · exact hnd.sublist (List.Sublist.map _ (aerase_sublist kvs p))
          · simp [lookupPath, alookup_aerase_self]
          · intro i h2 hlt
            simp at hlt
            omega
          · intro p' rest' heq hne'
            cases heq
            exact absurd rfl hne'
  | p :: q :: rest, kvs, x, hne, hpd, hpn, hl => by
      cases halo : alookup kvs p with
      | none => simp [pathDicts, halo] at hpd
      | some child =>
          match child with
          | .obj sub =>
              have hpd2 : pathDicts (.obj sub) (q :: rest) = true := by
                simpa [pathDicts, halo] using hpd
              have hnd : (akeys kvs).Nodup := by
                have h0 := hpn
                simp only [pathNodup, Bool.and_eq_true, decide_eq_true_eq] at h0
                exact h0.1
              have hpn2 : pathNodup (.obj sub) (q :: rest) = true := by
                have h0 := hpn
                simp only [pathNodup, halo, Bool.and_eq_true] at h0
                simp only [pathNodup, Bool.and_eq_true]
                exact h0.2
              have hl2 : lookupPath (.obj sub) (q :: rest) = some x := by
                simpa [lookupPath, halo] using hl
              obtain ⟨sub', hrun, hndsub, hlooknone, hP2, hP3⟩ :=
                deleteRec_last (q :: rest) sub x (by simp) hpd2 hpn2 hl2
              cases rest with
              | nil =>
                  have hrun1 : deleteRec true (.obj sub) [q] = .ok (.obj sub', true, false) := by
                    simpa using hrun
                  refine ⟨asetKey kvs p (.obj sub'), ?_, ?_, ?_, ?_, ?_⟩
                  · have hstep := deleteRec_cons_step true kvs p q [] (.obj sub)
                      (.obj sub', true, false) halo hrun1
                    simpa using hstep
                  · rw [akeys_asetKey_present kvs p _ (by simp [halo])]
                    exact hnd
                  · have hq : lookupPath (.obj sub') [q] = none := hlooknone
                    simp only [lookupPath, alookup_asetKey_self]
                    simpa [lookupPath] using hq
                  · intro i h2 hlt
                    simp at hlt
                    omega
                  · intro p' rest' heq hne'
                    cases heq
                    simp [alookup_asetKey_self]
              | cons r1 rs =>
                  have hlen : decide (2 ≤ (q :: r1 :: rs).length) = true := by simp
                  have hrun1 : deleteRec true (.obj sub) (q :: r1 :: rs)
                      = .ok (.obj sub', true, true) := by
                    rw [hrun, hlen]
                  have hfilter := fun (k : String) =>
                    alookup_filter_nodup sub' notEmptyDict k hndsub
                  refine ⟨asetKey kvs p (.obj (pruneChildren sub')), ?_, ?_, ?_, ?_, ?_⟩
                  · have hstep := deleteRec_cons_step true kvs p q (r1 :: rs) (.obj sub)
                      (.obj sub', true, true) halo hrun1
                    simpa using hstep
                  · rw [akeys_asetKey_present kvs p _ (by simp [halo])]
                    exact hnd
                  · simp only [lookupPath, alookup_asetKey_self]
                    rw [pruneChildren_eq_filter, hfilter q]
                    cases hq : alookup sub' q with
                    | none => simp
                    | some w =>
                        have hw : lookupPath w (r1 :: rs) = none := by
                          have h0 := hlooknone
                          simp only [lookupPath, hq] at h0
                          exact h0
                        by_cases hpred : notEmptyDict (q, w) = true
                        · simp only [hpred, if_true]
                          simpa [lookupPath] using hw
                        · have : notEmptyDict (q, w) = false := by simpa using hpred
                          simp [this]
                  · intro i h2 hlt
                    obtain ⟨i2, rfl⟩ : ∃ i2, i = i2 + 2 := ⟨i - 2, by omega⟩
                    intro w hw
                    simp only [List.take, lookupPath, alookup_asetKey_self] at hw
                    rw [pruneChildren_eq_filter, hfilter q] at hw
                    cases hq : alookup sub' q with
                    | none => rw [hq] at hw; simp at hw
                    | some w0 =>
                        rw [hq] at hw
                        by_cases hpred : notEmptyDict (q, w0) = true
                        · simp only [hpred, if_true] at hw
                          cases i2 with
                          | zero =>
                              simp only [List.take, lookupPath] at hw
                              cases hw
                              intro hcontra
                              subst hcontra
                              simp [notEmptyDict] at hpred
                          | succ i3 =>
                              have happly := hP2 (i3 + 2) (by omega)
                                (by simp at hlt ⊢; omega) w
                              apply happly
                              simp only [List.take_succ_cons, lookupPath, hq]
                              simpa using hw
                        · have hpf : notEmptyDict (q, w0) = false := by simpa using hpred
                          simp only [hpf, if_false] at hw
                          simp at hw
                  · intro p' rest' heq hne'
                    cases heq
                    simp [alookup_asetKey_self]
          | .null | .b _ | .i _ | .s _ | .arr _ =>
              simp [pathDicts, halo] at hpd

/-- C6 (amended): for every document with a list field holding exactly one
element `v` at a dotted path (all segments present through dicts with unique
keys), `_delete_from_list` with the element as match value behaves as
follows.  With `prune=False` the element is removed and the now-empty list is
left in place at the path.  With `prune=True` the now-empty list field itself
is removed, and every ancestor mapping left empty is recursively removed
*except* the mapping at the first path segment: no ancestor strictly below
the top level survives as an empty mapping, but the first segment's mapping
always survives (the deepest stacked container is popped without pruning and
the root's own entries are never pruned). -/
theorem delete_last_element_prune_semantics
    (data : JValue) (path : String) (v : JValue)
    (hpd : pathDicts data (splitDots path) = true)
    (hpn : pathNodup data (splitDots path) = true)
    (hl : lookupPath data (splitDots path) = some (.arr [v])) :
    (∃ data2, setPathGo data (splitDots path) (.arr []) = .ok data2
       ∧ _delete_from_list data path (some v) none false = .ok data2
       ∧ lookupPath data2 (splitDots path) = some (.arr []))
    ∧ (∃ dataP, _delete_from_list data path (some v) none true = .ok dataP
       ∧ lookupPath dataP (splitDots path) = none
       ∧ (∀ i, 2 ≤ i → i < (splitDots path).length →
            ∀ w, lookupPath dataP ((splitDots path).take i) = some w → w ≠ .obj [])
       ∧ (∀ p rest, splitDots path = p :: rest → rest ≠ [] →
            (lookupPath dataP [p]).isSome)) := by
  have hne : splitDots path ≠ [] := splitDots_ne_nil path
  match data with
  | .null | .b _ | .i _ | .s _ | .arr _ =>
      exfalso
      cases hsp : splitDots path with
      | nil => exact hne hsp
      | cons p rest => rw [hsp] at hpd; simp [pathDicts] at hpd
  | .obj kvs =>
      have hgo : getPathGo (.obj kvs) (splitDots path) .null = .ok (.arr [v]) :=
        (getPathGo_spec (splitDots path) (.obj kvs) .null
          (pathOk_of_pathDicts _ _ hpd)).2.2 _ hl
      have hvv : (v == v) = true := (jbeq_iff v v).mpr rfl
      obtain ⟨kvs2, hset, hlook2, hpd2, hpn2⟩ :=
        setPath_straight (splitDots path) kvs (.arr []) hne hpd hpn
      have hglist : _get_list (.obj kvs) path none true true = .ok ([v], .obj kvs) := by
        simp [_get_list, hgo, bind, Except.bind]
      have hmapm : List.mapM.loop (delMatches (some v) none) [v] []
          = (Except.ok [true] : Except PyErr (List Bool)) := by
        simp [List.mapM.loop, delMatches, hvv, bind, Except.bind, pure, Except.pure]
      have hfalse : _delete_from_list (.obj kvs) path (some v) none false
          = .ok (.obj kvs2) := by
        simp [_delete_from_list, hglist, hmapm, hset,
          bind, Except.bind, List.mapM]
      obtain ⟨kvs', hrun, hnd', hnone', hP2', hP3'⟩ :=
        deleteRec_last (splitDots path) kvs2 (.arr []) hne hpd2 hpn2 hlook2
      have hdel : _delete (.obj kvs2) path true = .ok (.obj kvs') := by
        simp [_delete, hrun, bind, Except.bind]
      have htrue : _delete_from_list (.obj kvs) path (some v) none true
          = .ok (.obj kvs') := by
        simp [_delete_from_list, hglist, hmapm, hset, hdel,
          bind, Except.bind, List.mapM]
      refine ⟨⟨.obj kvs2, hset, hfalse, hlook2⟩,
        ⟨.obj kvs', htrue, hnone', hP2', ?_⟩⟩
      intro p rest heq hne'
      have := hP3' p rest heq hne'
      cases hq : alookup kvs' p with
      | none => simp [hq] at this
      | some w => simp [lookupPath, hq]

/-- C6 witness: the amended theorem applied to the three-level document
`{"a": {"b": {"x": [3]}}}` and path `"a.b.x"` (hypotheses discharged by
evaluation). -/
theorem delete_last_element_prune_semantics_witness :
    (∃ data2, setPathGo (.obj [("a", .obj [("b", .obj [("x", .arr [.i 3])])])])
        (splitDots "a.b.x") (.arr []) = .ok data2
       ∧ _delete_from_list (.obj [("a", .obj [("b", .obj [("x", .arr [.i 3])])])])
           "a.b.x" (some (.i 3)) none false = .ok data2
       ∧ lookupPath data2 (splitDots "a.b.x") = some (.arr []))
    ∧ (∃ dataP, _delete_from_list (.obj [("a", .obj [("b", .obj [("x", .arr [.i 3])])])])
           "a.b.x" (some (.i 3)) none true = .ok dataP
       ∧ lookupPath dataP (splitDots "a.b.x") = none
       ∧ (∀ i, 2 ≤ i → i < (splitDots "a.b.x").length →
            ∀ w, lookupPath dataP ((splitDots "a.b.x").take i) = some w → w ≠ .obj [])
       ∧ (∀ p rest, splitDots "a.b.x" = p :: rest → rest ≠ [] →
            (lookupPath dataP [p]).isSome)) :=
  delete_last_element_prune_semantics
    (.obj [("a", .obj [("b", .obj [("x", .arr [.i 3])])])]) "a.b.x" (.i 3)
    (by rfl) (by decide) (by rfl)

/-- Is this error a `DataStructureException`? (`_wrap_validate` catches
exactly these and re-raises them as `AttributeError`s.) -/
def PyErr.isDataStructure : PyErr → Bool
  | .structRequired _ _ => true
  | .structNotPermitted _ _ => true
  | .structExpectedObject _ _ => true
  | .structExpectedObjectAt _ _ _ => true
  | .structNoCoercion _ _ => true
  | .structBadContains _ _ => true
  | .structWrapped _ => true
  | _ => false

/-- The result of `construct_lookup`: the `(type, substruct, instructions)`
triple, `none` modelling the `(None, None, None)` "not found" answer.  Note
that the source returns `None` as the instructions of an `"object"` hit. -/
inductive LookupType where
  | fieldT (instr : FieldInstr) : LookupType
  | listT (sub : Option Struct) (instr : ListInstr) : LookupType
  | objT (sub : Option Struct) : LookupType

/-- `dataobj.construct_lookup` over the split path.  A multi-segment path
must resolve each leading segment to a declared object; a declared object
*without* a `structs` entry makes the source recurse with `substruct=None`
and crash with `AttributeError` on the next `struct.get`. -/
def construct_lookup_parts : List String → Struct → Except PyErr (Option LookupType)
  | [], _ => .ok none
  | [b0], s =>
      match alookup s.fields b0 with
      | some instr => .ok (some (.fieldT instr))
      | none =>
          match alookup s.lists b0 with
          | some instr => .ok (some (.listT (alookup s.structs b0) instr))
          | none =>
              if s.objects.contains b0 then .ok (some (.objT (alookup s.structs b0)))
              else .ok none
  | b0 :: b1 :: rest, s =>
      if s.objects.contains b0 then
        match alookup s.structs b0 with
        | some sub => construct_lookup_parts (b1 :: rest) sub
        | none => .error (.attributeError "NoneType object has no attribute get")
      else .ok none

/-- `dataobj.construct_lookup(path, struct)`. -/
def construct_lookup (path : String) (s : Struct) : Except PyErr (Option LookupType) :=
  construct_lookup_parts (splitDots path) s

/-- The state of a `DataObj` instance: its class attributes (names for which
`hasattr(self.__class__, ·)` holds), ordinary instance attributes (the ones
`object.__setattr__` writes — restricted here to document values, the only
kind the claims store), the raw document, the bound struct, the Property
Descriptor map (public name to dotted path; the wrapper type is always the
`DataObj` facade in this model), the expose-data flag and the coercion map. -/
structure DOState where
  classAttrs : List String
  instAttrs : List (String × JValue)
  data : JValue
  strct : Option Struct
  props : List (String × String)
  exposeData : Bool
  coerceMap : CoerceMap

/-- The names `DataObj`'s `__setattr__` special-cases as internal slots. -/
def internalNames : List String :=
  ["_coerce_map", "_struct", "data", "_properties", "_expose_data"]

/-- The attribute names defined on the `DataObj` class itself. -/
def dataObjClassAttrs : List String :=
  ["SCHEMA", "DEFAULT_COERCE", "validate", "custom_validate", "populate",
   "clone", "json", "get_struct"]

/-- `DataObj.__init__(raw, struct, construct_raw, expose_data)` for the
facades the accessors create (no subclass overrides, default properties and
coercion map).  When a struct is bound, raw data is present and
`construct_raw` is set, the document is rebuilt through `construct`; the
legacy `validate()` is a no-op (`SCHEMA is None`) and `custom_validate` is a
hook that does nothing. -/
def mkDataObj (raw : Option JValue) (strct : Option Struct) (construct_raw : Bool)
    (exposeData : Bool) : Except PyErr DOState := do
  let data0 := match raw with
    | none => JValue.obj []
    | some v => v
  let data1 ← match strct, raw, construct_raw with
    | some s, some _, true => constructF (jsize data0) data0 s DEFAULT_COERCE "" false
    | _, _, _ => pure data0
  .ok ⟨dataObjClassAttrs, [], data1, strct, [], exposeData, DEFAULT_COERCE⟩

/-- `DataObj._get_single(path, coerce, default, allow_coerce_failure)`. -/
def _get_single (data : JValue) (path : String) (coerce : Option CoFn)
    (default : JValue) (allow_coerce_failure : Bool) : Except PyErr JValue := do
  let val ← getPathGo data (splitDots path) default
  if coerce.isSome ∧ val ≠ .null then pyCoerce val coerce allow_coerce_failure
  else .ok val

/-- What an attribute read can produce: a plain value, a wrapped facade, a
plain list, or a list of facades. -/
inductive ReadResult where
  | rval (v : JValue) : ReadResult
  | robj (d : DOState) : ReadResult
  | rlist (vs : List JValue) : ReadResult
  | robjList (ds : List DOState) : ReadResult

/-- The `instructions.get("coerce")` access of `_get_internal_property` /
`_set_internal_property`.  For an `"object"` hit the instructions are `None`
(see `construct_lookup`), so the access raises `AttributeError`. -/
def instrCoerceId : LookupType → Except PyErr (Option String)
  | .fieldT instr => .ok instr.coerce
  | .listT _ instr => .ok instr.coerce
  | .objT _ => .error (.attributeError "NoneType object has no attribute get")

/-- `_wrap_validate` of `_set_internal_property`, on document-valued input
(facade-valued assignments are outside the modelled value domain; the claims
store plain document values).  With a wrapper class the value is passed
through `DataObj(val, substruct)` and its `.data` is taken —
`DataObj(None, …)` yields `{}`, and a `DataStructureException` from the
constructor's `construct` is re-raised as `AttributeError`. -/
def _wrap_validate (val : JValue) (wrapperGiven : Bool) (substruct : Option Struct) :
    Except PyErr JValue :=
  if ¬ wrapperGiven then .ok val
  else
    match mkDataObj (if val = .null then none else some val) substruct true false with
    | .ok d => .ok d.data
    | .error e =>
        if e.isDataStructure then .error (.attributeError "could not construct object")
        else .error e

/-- `DataObj._get_internal_property(path, wrapper)`.  Returns the read
result together with the updated state (`_get_list` with `by_reference` can
bind a fresh list or a coerced list into the document).  `get__`-prefixed
instructions are not modelled, so getter keyword arguments are always the
defaults. -/
def _get_internal_property (st : DOState) (path : String) (wrapperGiven : Bool) :
    Except PyErr (ReadResult × DOState) := do
  let tyres ← match st.strct with
    | some s => construct_lookup path s
    | none => .ok none
  match tyres with
  | none => do
      let val ← _get_single st.data path none .null true
      match wrapperGiven, val with
      | true, .obj kvs => do
          let facade ← mkDataObj (some (.obj kvs)) none true st.exposeData
          .ok (.robj facade, st)
      | true, .arr l => do
          let facades ← l.mapM (fun v => mkDataObj (some v) none true st.exposeData)
          .ok (.robjList facades, st)
      | _, _ =>
          if val = .null then .error (.attributeError path)
          else .ok (.rval val, st)
  | some lt => do
      let coerceId ← instrCoerceId lt
      let coerce_fn := coerceId.bind st.coerceMap
      match lt with
      | .fieldT _ => do
          let v ← _get_single st.data path coerce_fn .null true
          .ok (.rval v, st)
      | .objT sub => do
          let d ← _get_single st.data path coerce_fn .null true
          if wrapperGiven then do
            let facade ← mkDataObj (some d) sub false st.exposeData
            .ok (.robj facade, st)
          else .ok (.rval d, st)
      | .listT sub instr =>
          match instr.contains with
          | some "field" => do
              let r ← _get_list st.data path coerce_fn true true
              .ok (.rlist r.1, { st with data := r.2 })
          | some "object" => do
              let r ← _get_list st.data path coerce_fn true true
              if wrapperGiven then do
                let facades ← r.1.mapM (fun o => mkDataObj (some o) sub false st.exposeData)
                .ok (.robjList facades, { st with data := r.2 })
              else .ok (.rlist r.1, { st with data := r.2 })
          | _ => .error (.attributeError path)

/-- `DataObj._set_internal_property(path, value, wrapper)` on a
document-valued `value`; returns the `wasset` flag and updated state. -/
def _set_internal_property (st : DOState) (path : String) (value : JValue)
    (wrapperGiven : Bool) : Except PyErr (Bool × DOState) := do
  let tyres ← match st.strct with
    | some s => construct_lookup path s
    | none => .ok none
  match tyres with
  | none =>
      match st.strct with
      | none =>
          match value with
          | .arr l => do
              let vals ← l.mapM (fun v => _wrap_validate v wrapperGiven none)
              let d ← _set_list st.data path (.arr vals) none false true false
              .ok (true, { st with data := d })
          | v => do
              let v2 ← _wrap_validate v wrapperGiven none
              let d ← _set_single st.data path v2 none false none none true false
              .ok (true, { st with data := d })
      | some _ => .ok (false, st)
  | some lt => do
      let coerceId ← instrCoerceId lt
      let coerce_fn := coerceId.bind st.coerceMap
      match lt with
      | .fieldT instr => do
          let d ← _set_single st.data path value coerce_fn
            (instr.allow_coerce_failure.getD false) instr.allowed_values
            instr.allowed_range (instr.allow_none.getD true)
            (instr.ignore_none.getD false)
          .ok (true, { st with data := d })
      | .objT sub => do
          let v2 ← _wrap_validate value wrapperGiven sub
          let d ← _set_single st.data path v2 coerce_fn false none none true false
          .ok (true, { st with data := d })
      | .listT sub instr =>
          match instr.contains with
          | some "field" => do
              let d ← _set_list st.data path value coerce_fn
                (instr.allow_coerce_failure.getD false)
                (instr.allow_none.getD true) (instr.ignore_none.getD false)
              .ok (true, { st with data := d })
          | some "object" => do
              let vl := match value with
                | .arr l => l
                | v => [v]
              let vals ← vl.mapM (fun v => _wrap_validate v wrapperGiven sub)
              let d ← _set_list st.data path (.arr vals) coerce_fn
                (instr.allow_coerce_failure.getD false)
                (instr.allow_none.getD true) (instr.ignore_none.getD false)
              .ok (true, { st with data := d })
          | _ => .ok (false, st)

/-- `DataObj._list_dynamic_properties`: the declared property names and the
exposed data attribute names (struct keys when a struct is bound, the raw
document's own keys otherwise; the `AttributeError` from `.keys()` on a
non-dict document is swallowed, leaving no data attributes). -/
def _list_dynamic_properties (st : DOState) : List String × List String :=
  (akeys st.props,
   if st.exposeData then
     match st.strct with
     | some s => construct_data_keys s
     | none =>
         match st.data with
         | .obj kvs => akeys kvs
         | _ => []
   else [])

/-- `DataObj.__setattr__(key, value)` on a document-valued `value`:
explicitly defined class attributes and the internal slots go through
`object.__setattr__`; a declared property or exposed data attribute goes
through `_set_internal_property`; everything else — including the case where
the internal set was rejected (`wasset` false) — falls back to
`object.__setattr__`, i.e. an ordinary instance attribute.  Of the internal
slots only `data` holds a document value; writing the other four replaces a
non-document slot and is outside the modelled value domain. -/
def pySetAttr (st : DOState) (key : String) (value : JValue) :
    Except PyErr DOState :=
  if st.classAttrs.contains key then
    .ok { st with instAttrs := asetKey st.instAttrs key value }
  else if key = "data" then .ok { st with data := value }
  else if internalNames.contains key then
    .error (.typeError "assigning a document value to a non-document internal slot")
  else
    let pd := _list_dynamic_properties st
    let pw : Option String :=
      match alookup st.props key with
      | some path => some path
      | none => if pd.2.contains key then some key else none
    match pw with
    | some path => do
        let r ← _set_internal_property st path value true
        if r.1 then .ok r.2
        else .ok { r.2 with instAttrs := asetKey r.2.instAttrs key value }
    | none => .ok { st with instAttrs := asetKey st.instAttrs key value }

/-- A full attribute read on a `DataObj`: Python finds instance attributes
(and class members — outside the modelled value domain) before calling
`__getattr__`, which resolves declared properties and exposed data names
through `_get_internal_property`, re-labelling any `AttributeError` with the
requested name. -/
def pyGetAttr (st : DOState) (name : String) :
    Except PyErr (ReadResult × DOState) :=
  match alookup st.instAttrs name with
  | some v => .ok (.rval v, st)
  | none =>
      if st.classAttrs.contains name then
        .error (.typeError "reading a class member, outside the modelled value domain")
      else
        let pd := _list_dynamic_properties st
        let pw : Option String :=
          match alookup st.props name with
          | some path => some path
          | none => if pd.2.contains name then some name else none
        match pw with
        | some path =>
            match _get_internal_property st path true with
            | .ok r => .ok r
            | .error (.attributeError _) => .error (.attributeError name)
            | .error e => .error e
        | none => .error (.attributeError name)

theorem setPath_after_get_null : ∀ (parts : List String) (data v : JValue),
    parts ≠ [] →
    getPathGo data parts .null = .ok .null →
    ∃ d2, setPathGo data parts v = .ok d2 ∧ getPathGo d2 parts .null = .ok v
  | [], _, _, hne, _ => absurd rfl hne
  | [p], data, v, _, hget => by
      match data with
      | .obj kvs =>
          refine ⟨.obj (asetKey kvs p v), rfl, ?_⟩
          simp [getPathGo, dictGet, alookup_asetKey_self]
      | .null | .b _ | .i _ | .s _ | .arr _ =>
          simp [getPathGo, dictGet] at hget
  | p :: q :: rest, data, v, _, hget => by
      match data with
      | .obj kvs =>
          cases halo : alookup kvs p with
          | none =>
              obtain ⟨d2, hset2, hget2⟩ := setPath_after_get_null (q :: rest) (.obj []) v
                (by simp) (getPathGo_emptyCtx (q :: rest) .null (by simp))
              refine ⟨.obj (asetKey kvs p d2), ?_, ?_⟩
              · simp [setPathGo, halo, hset2, bind, Except.bind]
              · simp [getPathGo, dictGet, alookup_asetKey_self, hget2, bind, Except.bind]
          | some c =>
              have hgc : getPathGo c (q :: rest) .null = .ok .null := by
                have h0 := hget
                simp only [getPathGo, dictGet, halo, Option.getD, bind, Except.bind] at h0
                exact h0
              obtain ⟨d2, hset2, hget2⟩ := setPath_after_get_null (q :: rest) c v
                (by simp) hgc
              refine ⟨.obj (asetKey kvs p d2), ?_, ?_⟩
              · simp [setPathGo, halo, hset2, bind, Except.bind]
              · simp [getPathGo, dictGet, alookup_asetKey_self, hget2, bind, Except.bind]
      | .null | .b _ | .i _ | .s _ | .arr _ =>
          simp [getPathGo, dictGet, bind, Except.bind] at hget

/-- C9: for a `DataObj` whose schema declares a `contains: "field"` list at
a path and whose document has no value there (`_get_path` yields `None`),
reading that property through `_get_internal_property` (with the default
getter options — there are no `get__` instructions) creates a fresh empty
list, binds it at the path inside the underlying raw document, and returns
it: the read mutates the document it reads from. -/
theorem get_list_property_creates_and_binds
    (st : DOState) (path : String) (s : Struct) (sub : Option Struct)
    (instr : ListInstr) (wrapperGiven : Bool)
    (hs : st.strct = some s)
    (hlk : construct_lookup path s = .ok (some (.listT sub instr)))
    (hcontains : instr.contains = some "field")
    (habs : getPathGo st.data (splitDots path) .null = .ok .null) :
    ∃ data2, setPathGo st.data (splitDots path) (.arr []) = .ok data2
      ∧ _get_internal_property st path wrapperGiven
          = .ok (.rlist [], { st with data := data2 })
      ∧ getPathGo data2 (splitDots path) .null = .ok (.arr []) := by
  obtain ⟨d2, hset, hget⟩ := setPath_after_get_null (splitDots path) st.data (.arr [])
    (splitDots_ne_nil path) habs
  refine ⟨d2, hset, ?_, hget⟩
  have hgl : _get_list st.data path (instr.coerce.bind st.coerceMap) true true
      = .ok ([], d2) := by
    have hss : _set_single st.data path (.arr []) none false none none true false
        = .ok d2 := by
      simp [_set_single, rangeCheck, hset, bind, Except.bind, pure, Except.pure]
    simp [_get_list, habs, hss, bind, Except.bind]
  simp [_get_internal_property, hs, hlk, instrCoerceId, hcontains, hgl,
    bind, Except.bind]

/-- C9 witness: the theorem applied to a schema declaring the field-list
`"x"` on an empty document. -/
theorem get_list_property_creates_and_binds_witness :
    ∃ data2, setPathGo (JValue.obj []) (splitDots "x") (.arr []) = .ok data2
      ∧ _get_internal_property
          ⟨[], [], .obj [], some (.mk [] [] [("x", ⟨some "field", none, none, none, none, none⟩)] [] []),
           [], true, DEFAULT_COERCE⟩ "x" true
          = .ok (.rlist [],
              { (⟨[], [], .obj [], some (.mk [] [] [("x", ⟨some "field", none, none, none, none, none⟩)] [] []),
                 [], true, DEFAULT_COERCE⟩ : DOState) with data := data2 })
      ∧ getPathGo data2 (splitDots "x") .null = .ok (.arr []) :=
  get_list_property_creates_and_binds
    ⟨[], [], .obj [], some (.mk [] [] [("x", ⟨some "field", none, none, none, none, none⟩)] [] []),
     [], true, DEFAULT_COERCE⟩ "x"
    (.mk [] [] [("x", ⟨some "field", none, none, none, none, none⟩)] [] [])
    none ⟨some "field", none, none, none, none, none⟩ true
    rfl rfl rfl rfl

theorem akeys_contains_isSome (l : List (String × α)) (k : String) :
    (akeys l).contains k = (alookup l k).isSome := by
  induction l with
  | nil => rfl
  | cons kv rest ih =>
      by_cases h : kv.1 = k
      · simp [akeys, List.contains_cons, alookup, h, beq_eq_decide_str]
      · have hsym : ¬ k = kv.1 := fun he => h he.symm
        have ih2 := ih
        simp [akeys] at ih2
        simp [akeys, List.contains_cons, alookup, h, hsym, beq_eq_decide_str, ih2]

/-- Non-null scalar document values (the values that read back unchanged
through the facade: mappings and lists come back wrapped, and a null stored
at an exposed key reads back as `{}` via `_wrap_validate`). -/
def isScalarNN : JValue → Bool
  | .b _ => true
  | .i _ => true
  | .s _ => true
  | _ => false

/-- A schema-bound model with field `"a"` declared, and a schema-less model
with data `{"n": 0}` exposed, used to refute C3 as stated. -/
def c3SchemaState : DOState :=
  ⟨[], [], .obj [("a", .s "x")],
   some (.mk [("a", ⟨none, none, none, none, none, none⟩)] [] [] [] []),
   [], true, DEFAULT_COERCE⟩

def c3FreeState : DOState :=
  ⟨[], [], .obj [("n", .i 0)], none, [], true, DEFAULT_COERCE⟩

/-- C3 (counterexample): the claim says setting an undeclared attribute on a
schema-bound model *fails with a structural error*.  It does not fail: the
set succeeds, the document is untouched, and the value lands in an ordinary
instance attribute (readable back).  Also, on a schema-less model the claim's
"readable back unchanged" fails for non-scalar values: storing `None` at an
exposed key writes `{}` (via `_wrap_validate`/`DataObj(None)`), and a stored
mapping reads back wrapped in a facade, not as the raw value. -/
theorem setattr_undeclared_succeeds_counterexample :
    pySetAttr c3SchemaState "undeclared" (.i 1)
      = .ok { c3SchemaState with instAttrs := [("undeclared", .i 1)] }
    ∧ pyGetAttr { c3SchemaState with instAttrs := [("undeclared", .i 1)] } "undeclared"
      = .ok (.rval (.i 1), { c3SchemaState with instAttrs := [("undeclared", .i 1)] })
    ∧ pySetAttr c3FreeState "n" .null
      = .ok { c3FreeState with data := .obj [("n", .obj [])] }
    ∧ pySetAttr c3FreeState "n" (.obj [("z", .i 1)])
      = .ok { c3FreeState with data := .obj [("n", .obj [("z", .i 1)])] }
    ∧ pyGetAttr { c3FreeState with data := .obj [("n", .obj [("z", .i 1)])] } "n"
      = .ok (.robj ⟨dataObjClassAttrs, [], .obj [("z", .i 1)], none, [], true, DEFAULT_COERCE⟩,
             { c3FreeState with data := .obj [("n", .obj [("z", .i 1)])] }) := by
  refine ⟨rfl, rfl, rfl, rfl, rfl⟩

/-- C3 (amended): (a) setting an attribute whose name is not declared in the
schema (nor a class attribute, internal slot, or property descriptor) on a
schema-bound model does *not* raise a structural error: the internal
document write is rejected and the set falls back to an ordinary instance
attribute, leaving the raw document untouched, and the value reads back
unchanged; (b) on a schema-less model the set succeeds, and a non-null
scalar value reads back unchanged (whether it went into the document — name
exposed as a data key — or into an instance attribute). -/
theorem setattr_undeclared_semantics :
    (∀ (st : DOState) (s : Struct) (key : String) (v : JValue),
       st.strct = some s →
       st.classAttrs.contains key = false →
       internalNames.contains key = false →
       alookup st.props key = none →
       (construct_data_keys s).contains key = false →
       pySetAttr st key v = .ok { st with instAttrs := asetKey st.instAttrs key v }
       ∧ pyGetAttr { st with instAttrs := asetKey st.instAttrs key v } key
           = .ok (.rval v, { st with instAttrs := asetKey st.instAttrs key v }))
    ∧ (∀ (st : DOState) (key : String) (v : JValue),
       st.strct = none →
       st.classAttrs.contains key = false →
       internalNames.contains key = false →
       alookup st.props key = none →
       alookup st.instAttrs key = none →
       splitDots key = [key] →
       isScalarNN v = true →
       ∃ st2, pySetAttr st key v = .ok st2
         ∧ pyGetAttr st2 key = .ok (.rval v, st2)) := by
  constructor
  · intro st s key v hs hca hint hprops hdk
    have hkd : ¬ key = "data" := by
      intro h
      rw [h] at hint
      simp [internalNames] at hint
    have hca2 : key ∉ st.classAttrs := by simpa using hca
    have hint2 : key ∉ internalNames := by simpa using hint
    have hdk2 : key ∉ construct_data_keys s := by simpa using hdk
    constructor
    · simp [pySetAttr, hca2, hkd, hint2, _list_dynamic_properties, hs, hprops, hdk2]
    · simp [pyGetAttr, alookup_asetKey_self]
  · intro st key v hs hca hint hprops hinst hsplit hscal
    have hkd : ¬ key = "data" := by
      intro h
      rw [h] at hint
      simp [internalNames] at hint
    have hvnn : v ≠ .null := by
      intro h; rw [h] at hscal; simp [isScalarNN] at hscal
    have hvarr : ∀ l, v ≠ .arr l := by
      intro l h; rw [h] at hscal; simp [isScalarNN] at hscal
    have hca2 : key ∉ st.classAttrs := by simpa using hca
    have hint2 : key ∉ internalNames := by simpa using hint
    -- the exposed data attributes of a schema-less model
    by_cases hexp : st.exposeData = true
    · match hd : st.data with
      | .obj kvs =>
          by_cases hmem : (akeys kvs).contains key = true
          · -- write goes into the document
            have hlook : (alookup kvs key).isSome := by
              rw [← akeys_contains_isSome]; exact hmem
            have hwrap : _wrap_validate v true none = .ok v := by
              match v with
              | .b bv => rfl
              | .i n => rfl
              | .s str => rfl
              | .null => simp [isScalarNN] at hscal
              | .arr _ => simp [isScalarNN] at hscal
              | .obj _ => simp [isScalarNN] at hscal
            have hss : _set_single (.obj kvs) key v none false none none true false
                = .ok (.obj (asetKey kvs key v)) := by
              simp [_set_single, hvnn, rangeCheck, hsplit, setPathGo,
                bind, Except.bind, pure, Except.pure]
            have hsip : _set_internal_property st key v true
                = .ok (true, { st with data := .obj (asetKey kvs key v) }) := by
              match v with
              | .b bv =>
                  simp [_set_internal_property, hs, hd, hwrap, hss, bind, Except.bind]
              | .i n =>
                  simp [_set_internal_property, hs, hd, hwrap, hss, bind, Except.bind]
              | .s str =>
                  simp [_set_internal_property, hs, hd, hwrap, hss, bind, Except.bind]
              | .null => simp [isScalarNN] at hscal
              | .arr _ => simp [isScalarNN] at hscal
              | .obj _ => simp [isScalarNN] at hscal
            have hmemP : key ∈ akeys kvs := by simpa using hmem
            refine ⟨{ st with data := .obj (asetKey kvs key v) }, ?_, ?_⟩
            · simp [pySetAttr, hca2, hkd, hint2, _list_dynamic_properties, hs, hd,
                hprops, hexp, hmemP, hsip, bind, Except.bind]
            · have hmem2 : (akeys (asetKey kvs key v)).contains key = true := by
                rw [akeys_contains_isSome, alookup_asetKey_self]
                rfl
              have hgs : _get_single (.obj (asetKey kvs key v)) key none .null true
                  = .ok v := by
                simp [_get_single, hsplit, getPathGo, dictGet, alookup_asetKey_self,
                  bind, Except.bind, pure, Except.pure]
              have hgip : _get_internal_property
                  { st with data := .obj (asetKey kvs key v) } key true
                  = .ok (.rval v, { st with data := .obj (asetKey kvs key v) }) := by
                match v with
                | .b bv =>
                    simp [_get_internal_property, hs, hgs, hvnn, bind, Except.bind]
                | .i n =>
                    simp [_get_internal_property, hs, hgs, hvnn, bind, Except.bind]
                | .s str =>
                    simp [_get_internal_property, hs, hgs, hvnn, bind, Except.bind]
                | .null => simp [isScalarNN] at hscal
                | .arr _ => simp [isScalarNN] at hscal
                | .obj _ => simp [isScalarNN] at hscal
              have hmem2P : key ∈ akeys (asetKey kvs key v) := by simpa using hmem2
              simp only [hs, hexp] at hgip
              simp [pyGetAttr, hinst, hca2, _list_dynamic_properties, hs, hprops,
                hexp, hmem2P, hgip]
          · -- not an exposed key: ordinary instance attribute
            have hmem2 : key ∉ akeys kvs := by simpa using hmem
            refine ⟨{ st with instAttrs := asetKey st.instAttrs key v }, ?_, ?_⟩
            · simp [pySetAttr, hca2, hkd, hint2, _list_dynamic_properties, hs, hd,
                hprops, hexp, hmem2]
            · simp [pyGetAttr, alookup_asetKey_self]
      | .null | .b _ | .i _ | .s _ | .arr _ =>
          refine ⟨{ st with instAttrs := asetKey st.instAttrs key v }, ?_, ?_⟩
          · simp [pySetAttr, hca2, hkd, hint2, _list_dynamic_properties, hs, hd,
              hprops, hexp]
          · simp [pyGetAttr, alookup_asetKey_self]
    · have hexp2 : st.exposeData = false := by simpa using hexp
      refine ⟨{ st with instAttrs := asetKey st.instAttrs key v }, ?_, ?_⟩
      · simp [pySetAttr, hca2, hkd, hint2, _list_dynamic_properties, hs, hexp2, hprops]
      · simp [pyGetAttr, alookup_asetKey_self]

/-- C3 witness: part (a) on the schema-bound model with a fresh name, and
part (b) on the schema-less model with an exposed key and a scalar. -/
theorem setattr_undeclared_semantics_witness :
    (pySetAttr c3SchemaState "other" (.s "y")
       = .ok { c3SchemaState with instAttrs := asetKey [] "other" (.s "y") }
     ∧ pyGetAttr { c3SchemaState with instAttrs := asetKey [] "other" (.s "y") } "other"
       = .ok (.rval (.s "y"),
           { c3SchemaState with instAttrs := asetKey [] "other" (.s "y") }))
    ∧ (∃ st2, pySetAttr c3FreeState "n" (.i 7) = .ok st2
        ∧ pyGetAttr st2 "n" = .ok (.rval (.i 7), st2)) :=
  ⟨setattr_undeclared_semantics.1 c3SchemaState
      (.mk [("a", ⟨none, none, none, none, none, none⟩)] [] [] [] [])
      "other" (.s "y") rfl rfl (by rfl) rfl (by rfl),
   setattr_undeclared_semantics.2 c3FreeState "n" (.i 7)
      rfl rfl (by rfl) rfl rfl rfl rfl⟩

mutual
/-- Recursive well-formedness of a document as a Python value: every mapping
level has unique keys (association lists can express duplicate keys; real
dicts cannot). -/
def jwf : JValue → Bool
  | .obj kvs => decide ((akeys kvs).Nodup) && jwfObj kvs
  | .arr xs => jwfList xs
  | _ => true
def jwfList : List JValue → Bool
  | [] => true
  | x :: xs => jwf x && jwfList xs
def jwfObj : JObj → Bool
  | [] => true
  | kv :: rest => jwf kv.2 && jwfObj rest
end

mutual
/-- Equality of documents up to key ordering: mappings are compared by
lookup (every binding of the left has an equal-up-to-ordering value in the
right, and every key of the right is a key of the left), lists positionally,
scalars exactly. -/
def equivOrder : JValue → JValue → Bool
  | .null, .null => true
  | .b x, .b y => x == y
  | .i x, .i y => x == y
  | .s x, .s y => x == y
  | .arr xs, .arr ys => equivOrderList xs ys
  | .obj xs, .obj ys =>
      equivObjL xs ys && (akeys ys).all (fun k => (alookup xs k).isSome)
  | _, _ => false
def equivOrderList : List JValue → List JValue → Bool
  | [], [] => true
  | x :: xs, y :: ys => equivOrder x y && equivOrderList xs ys
  | _, _ => false
def equivObjL : JObj → JObj → Bool
  | [], _ => true
  | kv :: rest, ys =>
      (match alookup ys kv.1 with
       | some w => equivOrder kv.2 w
       | none => false) && equivObjL rest ys
end

theorem alookup_mem : ∀ (l : List (String × α)) (k : String) (v : α),
    alookup l k = some v → (k, v) ∈ l
  | [], _, _, h => by simp [alookup] at h
  | kv :: rest, k, v, h => by
      by_cases hk : kv.1 = k
      · simp only [alookup, if_pos hk] at h
        cases h
        rw [← hk]
        exact List.mem_cons_self _ _
      · simp only [alookup, if_neg hk] at h
        exact List.mem_cons_of_mem _ (alookup_mem rest k v h)

theorem alookup_isSome_of_mem_akeys (l : List (String × α)) (k : String)
    (h : k ∈ akeys l) : (alookup l k).isSome := by
  induction l with
  | nil => simp [akeys] at h
  | cons kv rest ih =>
      by_cases hk : kv.1 = k
      · simp [alookup, hk]
      · have h2 : k ∈ akeys rest := by
          rcases (by simpa [akeys] using h : k = kv.1 ∨ k ∈ akeys rest) with h3 | h3
          · exact absurd h3.symm hk
          · exact h3
        simp [alookup, hk, ih h2]

theorem mem_akeys_of_alookup (l : List (String × α)) (k : String) (v : α)
    (h : alookup l k = some v) : k ∈ akeys l := by
  have := alookup_mem l k v h
  exact List.mem_map_of_mem (·.1) this

theorem alookup_self_of_nodup (l : List (String × α)) (kv : String × α)
    (hnd : (akeys l).Nodup) (hmem : kv ∈ l) : alookup l kv.1 = some kv.2 := by
  induction l with
  | nil => simp at hmem
  | cons kw rest ih =>
      have hnd' : (kw.1 :: akeys rest).Nodup := by simpa [akeys] using hnd
      rcases List.mem_cons.mp hmem with heq | hmem2
      · subst heq
        simp [alookup]
      · have hk : ¬ kw.1 = kv.1 := by
          intro he
          exact (List.nodup_cons.mp hnd').1
            (he ▸ (List.mem_map_of_mem (·.1) hmem2 : kv.1 ∈ akeys rest))
        simp [alookup, hk, ih hnd'.of_cons hmem2]

theorem asetKey_append_of_not_mem (l : List (String × α)) (k : String) (v : α)
    (h : k ∉ akeys l) : asetKey l k v = l ++ [(k, v)] := by
  induction l with
  | nil => rfl
  | cons kv rest ih =>
      have h1 : ¬ kv.1 = k := fun he => h (by simp [akeys, he])
      have h2 : k ∉ akeys rest := fun hm => h (by simp [akeys]; exact Or.inr (by simpa [akeys] using hm))
      simp [asetKey, h1, ih h2]

theorem asetKey_replace_appended (l : List (String × α)) (k : String) (v w : α)
    (h : k ∉ akeys l) : asetKey (l ++ [(k, v)]) k w = l ++ [(k, w)] := by
  induction l with
  | nil => simp [asetKey]
  | cons kv rest ih =>
      have h1 : ¬ kv.1 = k := fun he => h (by simp [akeys, he])
      have h2 : k ∉ akeys rest := fun hm => h (by simp [akeys]; exact Or.inr (by simpa [akeys] using hm))
      simp [asetKey, h1, ih h2]

theorem asetKey_id_of_alookup (l : List (String × α)) (k : String) (v : α)
    (h : alookup l k = some v) : asetKey l k v = l := by
  induction l with
  | nil => simp [alookup] at h
  | cons kv rest ih =>
      by_cases hk : kv.1 = k
      · simp only [alookup, if_pos hk] at h
        cases h
        subst hk
        simp [asetKey]
      · simp only [alookup, if_neg hk] at h
        simp [asetKey, hk, ih h]

theorem jwf_obj_elim (kvs : JObj) (h : jwf (.obj kvs) = true) :
    (akeys kvs).Nodup ∧ ∀ kv ∈ kvs, jwf kv.2 = true := by
  have h0 := h
  simp only [jwf, Bool.and_eq_true, decide_eq_true_eq] at h0
  refine ⟨h0.1, ?_⟩
  have h1 := h0.2
  clear h0 h
  induction kvs with
  | nil => intro kv h; simp at h
  | cons kw rest ih =>
      intro kv hm
      simp only [jwfObj, Bool.and_eq_true] at h1
      rcases List.mem_cons.mp hm with heq | hmem2
      · subst heq; exact h1.1
      · exact ih h1.2 kv hmem2

theorem jwf_arr_elim (xs : List JValue) (h : jwf (.arr xs) = true) :
    ∀ x ∈ xs, jwf x = true := by
  simp only [jwf] at h
  induction xs with
  | nil => intro x hx; simp at hx
  | cons y ys ih =>
      intro x hx
      simp only [jwfList, Bool.and_eq_true] at h
      rcases List.mem_cons.mp hx with heq | hmem
      · subst heq; exact h.1
      · exact ih h.2 x hmem

mutual
theorem equivOrder_refl : ∀ (v : JValue), jwf v = true → equivOrder v v = true
  | .null, _ => rfl
  | .b x, _ => by simp [equivOrder]
  | .i x, _ => by simp [equivOrder]
  | .s x, _ => by simp [equivOrder]
  | .arr xs, h => by
      simp only [equivOrder]
      exact equivOrderList_refl xs (by simpa [jwf] using h)
  | .obj kvs, h => by
      obtain ⟨hnd, _⟩ := jwf_obj_elim kvs h
      have hwl : jwfObj kvs = true := by
        have h0 := h
        simp only [jwf, Bool.and_eq_true] at h0
        exact h0.2
      simp only [equivOrder, Bool.and_eq_true]
      constructor
      · exact equivObjL_refl kvs kvs hnd hwl (fun kv hm => alookup_self_of_nodup kvs kv hnd hm)
      · simp only [List.all_eq_true]
        intro k hk
        exact alookup_isSome_of_mem_akeys kvs k hk
theorem equivOrderList_refl : ∀ (xs : List JValue), jwfList xs = true →
    equivOrderList xs xs = true
  | [], _ => rfl
  | x :: rest, h => by
      simp only [jwfList, Bool.and_eq_true] at h
      simp only [equivOrderList, Bool.and_eq_true]
      exact ⟨equivOrder_refl x h.1, equivOrderList_refl rest h.2⟩
theorem equivObjL_refl : ∀ (l kvs : JObj), (akeys kvs).Nodup → jwfObj l = true →
    (∀ kv ∈ l, alookup kvs kv.1 = some kv.2) →
    equivObjL l kvs = true
  | [], _, _, _, _ => rfl
  | kv :: rest, kvs, hnd, hw, hlk => by
      simp only [jwfObj, Bool.and_eq_true] at hw
      simp only [equivObjL, Bool.and_eq_true]
      constructor
      · rw [hlk kv (by simp)]
        exact equivOrder_refl kv.2 hw.1
      · exact equivObjL_refl rest kvs hnd hw.2 (fun kw hm => hlk kw (List.mem_cons_of_mem _ hm))
end

theorem equivObjL_of_forall (A B : JObj)
    (h : ∀ kv ∈ A, ∃ w, alookup B kv.1 = some w ∧ equivOrder kv.2 w = true) :
    equivObjL A B = true := by
  induction A with
  | nil => rfl
  | cons kv rest ih =>
      obtain ⟨w, hw, he⟩ := h kv (by simp)
      simp only [equivObjL, Bool.and_eq_true, hw, he]
      exact ⟨trivial, ih (fun kw hm => h kw (List.mem_cons_of_mem _ hm))⟩

/-- Is `v` a fixed point of the coercion `fn` (the coercion succeeds and
returns the value unchanged)?  Every value that `construct` has already
written is such a fixed point for the idempotent coercions of
`DEFAULT_COERCE` (e.g. `to_unicode` on a `str`, `to_int` on an `int`). -/
def fixedPointB (fn : CoFn) (v : JValue) : Bool :=
  match fn v with
  | .ok w => jbeq w v
  | .error _ => false

/-- Does `v` pass the `allowed_range` check? -/
def rangeOkB (v : JValue) (r : Option (Option Int × Option Int)) : Bool :=
  match rangeCheck v r with
  | .ok _ => true
  | .error _ => false

/-- Conformance of a document level to one declared scalar field: the key is
absent, or holds a non-`None` value that the field's coercion (which must
exist) fixes and that passes the `allowed_values`/`allowed_range` checks. -/
def fieldConformB (kvs : JObj) (c : CoerceMap) : String × FieldInstr → Bool :=
  fun fi =>
    match alookup kvs fi.1 with
    | none => true
    | some v =>
        decide (v ≠ .null)
        && (match c (fi.2.coerce.getD "unicode") with
            | none => false
            | some fn =>
                fixedPointB fn v
                && (match fi.2.allowed_values with
                    | some avs => avs.contains v
                    | none => true)
                && rangeOkB v fi.2.allowed_range)

/-- Conformance of a document level to one declared object field: the key is
absent, or holds a dict that (when a sub-struct is declared) recursively
conforms via `recConf`. -/
def objectConformB (recConf : JValue → Struct → Bool) (kvs : JObj)
    (structs : List (String × Struct)) : String → Bool :=
  fun name =>
    match alookup kvs name with
    | none => true
    | some (.obj sub) =>
        (match alookup structs name with
         | none => true
         | some si => recConf (.obj sub) si)
    | some _ => false

/-- Conformance of a document level to one declared list field: the key is
absent, or holds a non-empty Python list whose elements all conform: for
`contains: "field"` every element is a non-`None` fixed point of the list's
coercion (and the list is duplicate-free when `unique` is set); for
`contains: "object"` every element is a dict that recursively conforms when
a sub-struct is declared. -/
def listConformB (recConf : JValue → Struct → Bool) (kvs : JObj)
    (structs : List (String × Struct)) (c : CoerceMap) : String × ListInstr → Bool :=
  fun li =>
    match alookup kvs li.1 with
    | none => true
    | some (.arr l) =>
        decide (l ≠ [])
        && (if li.2.contains = some "field" then
              (match c (li.2.coerce.getD "unicode") with
               | none => false
               | some fn =>
                   l.all (fun e => decide (e ≠ .null) && fixedPointB fn e)
                   && (if li.2.unique = some true then decide l.Nodup else true))
            else if li.2.contains = some "object" then
              l.all (fun e =>
                match e with
                | .obj _ =>
                    (match alookup structs li.1 with
                     | none => true
                     | some si => recConf e si)
                | _ => false)
            else false)
    | some _ => false

/-- Conformance of a document to a Schema Description, with the same fuel
discipline as `constructF`: the document is a recursively well-formed dict
whose keys are dot-free, include the `required` names and fall within the
declared data keys (which are themselves duplicate-free, making the
`fields`/`objects`/`lists` name sets pairwise disjoint), and every declared
field/object/list entry present in the document conforms per
`fieldConformB`/`objectConformB`/`listConformB`. -/
def conformsToF : Nat → JValue → Struct → CoerceMap → Bool
  | 0, _, _, _ => false
  | fuel + 1, obj, s, c =>
      match obj with
      | .obj kvs =>
          jwf (.obj kvs)
          && decide ((construct_data_keys s).Nodup)
          && (akeys kvs).all (fun k => splitDots k == [k])
          && s.required.all (fun r => (akeys kvs).contains r)
          && (akeys kvs).all (fun k => (construct_data_keys s).contains k)
          && s.fields.all (fieldConformB kvs c)
          && s.objects.all (objectConformB (fun v si => conformsToF fuel v si c) kvs s.structs)
          && s.lists.all (listConformB (fun v si => conformsToF fuel v si c) kvs s.structs c)
      | _ => false

/-- Conformance of a document to a Schema Description, fuel seeded as in
`construct`. -/
def conformsTo (obj : JValue) (s : Struct) (c : CoerceMap) : Bool :=
  conformsToF (jsize obj) obj s c

theorem fixedPoint_eq (fn : CoFn) (v : JValue) (h : fixedPointB fn v = true) :
    fn v = .ok v := by
  unfold fixedPointB at h
  cases hr : fn v with
  | ok w =>
      rw [hr] at h
      rw [(jbeq_iff w v).mp h]
  | error e => rw [hr] at h; simp at h

theorem rangeCheck_ok_of_rangeOkB (v : JValue)
    (r : Option (Option Int × Option Int)) (h : rangeOkB v r = true) :
    rangeCheck v r = .ok () := by
  unfold rangeOkB at h
  cases hr : rangeCheck v r with
  | ok u => cases u; rfl
  | error e => rw [hr] at h; simp at h

theorem _set_single_appends (acc : JObj) (k : String) (v : JValue)
    (cast : Option CoFn) (acf : Bool) (avs : Option (List JValue))
    (rng : Option (Option Int × Option Int)) (an ign : Bool)
    (hv : v ≠ .null)
    (hco : ∀ fn, cast = some fn → pyCoerce v cast acf = .ok v)
    (havs : ∀ l, avs = some l → l.contains v = true)
    (hrng : rangeCheck v rng = .ok ())
    (hsplit : splitDots k = [k]) (hnot : k ∉ akeys acc) :
    _set_single (.obj acc) k v cast acf avs rng an ign
      = .ok (.obj (acc ++ [(k, v)])) := by
  have hset : setPathGo (.obj acc) (splitDots k) v = .ok (.obj (acc ++ [(k, v)])) := by
    rw [hsplit, ← asetKey_append_of_not_mem acc k v hnot]
    rfl
  unfold _set_single
  rw [if_neg (by simp [hv]), if_neg (by simp [hv])]
  cases cast with
  | none =>
      cases avs with
      | none => simp [hv, bind, Except.bind, pure, Except.pure, hrng, hset]
      | some l =>
          simp [hv, bind, Except.bind, pure, Except.pure, havs l rfl, hrng, hset]
  | some fn =>
      have hpc := hco fn rfl
      cases avs with
      | none => simp [hv, bind, Except.bind, hpc, hrng, hset]
      | some l => simp [hv, bind, Except.bind, hpc, havs l rfl, hrng, hset]

theorem akeys_append (a b : List (String × α)) :
    akeys (a ++ b) = akeys a ++ akeys b := List.map_append _ a b

theorem conFields_conform (kvs : JObj) (c : CoerceMap) (ctx : String) :
    ∀ (flds : List (String × FieldInstr)) (acc : JObj),
    flds.all (fieldConformB kvs c) = true →
    (∀ fi ∈ flds, (alookup kvs fi.1).isSome → splitDots fi.1 = [fi.1]) →
    (akeys flds).Nodup →
    (∀ fi ∈ flds, fi.1 ∉ akeys acc) →
    ∃ add, conFields flds kvs c ctx (.obj acc) = .ok (.obj (acc ++ add))
      ∧ (∀ kv ∈ add, alookup kvs kv.1 = some kv.2)
      ∧ (∀ k, k ∈ akeys flds → (alookup kvs k).isSome → k ∈ akeys add)
      ∧ (∀ k, k ∈ akeys add → k ∈ akeys flds)
  | [], acc, _, _, _, _ =>
      ⟨[], by simp [conFields], by simp, by simp [akeys], by simp [akeys]⟩
  | (fname, instr) :: rest, acc, hall, hdot, hnd, hdisj => by
      simp only [List.all_cons, Bool.and_eq_true] at hall
      have hnd' : (akeys rest).Nodup := by
        have h0 : (fname :: akeys rest).Nodup := by simpa [akeys] using hnd
        exact h0.of_cons
      have hfn : fname ∉ akeys rest := by
        have h0 : (fname :: akeys rest).Nodup := by simpa [akeys] using hnd
        exact (List.nodup_cons.mp h0).1
      cases hlk : alookup kvs fname with
      | none =>
          obtain ⟨add, hrun, h1, h2, h3⟩ := conFields_conform kvs c ctx rest acc hall.2
            (fun g hg hs => hdot g (List.mem_cons_of_mem _ hg) hs)
            hnd' (fun g hg => hdisj g (List.mem_cons_of_mem _ hg))
          refine ⟨add, by simpa [conFields, hlk] using hrun, h1, ?_, ?_⟩
          · intro k hk hs
            rcases (by simpa [akeys] using hk : k = fname ∨ k ∈ akeys rest) with he | hm
            · subst he; simp [hlk] at hs
            · exact h2 k hm hs
          · intro k hk
            simp only [akeys, List.map_cons, List.mem_cons]
            exact Or.inr (h3 k hk)
      | some v =>
          have hfc : fieldConformB kvs c (fname, instr) = true := hall.1
          simp only [fieldConformB, hlk, Bool.and_eq_true, decide_eq_true_eq] at hfc
          obtain ⟨hv, hrest⟩ := hfc
          cases hc : c (instr.coerce.getD "unicode") with
          | none => rw [hc] at hrest; simp at hrest
          | some fn =>
              rw [hc] at hrest
              simp only [Bool.and_eq_true] at hrest
              obtain ⟨⟨hfix, havs⟩, hrng⟩ := hrest
              have hpc : pyCoerce v (some fn) (instr.allow_coerce_failure.getD false)
                  = .ok v := by
                simp [pyCoerce, fixedPoint_eq fn v hfix]
              have hss := _set_single_appends acc fname v (some fn)
                (instr.allow_coerce_failure.getD false) instr.allowed_values
                instr.allowed_range (instr.allow_none.getD true)
                (instr.ignore_none.getD false) hv
                (fun f hf => by cases hf; exact hpc)
                (fun l hl => by rw [hl] at havs; exact havs)
                (rangeCheck_ok_of_rangeOkB v _ hrng)
                (hdot (fname, instr) (by simp) (by simp [hlk]))
                (hdisj (fname, instr) (by simp))
              have hdisj' : ∀ g ∈ rest, g.1 ∉ akeys (acc ++ [(fname, v)]) := by
                intro g hg hmem
                rw [akeys_append] at hmem
                rcases List.mem_append.mp hmem with hm | hm
                · exact hdisj g (List.mem_cons_of_mem _ hg) hm
                · have : g.1 = fname := by simpa [akeys] using hm
                  exact hfn (this ▸ List.mem_map_of_mem (·.1) hg)
              obtain ⟨add, hrun, h1, h2, h3⟩ := conFields_conform kvs c ctx rest
                (acc ++ [(fname, v)]) hall.2
                (fun g hg hs => hdot g (List.mem_cons_of_mem _ hg) hs)
                hnd' hdisj'
              refine ⟨(fname, v) :: add, ?_, ?_, ?_, ?_⟩
              · have : conFields ((fname, instr) :: rest) kvs c ctx (.obj acc)
                    = conFields rest kvs c ctx (.obj (acc ++ [(fname, v)])) := by
                  simp [conFields, hlk, hc, hss, wrapSchema, bind, Except.bind]
                rw [this, hrun]
                simp
              · intro kv hkv
                rcases List.mem_cons.mp hkv with he | hm
                · subst he; exact hlk
                · exact h1 kv hm
              · intro k hk hs
                rcases (by simpa [akeys] using hk : k = fname ∨ k ∈ akeys rest) with he | hm
                · subst he; simp [akeys]
                · simp only [akeys, List.map_cons, List.mem_cons]
                  exact Or.inr (h2 k hm hs)
              · intro k hk
                rcases (by simpa [akeys] using hk : k = fname ∨ k ∈ akeys add) with he | hm
                · subst he; simp [akeys]
                · simp only [akeys, List.map_cons, List.mem_cons]
                  exact Or.inr (h3 k hm)

theorem conObjects_conform (kvs : JObj) (structs : List (String × Struct))
    (ctx : String) (recurse : JValue → Struct → String → Except PyErr JValue)
    (recConf : JValue → Struct → Bool)
    (hrec : ∀ sub si ctx2, recConf (.obj sub) si = true →
        ∃ out, recurse (.obj sub) si ctx2 = .ok (.obj out)
          ∧ equivOrder (.obj out) (.obj sub) = true)
    (hwf : ∀ kv ∈ kvs, jwf kv.2 = true) :
    ∀ (names : List String) (acc : JObj),
    names.all (objectConformB recConf kvs structs) = true →
    (∀ n ∈ names, (alookup kvs n).isSome → splitDots n = [n]) →
    names.Nodup →
    (∀ n ∈ names, n ∉ akeys acc) →
    ∃ add, conObjects recurse names structs kvs ctx (.obj acc) = .ok (.obj (acc ++ add))
      ∧ (∀ kv ∈ add, ∃ v, alookup kvs kv.1 = some v ∧ equivOrder kv.2 v = true)
      ∧ (∀ k, k ∈ names → (alookup kvs k).isSome → k ∈ akeys add)
      ∧ (∀ k, k ∈ akeys add → k ∈ names)
  | [], acc, _, _, _, _ =>
      ⟨[], by simp [conObjects], by simp, by simp, by simp [akeys]⟩
  | name :: rest, acc, hall, hdot, hnd, hdisj => by
      simp only [List.all_cons, Bool.and_eq_true] at hall
      have hnd' : rest.Nodup := hnd.of_cons
      have hfn : name ∉ rest := (List.nodup_cons.mp hnd).1
      cases hlk : alookup kvs name with
      | none =>
          obtain ⟨add, hrun, h1, h2, h3⟩ := conObjects_conform kvs structs ctx recurse
            recConf hrec hwf rest acc hall.2
            (fun g hg hs => hdot g (List.mem_cons_of_mem _ hg) hs)
            hnd' (fun g hg => hdisj g (List.mem_cons_of_mem _ hg))
          refine ⟨add, by simpa [conObjects, hlk] using hrun, h1, ?_, ?_⟩
          · intro k hk hs
            rcases List.mem_cons.mp hk with he | hm
            · subst he; simp [hlk] at hs
            · exact h2 k hm hs
          · intro k hk
            exact List.mem_cons_of_mem _ (h3 k hk)
      | some v =>
          have hoc : objectConformB recConf kvs structs name = true := hall.1
          simp only [objectConformB, hlk] at hoc
          cases v with
          | null => simp at hoc
          | b bv => simp at hoc
          | i iv => simp at hoc
          | s sv => simp at hoc
          | arr xs => simp at hoc
          | obj sub =>
              have hjw : jwf (.obj sub) = true :=
                hwf (name, .obj sub) (alookup_mem kvs name _ hlk)
              have hstep : ∀ (w : JValue), w ≠ .null →
                  _set_single (.obj acc) name w none false none none true false
                    = .ok (.obj (acc ++ [(name, w)])) := by
                intro w hw
                exact _set_single_appends acc name w none false none none true false hw
                  (fun f hf => by cases hf) (fun l hl => by cases hl) rfl
                  (hdot name (by simp) (by simp [hlk])) (hdisj name (by simp))
              have hdisj' : ∀ (w : JValue) (g : String), g ∈ rest →
                  g ∉ akeys (acc ++ [(name, w)]) := by
                intro w g hg hmem
                rw [akeys_append] at hmem
                rcases List.mem_append.mp hmem with hm | hm
                · exact hdisj g (List.mem_cons_of_mem _ hg) hm
                · exact hfn ((by simpa [akeys] using hm : g = name) ▸ hg)
              cases hst : alookup structs name with
              | none =>
                  obtain ⟨add, hrun, h1, h2, h3⟩ := conObjects_conform kvs structs ctx
                    recurse recConf hrec hwf rest (acc ++ [(name, .obj sub)]) hall.2
                    (fun g hg hs => hdot g (List.mem_cons_of_mem _ hg) hs)
                    hnd' (hdisj' (.obj sub))
                  refine ⟨(name, .obj sub) :: add, ?_, ?_, ?_, ?_⟩
                  · have heq : conObjects recurse (name :: rest) structs kvs ctx (.obj acc)
                        = conObjects recurse rest structs kvs ctx
                            (.obj (acc ++ [(name, .obj sub)])) := by
                      simp [conObjects, hlk, hst, hstep (.obj sub) (by simp),
                        wrapSchema, bind, Except.bind]
                    rw [heq, hrun]
                    simp
                  · intro kv hkv
                    rcases List.mem_cons.mp hkv with he | hm
                    · subst he
                      exact ⟨.obj sub, hlk, equivOrder_refl _ hjw⟩
                    · exact h1 kv hm
                  · intro k hk hs
                    rcases List.mem_cons.mp hk with he | hm
                    · subst he; simp [akeys]
                    · simp only [akeys, List.map_cons, List.mem_cons]
                      exact Or.inr (h2 k hm hs)
                  · intro k hk
                    rcases (by simpa [akeys] using hk : k = name ∨ k ∈ akeys add) with he | hm
                    · subst he; simp
                    · exact List.mem_cons_of_mem _ (h3 k hm)
              | some si =>
                  rw [hst] at hoc
                  obtain ⟨out, hrn, heqv⟩ := hrec sub si (ctx ++ name ++ ".") hoc
                  obtain ⟨add, hrun, h1, h2, h3⟩ := conObjects_conform kvs structs ctx
                    recurse recConf hrec hwf rest (acc ++ [(name, .obj out)]) hall.2
                    (fun g hg hs => hdot g (List.mem_cons_of_mem _ hg) hs)
                    hnd' (hdisj' (.obj out))
                  refine ⟨(name, .obj out) :: add, ?_, ?_, ?_, ?_⟩
                  · have heq : conObjects recurse (name :: rest) structs kvs ctx (.obj acc)
                        = conObjects recurse rest structs kvs ctx
                            (.obj (acc ++ [(name, .obj out)])) := by
                      simp [conObjects, hlk, hst, hrn, hstep (.obj out) (by simp),
                        wrapSchema, bind, Except.bind]
                    rw [heq, hrun]
                    simp
                  · intro kv hkv
                    rcases List.mem_cons.mp hkv with he | hm
                    · subst he
                      exact ⟨.obj sub, hlk, heqv⟩
                    · exact h1 kv hm
                  · intro k hk hs
                    rcases List.mem_cons.mp hk with he | hm
                    · subst he; simp [akeys]
                    · simp only [akeys, List.map_cons, List.mem_cons]
                      exact Or.inr (h2 k hm hs)
                  · intro k hk
                    rcases (by simpa [akeys] using hk : k = name ∨ k ∈ akeys add) with he | hm
                    · subst he; simp
                    · exact List.mem_cons_of_mem _ (h3 k hm)

theorem _add_to_list_creates (acc : JObj) (k : String) (v : JValue)
    (cast : Option CoFn) (acf an ign uq : Bool)
    (hv : v ≠ .null)
    (hco : ∀ fn, cast = some fn → pyCoerce v cast acf = .ok v)
    (hsplit : splitDots k = [k]) (hnot : k ∉ akeys acc) :
    _add_to_list (.obj acc) k v cast acf an ign uq
      = .ok (.obj (acc ++ [(k, .arr [v])])) := by
  have hlk : alookup acc k = none := by
    cases h : alookup acc k with
    | none => rfl
    | some w => exact absurd (mem_akeys_of_alookup acc k w h) hnot
  have hget : getPathGo (.obj acc) (splitDots k) .null = .ok .null := by
    rw [hsplit]
    simp [getPathGo, dictGet, hlk]
  have hss : _set_single (.obj acc) k (.arr []) none false none none true false
      = .ok (.obj (acc ++ [(k, .arr [])])) :=
    _set_single_appends acc k (.arr []) none false none none true false (by simp)
      (fun f hf => by cases hf) (fun l hl => by cases hl) rfl hsplit hnot
  have hgl : _get_list (.obj acc) k none true true
      = .ok ([], .obj (acc ++ [(k, .arr [])])) := by
    simp [_get_list, bind, Except.bind, hget, hss]
  have hpc : (if cast.isSome then pyCoerce v cast acf else pure v)
      = (.ok v : Except PyErr JValue) := by
    cases cast with
    | none => simp [pure, Except.pure]
    | some fn => simpa using hco fn rfl
  have hset : setPathGo (.obj (acc ++ [(k, .arr [])])) (splitDots k) (.arr [v])
      = .ok (.obj (acc ++ [(k, .arr [v])])) := by
    rw [hsplit, ← asetKey_replace_appended acc k (.arr []) (.arr [v]) hnot]
    rfl
  unfold _add_to_list
  rw [if_neg (by simp [hv]), if_neg (by simp [hv])]
  cases cast with
  | none => simp [bind, Except.bind, pure, Except.pure, hgl, hset, List.contains]
  | some fn =>
      have hpc2 := hco fn rfl
      simp [bind, Except.bind, hpc2, hgl, hset, List.contains]

theorem _add_to_list_appends (acc : JObj) (k : String) (v : JValue)
    (cast : Option CoFn) (acf an ign uq : Bool) (cur : List JValue)
    (hv : v ≠ .null)
    (hco : ∀ fn, cast = some fn → pyCoerce v cast acf = .ok v)
    (hsplit : splitDots k = [k]) (hcur : alookup acc k = some (.arr cur))
    (huq : uq = true → cur.contains v = false) :
    _add_to_list (.obj acc) k v cast acf an ign uq
      = .ok (.obj (asetKey acc k (.arr (cur ++ [v])))) := by
  have hget : getPathGo (.obj acc) (splitDots k) .null = .ok (.arr cur) := by
    rw [hsplit]
    simp [getPathGo, dictGet, hcur]
  have hgl : _get_list (.obj acc) k none true true = .ok (cur, .obj acc) := by
    simp [_get_list, bind, Except.bind, hget]
  have hpc : (if cast.isSome then pyCoerce v cast acf else pure v)
      = (.ok v : Except PyErr JValue) := by
    cases cast with
    | none => simp [pure, Except.pure]
    | some fn => simpa using hco fn rfl
  have hset : setPathGo (.obj acc) (splitDots k) (.arr (cur ++ [v]))
      = .ok (.obj (asetKey acc k (.arr (cur ++ [v])))) := by
    rw [hsplit]
    rfl
  have hnotin : ¬ (uq = true ∧ cur.contains v = true) := by
    rintro ⟨h1, h2⟩
    rw [huq h1] at h2
    exact Bool.false_ne_true h2
  unfold _add_to_list
  rw [if_neg (by simp [hv]), if_neg (by simp [hv])]
  cases cast with
  | none => simp [bind, Except.bind, pure, Except.pure, hgl, hnotin, hset]
  | some fn =>
      have hpc2 := hco fn rfl
      simp [bind, Except.bind, hpc2, hgl, hnotin, hset]

theorem contains_false_of_not_mem (l : List JValue) (v : JValue) (h : v ∉ l) :
    l.contains v = false := by
  induction l with
  | nil => rfl
  | cons x xs ih =>
      have hx : jbeq v x = false := by
        cases hb : jbeq v x
        · rfl
        · exact absurd (((jbeq_iff v x).mp hb) ▸ List.mem_cons_self x xs) h
      have htail : v ∉ xs := fun hm => h (List.mem_cons_of_mem _ hm)
      show List.elem v (x :: xs) = false
      simp only [List.elem]
      rw [show (v == x) = jbeq v x from rfl, hx]
      exact ih htail

theorem asetKey_asetKey (l : List (String × α)) (k : String) (v w : α) :
    asetKey (asetKey l k v) k w = asetKey l k w := by
  induction l with
  | nil => simp [asetKey]
  | cons kv rest ih =>
      by_cases h : kv.1 = k
      · simp [asetKey, h]
      · simp [asetKey, h, ih]

theorem conListFieldElems_conform (name : String) (fn : CoFn) (instr : ListInstr)
    (hsplit : splitDots name = [name]) :
    ∀ (l : List JValue) (acc : JObj) (cur : List JValue),
    (∀ e ∈ l, e ≠ .null
      ∧ pyCoerce e (some fn) (instr.allow_coerce_failure.getD false) = .ok e) →
    (instr.unique.getD false = true → (cur ++ l).Nodup) →
    alookup acc name = some (.arr cur) →
    conListFieldElems l name fn instr (.obj acc)
      = .ok (.obj (asetKey acc name (.arr (cur ++ l))))
  | [], acc, cur, _, _, hcur => by
      rw [List.append_nil]
      rw [asetKey_id_of_alookup acc name (.arr cur) hcur]
      rfl
  | e :: rest, acc, cur, hel, huq, hcur => by
      have he := hel e (by simp)
      have hadd := _add_to_list_appends acc name e (some fn)
        (instr.allow_coerce_failure.getD false) (instr.allow_none.getD false)
        (instr.ignore_none.getD true) (instr.unique.getD false) cur he.1
        (fun f hf => he.2) hsplit hcur
        (fun hu => contains_false_of_not_mem cur e (fun hm => by
          have hnd := huq hu
          exact (List.disjoint_of_nodup_append hnd) hm (by simp)))
      have hih := conListFieldElems_conform name fn instr hsplit rest
        (asetKey acc name (.arr (cur ++ [e]))) (cur ++ [e])
        (fun g hg => hel g (List.mem_cons_of_mem _ hg))
        (fun hu => by
          have hnd := huq hu
          simpa [List.append_assoc] using hnd)
        (alookup_asetKey_self acc name (.arr (cur ++ [e])))
      have hstep : conListFieldElems (e :: rest) name fn instr (.obj acc)
          = conListFieldElems rest name fn instr
              (.obj (asetKey acc name (.arr (cur ++ [e])))) := by
        simp [conListFieldElems, hadd, wrapSchema, bind, Except.bind]
      rw [hstep, hih, asetKey_asetKey]
      simp [List.append_assoc]

theorem conListObjElems_conform (name : String) (ctx : String)
    (recurse : JValue → Struct → String → Except PyErr JValue)
    (recConf : JValue → Struct → Bool) (subinst : Option Struct)
    (hsplit : splitDots name = [name])
    (hrec : ∀ sub si ctx2, recConf (.obj sub) si = true →
        ∃ out, recurse (.obj sub) si ctx2 = .ok (.obj out)
          ∧ equivOrder (.obj out) (.obj sub) = true) :
    ∀ (l : List JValue) (idx : Nat) (acc : JObj) (cur : List JValue),
    (∀ e ∈ l, ∃ sub, e = .obj sub) →
    (subinst = none → ∀ e ∈ l, jwf e = true) →
    (∀ si, subinst = some si → ∀ e ∈ l, recConf e si = true) →
    alookup acc name = some (.arr cur) →
    ∃ outl, conListObjElems recurse l idx name subinst ctx (.obj acc)
        = .ok (.obj (asetKey acc name (.arr (cur ++ outl))))
      ∧ equivOrderList outl l = true
  | [], idx, acc, cur, _, _, _, hcur =>
      ⟨[], by
        rw [List.append_nil, asetKey_id_of_alookup acc name (.arr cur) hcur]
        rfl, rfl⟩
  | e :: rest, idx, acc, cur, hobj, hnone, hsome, hcur => by
      obtain ⟨sub, hsub⟩ := hobj e (by simp)
      subst hsub
      have hup : ∀ (w : JValue), w ≠ .null →
          ∀ (cur2 : List JValue), alookup acc name = some (.arr cur2) →
          _add_to_list (.obj acc) name w none false false true false
            = .ok (.obj (asetKey acc name (.arr (cur2 ++ [w])))) := by
        intro w hw cur2 hc2
        exact _add_to_list_appends acc name w none false false true false cur2 hw
          (fun f hf => by cases hf) hsplit hc2 (fun hu => Bool.noConfusion hu)
      cases hsi : subinst with
      | none =>
          obtain ⟨outl, hrun, heqv⟩ := conListObjElems_conform name ctx recurse recConf
            subinst hsplit hrec rest (idx + 1)
            (asetKey acc name (.arr (cur ++ [.obj sub]))) (cur ++ [.obj sub])
            (fun g hg => hobj g (List.mem_cons_of_mem _ hg))
            (fun hn g hg => hnone hn g (List.mem_cons_of_mem _ hg))
            (fun si hs g hg => hsome si hs g (List.mem_cons_of_mem _ hg))
            (alookup_asetKey_self acc name (.arr (cur ++ [.obj sub])))
          rw [hsi] at hrun
          refine ⟨.obj sub :: outl, ?_, ?_⟩
          · have hstep : conListObjElems recurse (.obj sub :: rest) idx name none ctx
                (.obj acc)
                = conListObjElems recurse rest (idx + 1) name none ctx
                    (.obj (asetKey acc name (.arr (cur ++ [.obj sub])))) := by
              simp [conListObjElems, hup (.obj sub) (by simp) cur hcur,
                wrapSchema, bind, Except.bind]
            rw [hstep, hrun, asetKey_asetKey]
            simp [List.append_assoc]
          · simp only [equivOrderList, Bool.and_eq_true]
            exact ⟨equivOrder_refl _ (hnone hsi (.obj sub) (by simp)), heqv⟩
      | some si =>
          obtain ⟨out, hrn, heq⟩ := hrec sub si
            (ctx ++ name ++ "[" ++ toString idx ++ "].")
            (hsome si hsi (.obj sub) (by simp))
          obtain ⟨outl, hrun, heqv⟩ := conListObjElems_conform name ctx recurse recConf
            subinst hsplit hrec rest (idx + 1)
            (asetKey acc name (.arr (cur ++ [.obj out]))) (cur ++ [.obj out])
            (fun g hg => hobj g (List.mem_cons_of_mem _ hg))
            (fun hn g hg => hnone hn g (List.mem_cons_of_mem _ hg))
            (fun si2 hs g hg => hsome si2 hs g (List.mem_cons_of_mem _ hg))
            (alookup_asetKey_self acc name (.arr (cur ++ [.obj out])))
          rw [hsi] at hrun
          refine ⟨.obj out :: outl, ?_, ?_⟩
          · have hstep : conListObjElems recurse (.obj sub :: rest) idx name (some si) ctx
                (.obj acc)
                = conListObjElems recurse rest (idx + 1) name (some si) ctx
                    (.obj (asetKey acc name (.arr (cur ++ [.obj out])))) := by
              simp [conListObjElems, hrn, hup (.obj out) (by simp) cur hcur,
                wrapSchema, bind, Except.bind]
            rw [hstep, hrun, asetKey_asetKey]
            simp [List.append_assoc]
          · simp only [equivOrderList, Bool.and_eq_true]
            exact ⟨heq, heqv⟩

theorem alookup_append_self (l : List (String × α)) (k : String) (v : α)
    (h : k ∉ akeys l) : alookup (l ++ [(k, v)]) k = some v := by
  induction l with
  | nil => simp [alookup]
  | cons kv rest ih =>
      have h1 : ¬ kv.1 = k := fun he => h (by simp [akeys, he])
      have h2 : k ∉ akeys rest := fun hm => h (by
        simp [akeys]
        exact Or.inr (by simpa [akeys] using hm))
      simp [alookup, h1, ih h2]

theorem conLists_conform (kvs : JObj) (structs : List (String × Struct))
    (c : CoerceMap) (ctx : String)
    (recurse : JValue → Struct → String → Except PyErr JValue)
    (recConf : JValue → Struct → Bool)
    (hrec : ∀ sub si ctx2, recConf (.obj sub) si = true →
        ∃ out, recurse (.obj sub) si ctx2 = .ok (.obj out)
          ∧ equivOrder (.obj out) (.obj sub) = true)
    (hwf : ∀ kv ∈ kvs, jwf kv.2 = true) :
    ∀ (lsts : List (String × ListInstr)) (acc : JObj),
    lsts.all (listConformB recConf kvs structs c) = true →
    (∀ li ∈ lsts, (alookup kvs li.1).isSome → splitDots li.1 = [li.1]) →
    (akeys lsts).Nodup →
    (∀ li ∈ lsts, li.1 ∉ akeys acc) →
    ∃ add, conLists recurse lsts structs kvs c ctx (.obj acc) = .ok (.obj (acc ++ add))
      ∧ (∀ kv ∈ add, ∃ v, alookup kvs kv.1 = some v ∧ equivOrder kv.2 v = true)
      ∧ (∀ k, k ∈ akeys lsts → (alookup kvs k).isSome → k ∈ akeys add)
      ∧ (∀ k, k ∈ akeys add → k ∈ akeys lsts)
  | [], acc, _, _, _, _ =>
      ⟨[], by simp [conLists], by simp, by simp [akeys], by simp [akeys]⟩
  | (name, instr) :: rest, acc, hall, hdot, hnd, hdisj => by
      simp only [List.all_cons, Bool.and_eq_true] at hall
      have hnd' : (akeys rest).Nodup := by
        have h0 : (name :: akeys rest).Nodup := by simpa [akeys] using hnd
        exact h0.of_cons
      have hfn : name ∉ akeys rest := by
        have h0 : (name :: akeys rest).Nodup := by simpa [akeys] using hnd
        exact (List.nodup_cons.mp h0).1
      cases hlk : alookup kvs name with
      | none =>
          obtain ⟨add, hrun, h1, h2, h3⟩ := conLists_conform kvs structs c ctx recurse
            recConf hrec hwf rest acc hall.2
            (fun g hg hs => hdot g (List.mem_cons_of_mem _ hg) hs)
            hnd' (fun g hg => hdisj g (List.mem_cons_of_mem _ hg))
          refine ⟨add, by simpa [conLists, hlk] using hrun, h1, ?_, ?_⟩
          · intro k hk hs
            rcases (by simpa [akeys] using hk : k = name ∨ k ∈ akeys rest) with he | hm
            · subst he; simp [hlk] at hs
            · exact h2 k hm hs
          · intro k hk
            simp only [akeys, List.map_cons, List.mem_cons]
            exact Or.inr (h3 k hk)
      | some v =>
          have hnotacc : name ∉ akeys acc := hdisj (name, instr) (by simp)
          have hsp : splitDots name = [name] :=
            hdot (name, instr) (by simp) (by simp [hlk])
          have hepi : ∀ (w : JValue),
              conLists recurse ((name, instr) :: rest) structs kvs c ctx (.obj acc)
                = conLists recurse rest structs kvs c ctx (.obj (acc ++ [(name, w)])) →
              equivOrder w v = true →
              ∃ add, conLists recurse ((name, instr) :: rest) structs kvs c ctx (.obj acc)
                  = .ok (.obj (acc ++ add))
                ∧ (∀ kv ∈ add, ∃ v0, alookup kvs kv.1 = some v0
                    ∧ equivOrder kv.2 v0 = true)
                ∧ (∀ k, k ∈ akeys ((name, instr) :: rest) → (alookup kvs k).isSome →
                    k ∈ akeys add)
                ∧ (∀ k, k ∈ akeys add → k ∈ akeys ((name, instr) :: rest)) := by
            intro w hrunfull hequiv
            have hdisj' : ∀ g ∈ rest, g.1 ∉ akeys (acc ++ [(name, w)]) := by
              intro g hg hmem
              rw [akeys_append] at hmem
              rcases List.mem_append.mp hmem with hm | hm
              · exact hdisj g (List.mem_cons_of_mem _ hg) hm
              · exact hfn ((by simpa [akeys] using hm : g.1 = name) ▸
                  List.mem_map_of_mem (·.1) hg)
            obtain ⟨add, hrun, h1, h2, h3⟩ := conLists_conform kvs structs c ctx recurse
              recConf hrec hwf rest (acc ++ [(name, w)]) hall.2
              (fun g hg hs => hdot g (List.mem_cons_of_mem _ hg) hs)
              hnd' hdisj'
            refine ⟨(name, w) :: add, ?_, ?_, ?_, ?_⟩
            · rw [hrunfull, hrun]
              simp
            · intro kv hkv
              rcases List.mem_cons.mp hkv with he | hm
              · subst he
                exact ⟨v, hlk, hequiv⟩
              · exact h1 kv hm
            · intro k hk hs
              rcases (by simpa [akeys] using hk : k = name ∨ k ∈ akeys rest) with he | hm
              · subst he; simp [akeys]
              · simp only [akeys, List.map_cons, List.mem_cons]
                exact Or.inr (h2 k hm hs)
            · intro k hk
              rcases (by simpa [akeys] using hk : k = name ∨ k ∈ akeys add) with he | hm
              · subst he; simp [akeys]
              · simp only [akeys, List.map_cons, List.mem_cons]
                exact Or.inr (h3 k hm)
          cases v with
          | null => exact absurd hall.1 (by simp [listConformB, hlk])
          | b bv => exact absurd hall.1 (by simp [listConformB, hlk])
          | i iv => exact absurd hall.1 (by simp [listConformB, hlk])
          | s sv => exact absurd hall.1 (by simp [listConformB, hlk])
          | obj o => exact absurd hall.1 (by simp [listConformB, hlk])
          | arr l =>
              have hlc : listConformB recConf kvs structs c (name, instr) = true := hall.1
              simp only [listConformB, hlk, Bool.and_eq_true, decide_eq_true_eq] at hlc
              obtain ⟨hne, hX⟩ := hlc
              have hjwl : jwf (.arr l) = true :=
                hwf (name, .arr l) (alookup_mem kvs name _ hlk)
              have hjwfel : ∀ e ∈ l, jwf e = true := jwf_arr_elim l hjwl
              by_cases hcf : instr.contains = some "field"
              · rw [if_pos hcf] at hX
                cases hc : c (instr.coerce.getD "unicode") with
                | none => rw [hc] at hX; simp at hX
                | some fn =>
                    rw [hc] at hX
                    simp only [Bool.and_eq_true] at hX
                    obtain ⟨hallel, huniq⟩ := hX
                    have helem : ∀ e ∈ l, e ≠ .null ∧ pyCoerce e (some fn)
                        (instr.allow_coerce_failure.getD false) = .ok e := by
                      intro e he
                      have h0 := List.all_eq_true.mp hallel e he
                      simp only [Bool.and_eq_true, decide_eq_true_eq] at h0
                      exact ⟨h0.1, by simp [pyCoerce, fixedPoint_eq fn e h0.2]⟩
                    have huq' : instr.unique.getD false = true → l.Nodup := by
                      intro hu
                      cases hiu : instr.unique with
                      | none => rw [hiu] at hu; simp at hu
                      | some bv =>
                          rw [hiu] at hu
                          simp only [Option.getD_some] at hu
                          subst hu
                          rw [hiu] at huniq
                          simpa using huniq
                    cases l with
                    | nil => exact absurd rfl hne
                    | cons e rest2 =>
                        have he1 := helem e (by simp)
                        have hadd1 := _add_to_list_creates acc name e (some fn)
                          (instr.allow_coerce_failure.getD false)
                          (instr.allow_none.getD false) (instr.ignore_none.getD true)
                          (instr.unique.getD false) he1.1 (fun f hf => he1.2) hsp hnotacc
                        have hih := conListFieldElems_conform name fn instr hsp rest2
                          (acc ++ [(name, .arr [e])]) [e]
                          (fun g hg => helem g (List.mem_cons_of_mem _ hg))
                          (fun hu => by simpa using huq' hu)
                          (alookup_append_self acc name (.arr [e]) hnotacc)
                        rw [asetKey_replace_appended acc name (.arr [e])
                          (.arr ([e] ++ rest2)) hnotacc] at hih
                        have hfull : conListFieldElems (e :: rest2) name fn instr (.obj acc)
                            = .ok (.obj (acc ++ [(name, .arr (e :: rest2))])) := by
                          have hstep1 : conListFieldElems (e :: rest2) name fn instr
                              (.obj acc)
                              = conListFieldElems rest2 name fn instr
                                  (.obj (acc ++ [(name, .arr [e])])) := by
                            simp [conListFieldElems, hadd1, wrapSchema, bind, Except.bind]
                          rw [hstep1, hih]
                          simp
                        refine hepi (.arr (e :: rest2)) ?_ (equivOrder_refl _ hjwl)
                        simp [conLists, hlk, hcf, hc, seqItems, hfull, bind, Except.bind]
              · by_cases hcb : instr.contains = some "object"
                · rw [if_neg hcf, if_pos hcb] at hX
                  have hobj : ∀ e ∈ l, ∃ sub, e = .obj sub := by
                    intro e he
                    have h0 := List.all_eq_true.mp hX e he
                    cases e with
                    | obj sub => exact ⟨sub, rfl⟩
                    | null => simp at h0
                    | b bv => simp at h0
                    | i iv => simp at h0
                    | s sv => simp at h0
                    | arr xs => simp at h0
                  have hsome : ∀ si, alookup structs name = some si →
                      ∀ e ∈ l, recConf e si = true := by
                    intro si hs e he
                    obtain ⟨sub, rfl⟩ := hobj e he
                    have h0 := List.all_eq_true.mp hX _ he
                    simp only [hs] at h0
                    simpa using h0
                  cases l with
                  | nil => exact absurd rfl hne
                  | cons e rest2 =>
                      obtain ⟨sub, rfl⟩ := hobj e (by simp)
                      have hepilist : ∀ (w : JValue), w ≠ .null →
                          equivOrder w (.obj sub) = true →
                          _add_to_list (.obj acc) name w none false false true false
                            = .ok (.obj (acc ++ [(name, .arr [w])])) →
                          conListObjElems recurse (.obj sub :: rest2) 0 name
                              (alookup structs name) ctx (.obj acc)
                            = conListObjElems recurse rest2 1 name
                                (alookup structs name) ctx
                                (.obj (acc ++ [(name, .arr [w])])) →
                          ∃ add, conLists recurse ((name, instr) :: rest) structs kvs c
                              ctx (.obj acc) = .ok (.obj (acc ++ add))
                            ∧ (∀ kv ∈ add, ∃ v0, alookup kvs kv.1 = some v0
                                ∧ equivOrder kv.2 v0 = true)
                            ∧ (∀ k, k ∈ akeys ((name, instr) :: rest) →
                                (alookup kvs k).isSome → k ∈ akeys add)
                            ∧ (∀ k, k ∈ akeys add → k ∈ akeys ((name, instr) :: rest)) := by
                        intro w hwnull hweq hadd1 hstep1
                        obtain ⟨outl, hrun2, heqv2⟩ := conListObjElems_conform name ctx
                          recurse recConf (alookup structs name) hsp hrec rest2 1
                          (acc ++ [(name, .arr [w])]) [w]
                          (fun g hg => hobj g (List.mem_cons_of_mem _ hg))
                          (fun hn g hg => hjwfel g (List.mem_cons_of_mem _ hg))
                          (fun si hs g hg => hsome si hs g (List.mem_cons_of_mem _ hg))
                          (alookup_append_self acc name (.arr [w]) hnotacc)
                        rw [asetKey_replace_appended acc name (.arr [w])
                          (.arr ([w] ++ outl)) hnotacc] at hrun2
                        have hfull : conListObjElems recurse (.obj sub :: rest2) 0 name
                            (alookup structs name) ctx (.obj acc)
                            = .ok (.obj (acc ++ [(name, .arr (w :: outl))])) := by
                          rw [hstep1, hrun2]
                          simp
                        refine hepi (.arr (w :: outl)) ?_ ?_
                        · simp [conLists, hlk, hcf, hcb, seqItems, hfull, bind, Except.bind]
                        · simp only [equivOrder, equivOrderList, Bool.and_eq_true]
                          exact ⟨hweq, heqv2⟩
                      cases hst : alookup structs name with
                      | none =>
                          have hadd1 := _add_to_list_creates acc name (.obj sub) none
                            false false true false (by simp) (fun f hf => by cases hf)
                            hsp hnotacc
                          refine hepilist (.obj sub) (by simp)
                            (equivOrder_refl _ (hjwfel (.obj sub) (by simp))) hadd1 ?_
                          rw [hst]
                          simp [conListObjElems, hadd1, wrapSchema, bind, Except.bind]
                      | some si =>
                          obtain ⟨out, hrn, heq⟩ := hrec sub si
                            (ctx ++ name ++ "[" ++ toString 0 ++ "].")
                            (hsome si hst (.obj sub) (by simp))
                          have hadd1 := _add_to_list_creates acc name (.obj out) none
                            false false true false (by simp) (fun f hf => by cases hf)
                            hsp hnotacc
                          refine hepilist (.obj out) (by simp) heq hadd1 ?_
                          rw [hst]
                          simp [conListObjElems, hrn, hadd1, wrapSchema, bind, Except.bind]
                · rw [if_neg hcf, if_neg hcb] at hX
                  exact absurd hX (by simp)

theorem mem_of_contains_str (l : List String) (k : String)
    (h : l.contains k = true) : k ∈ l := by
  induction l with
  | nil => simp [List.contains, List.elem] at h
  | cons x xs ih =>
      rw [List.contains_cons, Bool.or_eq_true, beq_eq_decide_str,
        decide_eq_true_eq] at h
      rcases h with he | hm
      · exact he ▸ List.mem_cons_self x xs
      · exact List.mem_cons_of_mem _ (ih hm)

theorem constructF_conform : ∀ (fuel : Nat) (kvs : JObj) (s : Struct)
    (c : CoerceMap) (ctx : String) (sp : Bool),
    conformsToF fuel (.obj kvs) s c = true →
    ∃ out, constructF fuel (.obj kvs) s c ctx sp = .ok (.obj out)
      ∧ equivOrder (.obj out) (.obj kvs) = true
  | 0, kvs, s, c, ctx, sp, hconf => by simp [conformsToF] at hconf
  | fuel + 1, kvs, s, c, ctx, sp, hconf => by
      simp only [conformsToF, Bool.and_eq_true, decide_eq_true_eq] at hconf
      obtain ⟨⟨⟨⟨⟨⟨⟨hjwf, hndk⟩, hdots⟩, hreq⟩, hsubk⟩, hflds⟩, hobjs⟩, hlsts⟩ := hconf
      have hvals : ∀ kv ∈ kvs, jwf kv.2 = true := (jwf_obj_elim kvs hjwf).2
      have hdotF : ∀ (k : String), (alookup kvs k).isSome → splitDots k = [k] := by
        intro k hs
        cases h : alookup kvs k with
        | none => rw [h] at hs; simp at hs
        | some w =>
            have hmem := mem_akeys_of_alookup kvs k w h
            have := List.all_eq_true.mp hdots k hmem
            exact eq_of_beq this
      have hrec : ∀ sub si ctx2, conformsToF fuel (.obj sub) si c = true →
          ∃ out, constructF fuel (.obj sub) si c ctx2 sp = .ok (.obj out)
            ∧ equivOrder (.obj out) (.obj sub) = true :=
        fun sub si ctx2 h => constructF_conform fuel sub si c ctx2 sp h
      simp only [construct_data_keys] at hndk
      obtain ⟨hndfo, hndl, hdisjfo_l⟩ := List.nodup_append.mp hndk
      obtain ⟨hndf, hndo, hdisjf_o⟩ := List.nodup_append.mp hndfo
      obtain ⟨addF, hrunF, hF1, hF2, hF3⟩ := conFields_conform kvs c ctx s.fields []
        hflds (fun fi _ hs => hdotF fi.1 hs) hndf (fun fi _ => by simp [akeys])
      have hdisjO : ∀ n ∈ s.objects, n ∉ akeys addF :=
        fun n hn hmem => hdisjf_o (hF3 n hmem) hn
      obtain ⟨addO, hrunO, hO1, hO2, hO3⟩ := conObjects_conform kvs s.structs ctx
        (fun v sub2 ctx2 => constructF fuel v sub2 c ctx2 sp)
        (fun v si => conformsToF fuel v si c) hrec hvals s.objects addF hobjs
        (fun n _ hs => hdotF n hs) hndo hdisjO
      have hdisjL : ∀ li ∈ s.lists, li.1 ∉ akeys (addF ++ addO) := by
        intro li hli hmem
        rw [akeys_append] at hmem
        have hkl : li.1 ∈ akeys s.lists := List.mem_map_of_mem (·.1) hli
        rcases List.mem_append.mp hmem with hm | hm
        · exact hdisjfo_l (List.mem_append.mpr (Or.inl (hF3 _ hm))) hkl
        · exact hdisjfo_l (List.mem_append.mpr (Or.inr (hO3 _ hm))) hkl
      obtain ⟨addL, hrunL, hL1, hL2, hL3⟩ := conLists_conform kvs s.structs c ctx
        (fun v sub2 ctx2 => constructF fuel v sub2 c ctx2 sp)
        (fun v si => conformsToF fuel v si c) hrec hvals s.lists (addF ++ addO) hlsts
        (fun li _ hs => hdotF li.1 hs) hndl hdisjL
      have hfind1 : List.find? (fun r => !decide (r ∈ akeys kvs)) s.required
          = none := by
        rw [List.find?_eq_none]
        intro r hr
        have hmem := mem_of_contains_str _ r (List.all_eq_true.mp hreq r hr)
        simp [hmem]
      have hfind2 : List.find? (fun k => !decide (k ∈ akeys s.fields) &&
          (!decide (k ∈ s.objects) && !decide (k ∈ akeys s.lists))) (akeys kvs)
            = none := by
        rw [List.find?_eq_none]
        intro k hk
        have hmem := mem_of_contains_str _ k (List.all_eq_true.mp hsubk k hk)
        simp only [construct_data_keys] at hmem
        rcases List.mem_append.mp hmem with hm | hm3
        · rcases List.mem_append.mp hm with hm1 | hm2
          · simp [hm1]
          · simp [hm2]
        · simp [hm3]
      simp only [List.nil_append] at hrunF
      have hrun : constructF (fuel + 1) (.obj kvs) s c ctx sp
          = .ok (.obj ((addF ++ addO) ++ addL)) := by
        cases sp with
        | false =>
            simp [constructF, hfind1, hfind2, hrunF, hrunO, hrunL, bind, Except.bind]
        | true =>
            simp [constructF, hfind1, hrunF, hrunO, hrunL, bind, Except.bind]
      refine ⟨(addF ++ addO) ++ addL, hrun, ?_⟩
      simp only [equivOrder, Bool.and_eq_true]
      constructor
      · apply equivObjL_of_forall
        intro kv hkv
        rcases List.mem_append.mp hkv with hm | hmL
        · rcases List.mem_append.mp hm with hmF | hmO
          · have h := hF1 kv hmF
            exact ⟨kv.2, h,
              equivOrder_refl _ (hvals (kv.1, kv.2) (alookup_mem _ _ _ h))⟩
          · exact hO1 kv hmO
        · exact hL1 kv hmL
      · rw [List.all_eq_true]
        intro k hk
        have hcont := List.all_eq_true.mp hsubk k hk
        have hmemd : k ∈ construct_data_keys s := mem_of_contains_str _ k hcont
        simp only [construct_data_keys] at hmemd
        have hks : (alookup kvs k).isSome := alookup_isSome_of_mem_akeys kvs k hk
        have hout : k ∈ akeys ((addF ++ addO) ++ addL) := by
          rw [akeys_append, akeys_append]
          rcases List.mem_append.mp hmemd with hm | hmlist
          · rcases List.mem_append.mp hm with hmf | hmo
            · exact List.mem_append.mpr (Or.inl (List.mem_append.mpr
                (Or.inl (hF2 k hmf hks))))
            · exact List.mem_append.mpr (Or.inl (List.mem_append.mpr
                (Or.inr (hO2 k hmo hks))))
          · exact List.mem_append.mpr (Or.inr (hL2 k hmlist hks))
        exact alookup_isSome_of_mem_akeys _ k hout

/-- Addressed documents: the same value language as `JValue`, but every
container (Python `list`/`dict`) carries the address (`id()`) of the object.
Mutating a container in Python affects exactly the holders of that address,
so "mutating the result never mutates the input" is: the container addresses
of the result are disjoint from those of the input.  A counter threads
through the addressed semantics and is bumped whenever Python allocates a
new container. -/
inductive AJValue where
  | null : AJValue
  | b (v : Bool) : AJValue
  | i (v : Int) : AJValue
  | s (v : String) : AJValue
  | arr (id : Nat) (items : List AJValue) : AJValue
  | obj (id : Nat) (fields : List (String × AJValue)) : AJValue

abbrev AJObj := List (String × AJValue)

mutual
/-- All container addresses occurring in an addressed value. -/
def aids : AJValue → List Nat
  | .null => []
  | .b _ => []
  | .i _ => []
  | .s _ => []
  | .arr id xs => id :: aidsList xs
  | .obj id kvs => id :: aidsObj kvs
def aidsList : List AJValue → List Nat
  | [] => []
  | x :: xs => aids x ++ aidsList xs
def aidsObj : AJObj → List Nat
  | [] => []
  | kv :: rest => aids kv.2 ++ aidsObj rest
end

mutual
/-- Forget the addresses (the plain value a Python `==` comparison sees). -/
def eraseA : AJValue → JValue
  | .null => .null
  | .b v => .b v
  | .i v => .i v
  | .s v => .s v
  | .arr _ xs => .arr (eraseAList xs)
  | .obj _ kvs => .obj (eraseAObj kvs)
def eraseAList : List AJValue → List JValue
  | [] => []
  | x :: xs => eraseA x :: eraseAList xs
def eraseAObj : AJObj → List (String × JValue)
  | [] => []
  | kv :: rest => (kv.1, eraseA kv.2) :: eraseAObj rest
end

mutual
/-- Build an addressed value from a plain one, allocating fresh addresses
for every container (what constructing a brand-new Python object does). -/
def liftA : JValue → Nat → AJValue × Nat
  | .null, n => (.null, n)
  | .b v, n => (.b v, n)
  | .i v, n => (.i v, n)
  | .s v, n => (.s v, n)
  | .arr xs, n =>
      match liftAList xs (n + 1) with
      | (ys, n1) => (.arr n ys, n1)
  | .obj kvs, n =>
      match liftAObj kvs (n + 1) with
      | (fs, n1) => (.obj n fs, n1)
def liftAList : List JValue → Nat → List AJValue × Nat
  | [], n => ([], n)
  | x :: xs, n =>
      match liftA x n with
      | (y, n1) =>
          match liftAList xs n1 with
          | (ys, n2) => (y :: ys, n2)
def liftAObj : List (String × JValue) → Nat → AJObj × Nat
  | [], n => ([], n)
  | kv :: rest, n =>
      match liftA kv.2 n with
      | (w, n1) =>
          match liftAObj rest n1 with
          | (ws, n2) => ((kv.1, w) :: ws, n2)
end

/-- `copy.deepcopy`: a recursively fresh copy that is `==`-equal to the
original but shares no container with anything existing. -/
def deepcopyA (v : AJValue) (n : Nat) : AJValue × Nat :=
  liftA (eraseA v) n

mutual
/-- Fuel for the addressed `construct` (same role as `jsize`). -/
def asize : AJValue → Nat
  | .null => 1
  | .b _ => 1
  | .i _ => 1
  | .s _ => 1
  | .arr _ xs => 1 + asizeList xs
  | .obj _ kvs => 1 + asizeObj kvs
def asizeList : List AJValue → Nat
  | [] => 0
  | x :: xs => 1 + asize x + asizeList xs
def asizeObj : AJObj → Nat
  | [] => 0
  | kv :: rest => 1 + asize kv.2 + asizeObj rest
end

/-- Is the addressed value Python `None` (`val is None`)? -/
def isNullA : AJValue → Bool
  | .null => true
  | _ => false

/-- Addressed `context.get(p, d)`: the default `d` has been allocated by the
caller. -/
def dictGetA (ctx : AJValue) (p : String) (d : AJValue) : Except PyErr AJValue :=
  match ctx with
  | .obj _ kvs => .ok ((alookup kvs p).getD d)
  | _ => .error (.attributeError "object has no attribute get")

/-- Addressed `_get_path` loop: the `{}` default for an intermediate segment
is a freshly allocated dict (Python evaluates the `{}` literal on every
`.get(p, {})` call). -/
def getPathGoA : AJValue → List String → AJValue → Nat → Except PyErr (AJValue × Nat)
  | ctx, [], _, n => .ok (ctx, n)
  | ctx, [p], dflt, n => do
      let v ← dictGetA ctx p dflt
      .ok (v, n)
  | ctx, p :: rest, dflt, n => do
      let c1 ← dictGetA ctx p (.obj n [])
      getPathGoA c1 rest dflt (n + 1)

/-- Addressed `_set_path` loop: a missing intermediate segment gets a fresh
`\x7b\x7d`; updating a key keeps the containing dict's address (in-place
mutation). -/
def setPathGoA : AJValue → List String → AJValue → Nat → Except PyErr (AJValue × Nat)
  | ctx, [], _, n => .ok (ctx, n)
  | .obj id kvs, [p], v, n => .ok (.obj id (asetKey kvs p v), n)
  | .obj id kvs, p :: rest, v, n =>
      (match alookup kvs p with
       | none => do
           let sub ← setPathGoA (.obj n []) rest v (n + 1)
           .ok (.obj id (asetKey kvs p sub.1), sub.2)
       | some cur => do
           let sub ← setPathGoA cur rest v n
           .ok (.obj id (asetKey kvs p sub.1), sub.2))
  | _, _ :: _, _, _ => .error (.typeError "membership or item assignment on non-dict")

/-- Addressed `_coerce`: the cast runs on the plain value and its result is a
newly built object (fresh addresses; faithful for casts that return new or
immutable values, as all `DEFAULT_COERCE` casts do); a caught failure with
`accept_failure` returns the original object itself (an alias). -/
def pyCoerceA (val : AJValue) (cast : Option CoFn) (accept_failure : Bool)
    (n : Nat) : Except PyErr (AJValue × Nat) :=
  match cast with
  | none => .ok (val, n)
  | some fn =>
      match fn (eraseA val) with
      | .ok v => .ok (liftA v n)
      | .error (.valueError _) =>
          if accept_failure then .ok (val, n)
          else .error (.schemaCastFailed (eraseA val))
      | .error (.typeError _) =>
          if accept_failure then .ok (val, n)
          else .error (.schemaCastFailed (eraseA val))
      | .error e => .error e

/-- Addressed `_set_single`. -/
def _set_singleA (data : AJValue) (path : String) (val : AJValue)
    (coerce : Option CoFn) (allow_coerce_failure : Bool)
    (allowed_values : Option (List JValue))
    (allowed_range : Option (Option Int × Option Int))
    (allow_none : Bool) (ignore_none : Bool) (n : Nat) :
    Except PyErr (AJValue × Nat) :=
  if isNullA val = true ∧ ignore_none = true then .ok (data, n)
  else if isNullA val = true ∧ allow_none = false then
    .error (.schemaNoneNotAllowed path)
  else do
    let cv ← if coerce.isSome ∧ isNullA val = false then
        pyCoerceA val coerce allow_coerce_failure n
      else pure (val, n)
    match allowed_values with
    | some avs =>
        if avs.contains (eraseA cv.1) then do
          rangeCheck (eraseA cv.1) allowed_range
          setPathGoA data (splitDots path) cv.1 cv.2
        else .error (.schemaValueNotPermitted (eraseA cv.1) path)
    | none => do
        rangeCheck (eraseA cv.1) allowed_range
        setPathGoA data (splitDots path) cv.1 cv.2

/-- Addressed elementwise `_coerce` over a list (the list comprehension in
`_get_list`). -/
def pyCoerceAList (vals : List AJValue) (fn : CoFn) (acf : Bool) (n : Nat) :
    Except PyErr (List AJValue × Nat) :=
  match vals with
  | [] => .ok ([], n)
  | v :: rest => do
      let cv ← pyCoerceA v (some fn) acf n
      let cr ← pyCoerceAList rest fn acf cv.2
      .ok (cv.1 :: cr.1, cr.2)

/-- Addressed `_get_list`: returns the address and elements of the list at
the path (allocating a fresh `[]` where the Python code does), together with
the updated document and counter. -/
def _get_listA (data : AJValue) (path : String) (coerce : Option CoFn)
    (by_reference : Bool) (allow_coerce_failure : Bool) (n : Nat) :
    Except PyErr ((Nat × List AJValue) × AJValue × Nat) := do
  let gv ← getPathGoA data (splitDots path) .null n
  match gv.1 with
  | .null =>
      if by_reference then do
        let d1 ← _set_singleA data path (.arr gv.2 []) none false none none true
          false (gv.2 + 1)
        .ok ((gv.2, []), d1.1, d1.2)
      else .ok ((gv.2, []), data, gv.2 + 1)
  | .arr lid l =>
      match coerce with
      | some fn => do
          let co ← pyCoerceAList l fn allow_coerce_failure gv.2
          if by_reference then do
            let d1 ← _set_singleA data path (.arr co.2 co.1) none false none none
              true false (co.2 + 1)
            .ok ((co.2, co.1), d1.1, d1.2)
          else .ok ((co.2, co.1), data, co.2 + 1)
      | none => .ok ((lid, l), data, gv.2)
  | v => .error (.schemaExpectingList path (eraseA v))

/-- Addressed `_add_to_list`: `current.append(val)` extends the list at the
path keeping its address. -/
def _add_to_listA (data : AJValue) (path : String) (val : AJValue)
    (coerce : Option CoFn) (allow_coerce_failure : Bool)
    (allow_none : Bool) (ignore_none : Bool) (unique : Bool) (n : Nat) :
    Except PyErr (AJValue × Nat) :=
  if isNullA val = true ∧ ignore_none = true then .ok (data, n)
  else if isNullA val = true ∧ allow_none = false then
    .error (.schemaNoneInList path)
  else do
    let cv ← if coerce.isSome then pyCoerceA val coerce allow_coerce_failure n
      else pure (val, n)
    let cur ← _get_listA data path none true true cv.2
    if unique = true ∧ (cur.1.2.map eraseA).contains (eraseA cv.1) then
      .ok (cur.2.1, cur.2.2)
    else
      setPathGoA cur.2.1 (splitDots path) (.arr cur.1.1 (cur.1.2 ++ [cv.1])) cur.2.2

/-- Addressed `fields` loop of `construct`. -/
def conFieldsA (flds : List (String × FieldInstr)) (kvs : AJObj) (c : CoerceMap)
    (context : String) (acc : AJValue) (n : Nat) : Except PyErr (AJValue × Nat) :=
  match flds with
  | [] => .ok (acc, n)
  | (fname, instr) :: rest =>
      match alookup kvs fname with
      | none => conFieldsA rest kvs c context acc n
      | some .null => conFieldsA rest kvs c context acc n
      | some v =>
          match c (instr.coerce.getD "unicode") with
          | none => .error (.structNoCoercion (instr.coerce.getD "unicode")
              (context ++ fname))
          | some fn => do
              let r ← wrapSchema (_set_singleA acc fname v (some fn)
                (instr.allow_coerce_failure.getD false) instr.allowed_values
                instr.allowed_range (instr.allow_none.getD true)
                (instr.ignore_none.getD false) n)
              conFieldsA rest kvs c context r.1 r.2

/-- Addressed `objects` loop of `construct` (the `deepcopy(val)` of the
no-sub-struct branch allocates a fresh copy). -/
def conObjectsA (recurse : AJValue → Struct → String → Nat → Except PyErr (AJValue × Nat))
    (names : List String) (structs : List (String × Struct)) (kvs : AJObj)
    (context : String) (acc : AJValue) (n : Nat) : Except PyErr (AJValue × Nat) :=
  match names with
  | [] => .ok (acc, n)
  | name :: rest =>
      match alookup kvs name with
      | none => conObjectsA recurse rest structs kvs context acc n
      | some .null => conObjectsA recurse rest structs kvs context acc n
      | some (.obj vid sub) =>
          match alookup structs name with
          | none => do
              let cp := deepcopyA (.obj vid sub) n
              let r ← wrapSchema (_set_singleA acc name cp.1 none false none none
                true false cp.2)
              conObjectsA recurse rest structs kvs context r.1 r.2
          | some instructions => do
              let ben ← recurse (.obj vid sub) instructions (context ++ name ++ ".") n
              let r ← wrapSchema (_set_singleA acc name ben.1 none false none none
                true false ben.2)
              conObjectsA recurse rest structs kvs context r.1 r.2
      | some v => .error (.structExpectedObject (context ++ name) (eraseA v))

/-- Addressed element loop for a `contains: "field"` list. -/
def conListFieldElemsA (vals : List AJValue) (name : String) (fn : CoFn)
    (instr : ListInstr) (acc : AJValue) (n : Nat) : Except PyErr (AJValue × Nat) :=
  match vals with
  | [] => .ok (acc, n)
  | v :: rest => do
      let r ← wrapSchema (_add_to_listA acc name v (some fn)
        (instr.allow_coerce_failure.getD false) (instr.allow_none.getD false)
        (instr.ignore_none.getD true) (instr.unique.getD false) n)
      conListFieldElemsA rest name fn instr r.1 r.2

/-- Addressed element loop for a `contains: "object"` list. -/
def conListObjElemsA (recurse : AJValue → Struct → String → Nat → Except PyErr (AJValue × Nat))
    (vals : List AJValue) (idx : Nat) (name : String) (subinst : Option Struct)
    (context : String) (acc : AJValue) (n : Nat) : Except PyErr (AJValue × Nat) :=
  match vals with
  | [] => .ok (acc, n)
  | v :: rest =>
      match v with
      | .obj vid sub =>
          match subinst with
          | none => do
              let cp := deepcopyA (.obj vid sub) n
              let r ← wrapSchema (_add_to_listA acc name cp.1 none false false true
                false cp.2)
              conListObjElemsA recurse rest (idx + 1) name subinst context r.1 r.2
          | some si => do
              let ben ← recurse (.obj vid sub) si
                (context ++ name ++ "[" ++ toString idx ++ "].") n
              let r ← wrapSchema (_add_to_listA acc name ben.1 none false false true
                false ben.2)
              conListObjElemsA recurse rest (idx + 1) name subinst context r.1 r.2
      | _ => .error (.structExpectedObjectAt (context ++ name) idx (eraseA v))

/-- Addressed `range(len(vals))`/`vals[i]` iteration (see `seqItems`): a
string's characters are freshly built one-character strings (scalars, so no
addresses are involved). -/
def seqItemsA : AJValue → Except PyErr (List AJValue)
  | .arr _ l => .ok l
  | .s t => .ok (t.data.map (fun ch => .s (String.mk [ch])))
  | .obj _ kvs => if kvs.isEmpty then .ok [] else .error (.keyError "0")
  | _ => .error (.typeError "object has no len")

/-- Addressed `lists` loop of `construct`. -/
def conListsA (recurse : AJValue → Struct → String → Nat → Except PyErr (AJValue × Nat))
    (lsts : List (String × ListInstr)) (structs : List (String × Struct))
    (kvs : AJObj) (c : CoerceMap) (context : String) (acc : AJValue) (n : Nat) :
    Except PyErr (AJValue × Nat) :=
  match lsts with
  | [] => .ok (acc, n)
  | (name, instr) :: rest =>
      match alookup kvs name with
      | none => conListsA recurse rest structs kvs c context acc n
      | some .null => conListsA recurse rest structs kvs c context acc n
      | some vals =>
          if instr.contains = some "field" then
            match c (instr.coerce.getD "unicode") with
            | none => .error (.structNoCoercion (instr.coerce.getD "unicode")
                (context ++ name))
            | some fn => do
                let items ← seqItemsA vals
                let r ← conListFieldElemsA items name fn instr acc n
                conListsA recurse rest structs kvs c context r.1 r.2
          else if instr.contains = some "object" then do
            let items ← seqItemsA vals
            let r ← conListObjElemsA recurse items 0 name (alookup structs name)
              context acc n
            conListsA recurse rest structs kvs c context r.1 r.2
          else .error (.structBadContains (context ++ name) instr.contains)

/-- Addressed `construct`: `DataObj()` allocates a fresh dict for the output
document, and every value written into it is either freshly allocated
(coercion results, deep copies, intermediate dicts/lists) or produced by the
recursion. -/
def constructAF : Nat → AJValue → Struct → CoerceMap → String → Bool → Nat →
    Except PyErr (AJValue × Nat)
  | 0, _, _, _, _, _, _ => .error .fuelExhausted
  | fuel + 1, obj, s, c, context, silent_prune, n =>
      match obj with
      | .null => .ok (.null, n)
      | .obj _ kvs =>
          let keys := akeys kvs
          match s.required.find? (fun r => ¬ keys.contains r) with
          | some r => .error (.structRequired r (if context = "" then "root" else context))
          | none =>
              let allowed := akeys s.fields ++ s.objects ++ akeys s.lists
              match (if silent_prune then none
                     else keys.find? (fun k => ¬ allowed.contains k)) with
              | some k => .error (.structNotPermitted k (if context = "" then "root" else context))
              | none => do
                  let r1 ← conFieldsA s.fields kvs c context (.obj n []) (n + 1)
                  let r2 ← conObjectsA
                    (fun v sub ctx2 m => constructAF fuel v sub c ctx2 silent_prune m)
                    s.objects s.structs kvs context r1.1 r1.2
                  conListsA
                    (fun v sub ctx2 m => constructAF fuel v sub c ctx2 silent_prune m)
                    s.lists s.structs kvs c context r2.1 r2.2
      | _ => .error (.attributeError "object has no attribute keys")

/-- Addressed `construct` at the top level. -/
def constructA (obj : AJValue) (s : Struct) (c : CoerceMap) (silent_prune : Bool)
    (n : Nat) : Except PyErr (AJValue × Nat) :=
  constructAF (asize obj) obj s c "" silent_prune n

theorem wrapSchema_ok (x : Except PyErr α) (v : α) :
    wrapSchema x = .ok v ↔ x = .ok v := by
  cases x with
  | ok w => simp [wrapSchema]
  | error e =>
      cases he : e.isDataSchema <;> simp [wrapSchema, he]

theorem aids_obj_elim (id : Nat) (kvs : AJObj) (m : Nat)
    (h : ∀ i ∈ aids (.obj id kvs), m ≤ i) :
    m ≤ id ∧ (∀ i ∈ aidsObj kvs, m ≤ i) := by
  constructor
  · exact h id (by simp [aids])
  · intro i hi
    exact h i (by simp [aids, hi])

theorem aids_arr_elim (id : Nat) (xs : List AJValue) (m : Nat)
    (h : ∀ i ∈ aids (.arr id xs), m ≤ i) :
    m ≤ id ∧ (∀ i ∈ aidsList xs, m ≤ i) := by
  constructor
  · exact h id (by simp [aids])
  · intro i hi
    exact h i (by simp [aids, hi])

theorem aids_lookup_ge (kvs : AJObj) (p : String) (w : AJValue) (m : Nat)
    (hall : ∀ i ∈ aidsObj kvs, m ≤ i) (hlk : alookup kvs p = some w) :
    ∀ i ∈ aids w, m ≤ i := by
  induction kvs with
  | nil => simp [alookup] at hlk
  | cons kv rest ih =>
      have hsplit : ∀ i ∈ aids kv.2 ++ aidsObj rest, m ≤ i := by
        simpa [aidsObj] using hall
      by_cases hk : kv.1 = p
      · simp only [alookup, if_pos hk] at hlk
        cases hlk
        intro i hi
        exact hsplit i (List.mem_append.mpr (Or.inl hi))
      · simp only [alookup, if_neg hk] at hlk
        exact ih (fun i hi => hsplit i (List.mem_append.mpr (Or.inr hi))) hlk

theorem aids_asetKey_ge (kvs : AJObj) (p : String) (v : AJValue) (m : Nat)
    (hall : ∀ i ∈ aidsObj kvs, m ≤ i) (hv : ∀ i ∈ aids v, m ≤ i) :
    ∀ i ∈ aidsObj (asetKey kvs p v), m ≤ i := by
  induction kvs with
  | nil =>
      intro i hi
      simp only [asetKey, aidsObj, List.append_nil] at hi
      exact hv i hi
  | cons kv rest ih =>
      have hsplit : ∀ i ∈ aids kv.2 ++ aidsObj rest, m ≤ i := by
        simpa [aidsObj] using hall
      intro i hi
      by_cases hk : kv.1 = p
      · simp only [asetKey, if_pos hk, aidsObj] at hi
        rcases List.mem_append.mp hi with h1 | h2
        · exact hv i h1
        · exact hsplit i (List.mem_append.mpr (Or.inr h2))
      · simp only [asetKey, if_neg hk, aidsObj] at hi
        rcases List.mem_append.mp hi with h1 | h2
        · exact hsplit i (List.mem_append.mpr (Or.inl h1))
        · exact ih (fun j hj => hsplit j (List.mem_append.mpr (Or.inr hj))) i h2

theorem aidsList_append (a bl : List AJValue) :
    aidsList (a ++ bl) = aidsList a ++ aidsList bl := by
  induction a with
  | nil => simp [aidsList]
  | cons x xs ih => simp [aidsList, ih]

mutual
theorem liftA_fresh : ∀ (v : JValue) (n : Nat),
    n ≤ (liftA v n).2 ∧ ∀ i ∈ aids (liftA v n).1, n ≤ i
  | .null, n => ⟨Nat.le_refl n, by simp [liftA, aids]⟩
  | .b x, n => ⟨Nat.le_refl n, by simp [liftA, aids]⟩
  | .i x, n => ⟨Nat.le_refl n, by simp [liftA, aids]⟩
  | .s x, n => ⟨Nat.le_refl n, by simp [liftA, aids]⟩
  | .arr xs, n => by
      have h := liftAList_fresh xs (n + 1)
      rcases hlp : liftAList xs (n + 1) with ⟨ys, n1⟩
      rw [hlp] at h
      refine ⟨?_, ?_⟩
      · simp only [liftA, hlp]
        exact Nat.le_trans (Nat.le_succ n) h.1
      · simp only [liftA, hlp, aids]
        intro i hi
        rcases List.mem_cons.mp hi with he | hm
        · exact he ▸ Nat.le_refl n
        · exact Nat.le_trans (Nat.le_succ n) (h.2 i hm)
  | .obj kvs, n => by
      have h := liftAObj_fresh kvs (n + 1)
      rcases hlp : liftAObj kvs (n + 1) with ⟨fs, n1⟩
      rw [hlp] at h
      refine ⟨?_, ?_⟩
      · simp only [liftA, hlp]
        exact Nat.le_trans (Nat.le_succ n) h.1
      · simp only [liftA, hlp, aids]
        intro i hi
        rcases List.mem_cons.mp hi with he | hm
        · exact he ▸ Nat.le_refl n
        · exact Nat.le_trans (Nat.le_succ n) (h.2 i hm)
theorem liftAList_fresh : ∀ (xs : List JValue) (n : Nat),
    n ≤ (liftAList xs n).2 ∧ ∀ i ∈ aidsList (liftAList xs n).1, n ≤ i
  | [], n => ⟨Nat.le_refl n, by simp [liftAList, aidsList]⟩
  | x :: xs, n => by
      have h1 := liftA_fresh x n
      rcases hp1 : liftA x n with ⟨y, n1⟩
      rw [hp1] at h1
      have h2 := liftAList_fresh xs n1
      rcases hp2 : liftAList xs n1 with ⟨ys, n2⟩
      rw [hp2] at h2
      refine ⟨?_, ?_⟩
      · simp only [liftAList, hp1, hp2]
        exact Nat.le_trans h1.1 h2.1
      · simp only [liftAList, hp1, hp2, aidsList]
        intro i hi
        rcases List.mem_append.mp hi with hm | hm
        · exact h1.2 i hm
        · exact Nat.le_trans h1.1 (h2.2 i hm)
theorem liftAObj_fresh : ∀ (kvs : List (String × JValue)) (n : Nat),
    n ≤ (liftAObj kvs n).2 ∧ ∀ i ∈ aidsObj (liftAObj kvs n).1, n ≤ i
  | [], n => ⟨Nat.le_refl n, by simp [liftAObj, aidsObj]⟩
  | kv :: rest, n => by
      have h1 := liftA_fresh kv.2 n
      rcases hp1 : liftA kv.2 n with ⟨w, n1⟩
      rw [hp1] at h1
      have h2 := liftAObj_fresh rest n1
      rcases hp2 : liftAObj rest n1 with ⟨ws, n2⟩
      rw [hp2] at h2
      refine ⟨?_, ?_⟩
      · simp only [liftAObj, hp1, hp2]
        exact Nat.le_trans h1.1 h2.1
      · simp only [liftAObj, hp1, hp2, aidsObj]
        intro i hi
        rcases List.mem_append.mp hi with hm | hm
        · exact h1.2 i hm
        · exact Nat.le_trans h1.1 (h2.2 i hm)
end

theorem deepcopyA_fresh (v : AJValue) (n : Nat) :
    n ≤ (deepcopyA v n).2 ∧ ∀ i ∈ aids (deepcopyA v n).1, n ≤ i :=
  liftA_fresh (eraseA v) n

theorem getPathGoA_fresh : ∀ (parts : List String) (ctx dflt : AJValue)
    (n m : Nat) (r : AJValue × Nat), m ≤ n →
    (∀ i ∈ aids ctx, m ≤ i) → (∀ i ∈ aids dflt, m ≤ i) →
    getPathGoA ctx parts dflt n = .ok r →
    n ≤ r.2 ∧ ∀ i ∈ aids r.1, m ≤ i
  | [], ctx, dflt, n, m, r, hmn, hctx, hdflt, hrun => by
      simp only [getPathGoA, Except.ok.injEq] at hrun
      cases hrun
      exact ⟨Nat.le_refl n, hctx⟩
  | [p], ctx, dflt, n, m, r, hmn, hctx, hdflt, hrun => by
      cases ctx with
      | obj id kvs =>
          simp only [getPathGoA, dictGetA, bind, Except.bind, Except.ok.injEq] at hrun
          cases hrun
          refine ⟨Nat.le_refl n, ?_⟩
          cases hlk : alookup kvs p with
          | none => simpa [hlk] using hdflt
          | some w =>
              simp only [hlk, Option.getD_some]
              exact aids_lookup_ge kvs p w m (aids_obj_elim id kvs m hctx).2 hlk
      | null => simp [getPathGoA, dictGetA, bind, Except.bind] at hrun
      | b bv => simp [getPathGoA, dictGetA, bind, Except.bind] at hrun
      | i iv => simp [getPathGoA, dictGetA, bind, Except.bind] at hrun
      | s sv => simp [getPathGoA, dictGetA, bind, Except.bind] at hrun
      | arr aid xs => simp [getPathGoA, dictGetA, bind, Except.bind] at hrun
  | p :: q :: rest, ctx, dflt, n, m, r, hmn, hctx, hdflt, hrun => by
      cases ctx with
      | obj id kvs =>
          simp only [getPathGoA, dictGetA, bind, Except.bind] at hrun
          have hc1 : ∀ i ∈ aids ((alookup kvs p).getD (.obj n [])), m ≤ i := by
            cases hlk : alookup kvs p with
            | none =>
                simp only [hlk, Option.getD_none]
                intro i hi
                simp only [aids, aidsObj] at hi
                rcases List.mem_cons.mp hi with he | hm
                · exact he ▸ hmn
                · simp at hm
            | some w =>
                simp only [hlk, Option.getD_some]
                exact aids_lookup_ge kvs p w m (aids_obj_elim id kvs m hctx).2 hlk
          have h := getPathGoA_fresh (q :: rest) ((alookup kvs p).getD (.obj n []))
            dflt (n + 1) m r (Nat.le_trans hmn (Nat.le_succ n)) hc1 hdflt hrun
          exact ⟨Nat.le_trans (Nat.le_succ n) h.1, h.2⟩
      | null => simp [getPathGoA, dictGetA, bind, Except.bind] at hrun
      | b bv => simp [getPathGoA, dictGetA, bind, Except.bind] at hrun
      | i iv => simp [getPathGoA, dictGetA, bind, Except.bind] at hrun
      | s sv => simp [getPathGoA, dictGetA, bind, Except.bind] at hrun
      | arr aid xs => simp [getPathGoA, dictGetA, bind, Except.bind] at hrun

theorem setPathGoA_fresh : ∀ (parts : List String) (ctx v : AJValue)
    (n m : Nat) (r : AJValue × Nat), m ≤ n →
    (∀ i ∈ aids ctx, m ≤ i) → (∀ i ∈ aids v, m ≤ i) →
    setPathGoA ctx parts v n = .ok r →
    n ≤ r.2 ∧ ∀ i ∈ aids r.1, m ≤ i
  | [], ctx, v, n, m, r, hmn, hctx, hv, hrun => by
      simp only [setPathGoA, Except.ok.injEq] at hrun
      cases hrun
      exact ⟨Nat.le_refl n, hctx⟩
  | [p], ctx, v, n, m, r, hmn, hctx, hv, hrun => by
      cases ctx with
      | obj id kvs =>
          simp only [setPathGoA, Except.ok.injEq] at hrun
          cases hrun
          obtain ⟨hid, hkvs⟩ := aids_obj_elim id kvs m hctx
          refine ⟨Nat.le_refl n, ?_⟩
          intro i hi
          simp only [aids] at hi
          rcases List.mem_cons.mp hi with he | hm
          · exact he ▸ hid
          · exact aids_asetKey_ge kvs p v m hkvs hv i hm
      | null => simp [setPathGoA] at hrun
      | b bv => simp [setPathGoA] at hrun
      | i iv => simp [setPathGoA] at hrun
      | s sv => simp [setPathGoA] at hrun
      | arr aid xs => simp [setPathGoA] at hrun
  | p :: q :: rest, ctx, v, n, m, r, hmn, hctx, hv, hrun => by
      cases ctx with
      | obj id kvs =>
          obtain ⟨hid, hkvs⟩ := aids_obj_elim id kvs m hctx
          cases hlk : alookup kvs p with
          | none =>
              simp only [setPathGoA, hlk, bind, Except.bind] at hrun
              cases hsub : setPathGoA (.obj n []) (q :: rest) v (n + 1) with
              | error e => rw [hsub] at hrun; simp at hrun
              | ok sub =>
                  rw [hsub] at hrun
                  simp only [Except.ok.injEq] at hrun
                  cases hrun
                  have h := setPathGoA_fresh (q :: rest) (.obj n []) v (n + 1) m sub
                    (Nat.le_trans hmn (Nat.le_succ n))
                    (by
                      intro i hi
                      simp only [aids, aidsObj] at hi
                      rcases List.mem_cons.mp hi with he | hm
                      · exact he ▸ hmn
                      · simp at hm) hv hsub
                  refine ⟨Nat.le_trans (Nat.le_succ n) h.1, ?_⟩
                  intro i hi
                  simp only [aids] at hi
                  rcases List.mem_cons.mp hi with he | hm
                  · exact he ▸ hid
                  · exact aids_asetKey_ge kvs p sub.1 m hkvs h.2 i hm
          | some cur =>
              simp only [setPathGoA, hlk, bind, Except.bind] at hrun
              cases hsub : setPathGoA cur (q :: rest) v n with
              | error e => rw [hsub] at hrun; simp at hrun
              | ok sub =>
                  rw [hsub] at hrun
                  simp only [Except.ok.injEq] at hrun
                  cases hrun
                  have h := setPathGoA_fresh (q :: rest) cur v n m sub hmn
                    (aids_lookup_ge kvs p cur m hkvs hlk) hv hsub
                  refine ⟨h.1, ?_⟩
                  intro i hi
                  simp only [aids] at hi
                  rcases List.mem_cons.mp hi with he | hm
                  · exact he ▸ hid
                  · exact aids_asetKey_ge kvs p sub.1 m hkvs h.2 i hm
      | null => simp [setPathGoA] at hrun
      | b bv => simp [setPathGoA] at hrun
      | i iv => simp [setPathGoA] at hrun
      | s sv => simp [setPathGoA] at hrun
      | arr aid xs => simp [setPathGoA] at hrun

theorem isNullA_aids (val : AJValue) (h : isNullA val = true) : aids val = [] := by
  cases val with
  | null => rfl
  | b x => exact absurd h (by simp [isNullA])
  | i x => exact absurd h (by simp [isNullA])
  | s x => exact absurd h (by simp [isNullA])
  | arr a xs => exact absurd h (by simp [isNullA])
  | obj a kvs => exact absurd h (by simp [isNullA])

theorem eraseA_alookup (kvs : AJObj) (k : String) :
    alookup (eraseAObj kvs) k = Option.map eraseA (alookup kvs k) := by
  induction kvs with
  | nil => rfl
  | cons kv rest ih =>
      by_cases h : kv.1 = k
      · simp [eraseAObj, alookup, h]
      · simp [eraseAObj, alookup, h, ih]

theorem eraseAList_mem (l : List AJValue) (e : AJValue) (h : e ∈ l) :
    eraseA e ∈ eraseAList l := by
  induction l with
  | nil => simp at h
  | cons x xs ih =>
      rcases List.mem_cons.mp h with he | hm
      · subst he
        exact List.mem_cons_self _ _
      · exact List.mem_cons_of_mem _ (ih hm)

theorem fieldConformB_success (ekvs : JObj) (c : CoerceMap) (fname : String)
    (instr : FieldInstr) (ev : JValue)
    (h : fieldConformB ekvs c (fname, instr) = true)
    (hlk : alookup ekvs fname = some ev) (fn : CoFn)
    (hc : c (instr.coerce.getD "unicode") = some fn) :
    fn ev = .ok ev := by
  simp only [fieldConformB, hlk, hc, Bool.and_eq_true] at h
  exact fixedPoint_eq fn ev h.2.1.1

theorem pyCoerceA_fresh (val : AJValue) (cast : Option CoFn) (acf : Bool)
    (n m : Nat) (r : AJValue × Nat) (hmn : m ≤ n)
    (hval : (∀ i ∈ aids val, m ≤ i) ∨ (cast.isSome = true ∧ acf = false)
      ∨ (∃ fn w, cast = some fn ∧ fn (eraseA val) = .ok w))
    (hrun : pyCoerceA val cast acf n = .ok r) :
    n ≤ r.2 ∧ ∀ i ∈ aids r.1, m ≤ i := by
  cases cast with
  | none =>
      simp only [pyCoerceA, Except.ok.injEq] at hrun
      cases hrun
      rcases hval with h | ⟨hs, _⟩ | ⟨fn, w, hcast, _⟩
      · exact ⟨Nat.le_refl n, h⟩
      · simp at hs
      · exact Option.noConfusion hcast
  | some fn =>
      have hacffin : ((∀ i ∈ aids val, m ≤ i) ∨ acf = false) →
          (if acf then Except.ok (val, n)
          else Except.error (PyErr.schemaCastFailed (eraseA val))) = .ok r →
          n ≤ r.2 ∧ ∀ i ∈ aids r.1, m ≤ i := by
        intro hval2 h
        cases hacf : acf with
        | true =>
            rw [hacf, if_pos rfl] at h
            simp only [Except.ok.injEq] at h
            cases h
            rcases hval2 with hv | hfa
            · exact ⟨Nat.le_refl n, hv⟩
            · rw [hacf] at hfa; cases hfa
        | false => rw [hacf] at h; simp at h
      cases hf : fn (eraseA val) with
      | ok w =>
          have h := liftA_fresh w n
          simp only [pyCoerceA, hf, Except.ok.injEq] at hrun
          cases hrun
          exact ⟨h.1, fun i hi => Nat.le_trans hmn (h.2 i hi)⟩
      | error e =>
          have hval2 : (∀ i ∈ aids val, m ≤ i) ∨ acf = false := by
            rcases hval with hv | ⟨_, hfa⟩ | ⟨fn2, w, hcast, hok⟩
            · exact Or.inl hv
            · exact Or.inr hfa
            · cases hcast
              rw [hf] at hok
              exact Except.noConfusion hok
          cases e
          case valueError msg =>
            simp only [pyCoerceA, hf] at hrun
            exact hacffin hval2 hrun
          case typeError msg =>
            simp only [pyCoerceA, hf] at hrun
            exact hacffin hval2 hrun
          all_goals simp [pyCoerceA, hf] at hrun

theorem _set_singleA_fresh (data : AJValue) (path : String) (val : AJValue)
    (cast : Option CoFn) (acf : Bool) (avs : Option (List JValue))
    (rng : Option (Option Int × Option Int)) (an ign : Bool) (n m : Nat)
    (r : AJValue × Nat) (hmn : m ≤ n) (hdata : ∀ i ∈ aids data, m ≤ i)
    (hval : (∀ i ∈ aids val, m ≤ i) ∨ (cast.isSome = true ∧ acf = false)
      ∨ (∃ fn w, cast = some fn ∧ fn (eraseA val) = .ok w))
    (hrun : _set_singleA data path val cast acf avs rng an ign n = .ok r) :
    n ≤ r.2 ∧ ∀ i ∈ aids r.1, m ≤ i := by
  have hfin : ∀ (cv : AJValue × Nat), n ≤ cv.2 → (∀ i ∈ aids cv.1, m ≤ i) →
      (match avs with
       | some avs2 =>
           if avs2.contains (eraseA cv.1) = true then do
             rangeCheck (eraseA cv.1) rng
             setPathGoA data (splitDots path) cv.1 cv.2
           else Except.error (PyErr.schemaValueNotPermitted (eraseA cv.1) path)
       | none => do
           rangeCheck (eraseA cv.1) rng
           setPathGoA data (splitDots path) cv.1 cv.2) = .ok r →
      n ≤ r.2 ∧ ∀ i ∈ aids r.1, m ≤ i := by
    intro cv hn hi hbody
    have hsetfin : setPathGoA data (splitDots path) cv.1 cv.2 = .ok r →
        n ≤ r.2 ∧ ∀ i ∈ aids r.1, m ≤ i := by
      intro hs
      have h := setPathGoA_fresh (splitDots path) data cv.1 cv.2 m r
        (Nat.le_trans hmn hn) hdata hi hs
      exact ⟨Nat.le_trans hn h.1, h.2⟩
    cases avs with
    | none =>
        cases hrc : rangeCheck (eraseA cv.1) rng with
        | error e => rw [hrc] at hbody; simp [bind, Except.bind] at hbody
        | ok u =>
            cases u
            rw [hrc] at hbody
            simp only [bind, Except.bind] at hbody
            exact hsetfin hbody
    | some l =>
        have hbody2 : (if l.contains (eraseA cv.1) = true then
            (do rangeCheck (eraseA cv.1) rng
                setPathGoA data (splitDots path) cv.1 cv.2)
          else Except.error (PyErr.schemaValueNotPermitted (eraseA cv.1) path))
            = .ok r := hbody
        by_cases hcont : l.contains (eraseA cv.1) = true
        · rw [if_pos hcont] at hbody2
          cases hrc : rangeCheck (eraseA cv.1) rng with
          | error e => rw [hrc] at hbody2; simp [bind, Except.bind] at hbody2
          | ok u =>
              cases u
              rw [hrc] at hbody2
              simp only [bind, Except.bind] at hbody2
              exact hsetfin hbody2
        · rw [if_neg hcont] at hbody2
          simp at hbody2
  unfold _set_singleA at hrun
  by_cases h1 : isNullA val = true ∧ ign = true
  · rw [if_pos h1] at hrun
    simp only [Except.ok.injEq] at hrun
    cases hrun
    exact ⟨Nat.le_refl n, hdata⟩
  · rw [if_neg h1] at hrun
    by_cases h2 : isNullA val = true ∧ an = false
    · rw [if_pos h2] at hrun; simp at hrun
    · rw [if_neg h2] at hrun
      by_cases hg : cast.isSome = true ∧ isNullA val = false
      · rw [if_pos hg] at hrun
        cases hpc : pyCoerceA val cast acf n with
        | error e => rw [hpc] at hrun; simp [bind, Except.bind] at hrun
        | ok cv =>
            rw [hpc] at hrun
            simp only [bind, Except.bind] at hrun
            have hcvf := pyCoerceA_fresh val cast acf n m cv hmn hval hpc
            exact hfin cv hcvf.1 hcvf.2 hrun
      · rw [if_neg hg] at hrun
        simp only [bind, Except.bind, pure, Except.pure] at hrun
        have hnonnull : cast.isSome = true → ∀ i ∈ aids val, m ≤ i := by
          intro hs
          have hnull : isNullA val = true := by
            by_cases hnu : isNullA val = true
            · exact hnu
            · exact absurd ⟨hs, by simpa using hnu⟩ hg
          rw [isNullA_aids val hnull]
          simp
        have hvi : ∀ i ∈ aids val, m ≤ i := by
          rcases hval with hv | ⟨hs, _⟩ | ⟨fn, w, hcast, _⟩
          · exact hv
          · exact hnonnull hs
          · exact hnonnull (by simp [hcast])
        exact hfin (val, n) (Nat.le_refl n) hvi hrun

theorem _get_listA_fresh (data : AJValue) (path : String) (br acf : Bool)
    (n m : Nat) (r : (Nat × List AJValue) × AJValue × Nat) (hmn : m ≤ n)
    (hdata : ∀ i ∈ aids data, m ≤ i)
    (hrun : _get_listA data path none br acf n = .ok r) :
    n ≤ r.2.2 ∧ m ≤ r.1.1 ∧ (∀ i ∈ aidsList r.1.2, m ≤ i)
      ∧ (∀ i ∈ aids r.2.1, m ≤ i) := by
  unfold _get_listA at hrun
  cases hgv : getPathGoA data (splitDots path) .null n with
  | error e => rw [hgv] at hrun; simp [bind, Except.bind] at hrun
  | ok gv =>
      have hg0 := getPathGoA_fresh (splitDots path) data .null n m gv hmn hdata
        (by simp [aids]) hgv
      rw [hgv] at hrun
      simp only [bind, Except.bind] at hrun
      rcases gv with ⟨gval, gn⟩
      obtain ⟨hgn, hgval⟩ := hg0
      simp only at hgn hgval
      cases gval with
      | null =>
          cases br with
          | true =>
              have h2 : (do
                  let d1 ← _set_singleA data path (.arr gn []) none false none none
                    true false (gn + 1)
                  Except.ok ((gn, []), d1.1, d1.2)) = Except.ok r := hrun
              cases hss : _set_singleA data path (.arr gn []) none false none none
                  true false (gn + 1) with
              | error e => rw [hss] at h2; simp [bind, Except.bind] at h2
              | ok d1 =>
                  rw [hss] at h2
                  simp only [bind, Except.bind, Except.ok.injEq] at h2
                  cases h2
                  have hgnm : m ≤ gn := Nat.le_trans hmn hgn
                  have hs := _set_singleA_fresh data path (.arr gn []) none false
                    none none true false (gn + 1) m d1
                    (Nat.le_trans hgnm (Nat.le_succ gn)) hdata
                    (Or.inl (by
                      intro i hi
                      simp only [aids, aidsList] at hi
                      rcases List.mem_cons.mp hi with he | hm
                      · exact he ▸ hgnm
                      · simp at hm)) hss
                  exact ⟨Nat.le_trans hgn (Nat.le_trans (Nat.le_succ gn) hs.1),
                    hgnm, by simp [aidsList], hs.2⟩
          | false =>
              have h2 : (Except.ok ((gn, ([] : List AJValue)), data, gn + 1) :
                  Except PyErr ((Nat × List AJValue) × AJValue × Nat))
                    = Except.ok r := hrun
              simp only [Except.ok.injEq] at h2
              cases h2
              exact ⟨Nat.le_trans hgn (Nat.le_succ gn), Nat.le_trans hmn hgn,
                by simp [aidsList], hdata⟩
      | arr lid l =>
          have h2 : (Except.ok ((lid, l), data, gn) :
              Except PyErr ((Nat × List AJValue) × AJValue × Nat))
                = Except.ok r := hrun
          simp only [Except.ok.injEq] at h2
          cases h2
          obtain ⟨hlid, hl⟩ := aids_arr_elim lid l m hgval
          exact ⟨hgn, hlid, hl, hdata⟩
      | b bv => exact absurd hrun (by simp)
      | i iv => exact absurd hrun (by simp)
      | s sv => exact absurd hrun (by simp)
      | obj oid kvs2 => exact absurd hrun (by simp)

theorem _add_to_listA_fresh (data : AJValue) (path : String) (val : AJValue)
    (cast : Option CoFn) (acf : Bool) (an ign uq : Bool) (n m : Nat)
    (r : AJValue × Nat) (hmn : m ≤ n) (hdata : ∀ i ∈ aids data, m ≤ i)
    (hval : (∀ i ∈ aids val, m ≤ i) ∨ (cast.isSome = true ∧ acf = false)
      ∨ (∃ fn w, cast = some fn ∧ fn (eraseA val) = .ok w))
    (hrun : _add_to_listA data path val cast acf an ign uq n = .ok r) :
    n ≤ r.2 ∧ ∀ i ∈ aids r.1, m ≤ i := by
  have hfin : ∀ (cv : AJValue × Nat), n ≤ cv.2 → (∀ i ∈ aids cv.1, m ≤ i) →
      (do
        let cur ← _get_listA data path none true true cv.2
        if uq = true ∧ ((cur.1.2.map eraseA).contains (eraseA cv.1)) = true then
          Except.ok (cur.2.1, cur.2.2)
        else
          setPathGoA cur.2.1 (splitDots path) (.arr cur.1.1 (cur.1.2 ++ [cv.1]))
            cur.2.2) = .ok r →
      n ≤ r.2 ∧ ∀ i ∈ aids r.1, m ≤ i := by
    intro cv hn hi hbody
    cases hgl : _get_listA data path none true true cv.2 with
    | error e => rw [hgl] at hbody; simp [bind, Except.bind] at hbody
    | ok cur =>
        rw [hgl] at hbody
        simp only [bind, Except.bind] at hbody
        have hglf := _get_listA_fresh data path true true cv.2 m cur
          (Nat.le_trans hmn hn) hdata hgl
        by_cases hu : uq = true ∧ ((cur.1.2.map eraseA).contains (eraseA cv.1)) = true
        · rw [if_pos hu] at hbody
          simp only [Except.ok.injEq] at hbody
          cases hbody
          exact ⟨Nat.le_trans hn hglf.1, hglf.2.2.2⟩
        · rw [if_neg hu] at hbody
          have hvl : ∀ i ∈ aids (AJValue.arr cur.1.1 (cur.1.2 ++ [cv.1])), m ≤ i := by
            intro i hi2
            simp only [aids, aidsList_append] at hi2
            rcases List.mem_cons.mp hi2 with he | hm
            · exact he ▸ hglf.2.1
            · rcases List.mem_append.mp hm with hm1 | hm2
              · exact hglf.2.2.1 i hm1
              · simp only [aidsList, List.append_nil] at hm2
                exact hi i hm2
          have h := setPathGoA_fresh (splitDots path) cur.2.1
            (.arr cur.1.1 (cur.1.2 ++ [cv.1])) cur.2.2 m r
            (Nat.le_trans hmn (Nat.le_trans hn hglf.1)) hglf.2.2.2 hvl hbody
          exact ⟨Nat.le_trans hn (Nat.le_trans hglf.1 h.1), h.2⟩
  unfold _add_to_listA at hrun
  by_cases h1 : isNullA val = true ∧ ign = true
  · rw [if_pos h1] at hrun
    simp only [Except.ok.injEq] at hrun
    cases hrun
    exact ⟨Nat.le_refl n, hdata⟩
  · rw [if_neg h1] at hrun
    by_cases h2 : isNullA val = true ∧ an = false
    · rw [if_pos h2] at hrun; simp at hrun
    · rw [if_neg h2] at hrun
      by_cases hg : cast.isSome = true
      · rw [if_pos hg] at hrun
        cases hpc : pyCoerceA val cast acf n with
        | error e => rw [hpc] at hrun; simp [bind, Except.bind] at hrun
        | ok cv =>
            rw [hpc] at hrun
            simp only [bind, Except.bind] at hrun
            have hcvf := pyCoerceA_fresh val cast acf n m cv hmn hval hpc
            exact hfin cv hcvf.1 hcvf.2 hrun
      · rw [if_neg hg] at hrun
        simp only [bind, Except.bind, pure, Except.pure] at hrun
        have hvi : ∀ i ∈ aids val, m ≤ i := by
          rcases hval with hv | ⟨hs, _⟩ | ⟨fn, w, hcast, _⟩
          · exact hv
          · exact absurd hs hg
          · exact absurd (by simp [hcast] : cast.isSome = true) hg
        exact hfin (val, n) (Nat.le_refl n) hvi hrun

theorem wrapSchema_error {α : Type} (e : PyErr) :
    ∃ e2, (wrapSchema (.error e) : Except PyErr α) = .error e2 := by
  cases he : e.isDataSchema
  · exact ⟨e, by simp [wrapSchema, he]⟩
  · exact ⟨PyErr.structWrapped e, by simp [wrapSchema, he]⟩

theorem conFieldsA_fresh (kvs : AJObj) (c : CoerceMap) (ctx : String) :
    ∀ (flds : List (String × FieldInstr)) (acc : AJValue) (n m : Nat)
      (r : AJValue × Nat), m ≤ n → (∀ i ∈ aids acc, m ≤ i) →
    (∀ fi ∈ flds, fieldConformB (eraseAObj kvs) c fi = true) →
    conFieldsA flds kvs c ctx acc n = .ok r →
    n ≤ r.2 ∧ ∀ i ∈ aids r.1, m ≤ i
  | [], acc, n, m, r, hmn, hacc, _, hrun => by
      simp only [conFieldsA, Except.ok.injEq] at hrun
      cases hrun
      exact ⟨Nat.le_refl n, hacc⟩
  | (fname, instr) :: rest, acc, n, m, r, hmn, hacc, hconf, hrun => by
      have hcf1 : fieldConformB (eraseAObj kvs) c (fname, instr) = true :=
        hconf (fname, instr) (by simp)
      have hcfr : ∀ fi ∈ rest, fieldConformB (eraseAObj kvs) c fi = true :=
        fun fi hfi => hconf fi (List.mem_cons_of_mem _ hfi)
      have hgen : ∀ (w : AJValue), alookup kvs fname = some w →
          (match c (instr.coerce.getD "unicode") with
           | none => Except.error (PyErr.structNoCoercion (instr.coerce.getD "unicode")
               (ctx ++ fname))
           | some fn => do
               let r1 ← wrapSchema (_set_singleA acc fname w (some fn)
                 (instr.allow_coerce_failure.getD false) instr.allowed_values
                 instr.allowed_range (instr.allow_none.getD true)
                 (instr.ignore_none.getD false) n)
               conFieldsA rest kvs c ctx r1.1 r1.2) = .ok r →
          n ≤ r.2 ∧ ∀ i ∈ aids r.1, m ≤ i := by
        intro w hw hbody
        cases hc : c (instr.coerce.getD "unicode") with
        | none => rw [hc] at hbody; simp at hbody
        | some fn =>
            rw [hc] at hbody
            have hlkE : alookup (eraseAObj kvs) fname = some (eraseA w) := by
              rw [eraseA_alookup, hw]
              rfl
            have hfp : fn (eraseA w) = .ok (eraseA w) :=
              fieldConformB_success (eraseAObj kvs) c fname instr (eraseA w)
                hcf1 hlkE fn hc
            have hb2 : (do
                let r1 ← wrapSchema (_set_singleA acc fname w (some fn)
                  (instr.allow_coerce_failure.getD false) instr.allowed_values
                  instr.allowed_range (instr.allow_none.getD true)
                  (instr.ignore_none.getD false) n)
                conFieldsA rest kvs c ctx r1.1 r1.2) = .ok r := hbody
            cases hss : _set_singleA acc fname w (some fn)
                (instr.allow_coerce_failure.getD false) instr.allowed_values
                instr.allowed_range (instr.allow_none.getD true)
                (instr.ignore_none.getD false) n with
            | error e =>
                obtain ⟨e2, hw2⟩ := wrapSchema_error (α := AJValue × Nat) e
                rw [hss, hw2] at hb2
                simp [bind, Except.bind] at hb2
            | ok d1 =>
                rw [hss] at hb2
                simp only [wrapSchema, bind, Except.bind] at hb2
                have hs := _set_singleA_fresh acc fname w (some fn)
                  (instr.allow_coerce_failure.getD false) instr.allowed_values
                  instr.allowed_range (instr.allow_none.getD true)
                  (instr.ignore_none.getD false) n m d1 hmn hacc
                  (Or.inr (Or.inr ⟨fn, eraseA w, rfl, hfp⟩)) hss
                have hih := conFieldsA_fresh kvs c ctx rest d1.1 d1.2 m r
                  (Nat.le_trans hmn hs.1) hs.2 hcfr hb2
                exact ⟨Nat.le_trans hs.1 hih.1, hih.2⟩
      cases hlk : alookup kvs fname with
      | none =>
          simp only [conFieldsA, hlk] at hrun
          exact conFieldsA_fresh kvs c ctx rest acc n m r hmn hacc hcfr hrun
      | some v =>
          cases v with
          | null =>
              simp only [conFieldsA, hlk] at hrun
              exact conFieldsA_fresh kvs c ctx rest acc n m r hmn hacc hcfr hrun
          | b bv =>
              simp only [conFieldsA, hlk] at hrun
              exact hgen (.b bv) hlk hrun
          | i iv =>
              simp only [conFieldsA, hlk] at hrun
              exact hgen (.i iv) hlk hrun
          | s sv =>
              simp only [conFieldsA, hlk] at hrun
              exact hgen (.s sv) hlk hrun
          | arr aid xs =>
              simp only [conFieldsA, hlk] at hrun
              exact hgen (.arr aid xs) hlk hrun
          | obj oid sub =>
              simp only [conFieldsA, hlk] at hrun
              exact hgen (.obj oid sub) hlk hrun
theorem conObjectsA_fresh (kvs : AJObj) (structs : List (String × Struct))
    (ctx : String)
    (recurse : AJValue → Struct → String → Nat → Except PyErr (AJValue × Nat))
    (recConfJ : JValue → Struct → Bool)
    (hrec : ∀ vA si ctx2 k rr, recConfJ (eraseA vA) si = true →
      recurse vA si ctx2 k = .ok rr → k ≤ rr.2 ∧ ∀ i ∈ aids rr.1, k ≤ i) :
    ∀ (names : List String) (acc : AJValue) (n m : Nat) (r : AJValue × Nat),
    m ≤ n → (∀ i ∈ aids acc, m ≤ i) →
    (∀ nm ∈ names, objectConformB recConfJ (eraseAObj kvs) structs nm = true) →
    conObjectsA recurse names structs kvs ctx acc n = .ok r →
    n ≤ r.2 ∧ ∀ i ∈ aids r.1, m ≤ i
  | [], acc, n, m, r, hmn, hacc, _, hrun => by
      simp only [conObjectsA, Except.ok.injEq] at hrun
      cases hrun
      exact ⟨Nat.le_refl n, hacc⟩
  | name :: rest, acc, n, m, r, hmn, hacc, hconf, hrun => by
      have hcfr : ∀ nm ∈ rest, objectConformB recConfJ (eraseAObj kvs) structs nm
          = true := fun nm h2 => hconf nm (List.mem_cons_of_mem _ h2)
      have hsetcont : ∀ (w : AJValue) (k : Nat), m ≤ k → n ≤ k →
          (∀ i ∈ aids w, m ≤ i) →
          (do
            let r1 ← wrapSchema (_set_singleA acc name w none false none none
              true false k)
            conObjectsA recurse rest structs kvs ctx r1.1 r1.2) = .ok r →
          n ≤ r.2 ∧ ∀ i ∈ aids r.1, m ≤ i := by
        intro w k hmk hnk hw hbody
        cases hss : _set_singleA acc name w none false none none true false k with
        | error e =>
            obtain ⟨e2, hw2⟩ := wrapSchema_error (α := AJValue × Nat) e
            rw [hss, hw2] at hbody
            simp [bind, Except.bind] at hbody
        | ok d1 =>
            rw [hss] at hbody
            simp only [wrapSchema, bind, Except.bind] at hbody
            have hs := _set_singleA_fresh acc name w none false none none true
              false k m d1 hmk hacc (Or.inl hw) hss
            have hih := conObjectsA_fresh kvs structs ctx recurse recConfJ hrec
              rest d1.1 d1.2 m r (Nat.le_trans hmk hs.1) hs.2 hcfr hbody
            exact ⟨Nat.le_trans hnk (Nat.le_trans hs.1 hih.1), hih.2⟩
      cases hlk : alookup kvs name with
      | none =>
          simp only [conObjectsA, hlk] at hrun
          exact conObjectsA_fresh kvs structs ctx recurse recConfJ hrec rest acc
            n m r hmn hacc hcfr hrun
      | some v =>
          cases v with
          | null =>
              simp only [conObjectsA, hlk] at hrun
              exact conObjectsA_fresh kvs structs ctx recurse recConfJ hrec rest acc
                n m r hmn hacc hcfr hrun
          | obj vid sub =>
              cases hst : alookup structs name with
              | none =>
                  simp only [conObjectsA, hlk, hst] at hrun
                  have hdc := deepcopyA_fresh (.obj vid sub) n
                  exact hsetcont (deepcopyA (.obj vid sub) n).1
                    (deepcopyA (.obj vid sub) n).2 (Nat.le_trans hmn hdc.1) hdc.1
                    (fun i hi => Nat.le_trans hmn (hdc.2 i hi)) hrun
              | some si =>
                  simp only [conObjectsA, hlk, hst] at hrun
                  have hlkE : alookup (eraseAObj kvs) name
                      = some (.obj (eraseAObj sub)) := by
                    rw [eraseA_alookup, hlk]
                    rfl
                  have hoc : recConfJ (.obj (eraseAObj sub)) si = true := by
                    have h0 := hconf name (by simp)
                    simp only [objectConformB, hlkE, hst] at h0
                    exact h0
                  cases hbn : recurse (.obj vid sub) si (ctx ++ name ++ ".") n with
                  | error e => rw [hbn] at hrun; simp [bind, Except.bind] at hrun
                  | ok ben =>
                      rw [hbn] at hrun
                      simp only [bind, Except.bind] at hrun
                      have hb := hrec (.obj vid sub) si (ctx ++ name ++ ".") n ben
                        hoc hbn
                      exact hsetcont ben.1 ben.2 (Nat.le_trans hmn hb.1) hb.1
                        (fun i hi => Nat.le_trans hmn (hb.2 i hi)) hrun
          | b bv => simp [conObjectsA, hlk] at hrun
          | i iv => simp [conObjectsA, hlk] at hrun
          | s sv => simp [conObjectsA, hlk] at hrun
          | arr aid xs => simp [conObjectsA, hlk] at hrun

theorem conListFieldElemsA_fresh (name : String) (fn : CoFn) (instr : ListInstr) :
    ∀ (vals : List AJValue) (acc : AJValue) (n m : Nat) (r : AJValue × Nat),
    m ≤ n → (∀ i ∈ aids acc, m ≤ i) →
    (∀ e ∈ vals, ∃ w, fn (eraseA e) = .ok w) →
    conListFieldElemsA vals name fn instr acc n = .ok r →
    n ≤ r.2 ∧ ∀ i ∈ aids r.1, m ≤ i
  | [], acc, n, m, r, hmn, hacc, _, hrun => by
      simp only [conListFieldElemsA, Except.ok.injEq] at hrun
      cases hrun
      exact ⟨Nat.le_refl n, hacc⟩
  | v :: rest, acc, n, m, r, hmn, hacc, helem, hrun => by
      obtain ⟨w0, hw0⟩ := helem v (by simp)
      simp only [conListFieldElemsA] at hrun
      cases hss : _add_to_listA acc name v (some fn)
          (instr.allow_coerce_failure.getD false) (instr.allow_none.getD false)
          (instr.ignore_none.getD true) (instr.unique.getD false) n with
      | error e =>
          obtain ⟨e2, hw2⟩ := wrapSchema_error (α := AJValue × Nat) e
          rw [hss, hw2] at hrun
          simp [bind, Except.bind] at hrun
      | ok d1 =>
          rw [hss] at hrun
          simp only [wrapSchema, bind, Except.bind] at hrun
          have hs := _add_to_listA_fresh acc name v (some fn)
            (instr.allow_coerce_failure.getD false) (instr.allow_none.getD false)
            (instr.ignore_none.getD true) (instr.unique.getD false) n m d1 hmn hacc
            (Or.inr (Or.inr ⟨fn, w0, rfl, hw0⟩)) hss
          have hih := conListFieldElemsA_fresh name fn instr rest d1.1 d1.2
            m r (Nat.le_trans hmn hs.1) hs.2
            (fun e he => helem e (List.mem_cons_of_mem _ he)) hrun
          exact ⟨Nat.le_trans hs.1 hih.1, hih.2⟩

theorem conListObjElemsA_fresh (name ctx : String)
    (recurse : AJValue → Struct → String → Nat → Except PyErr (AJValue × Nat))
    (recConfJ : JValue → Struct → Bool) (subinst : Option Struct)
    (hrec : ∀ vA si ctx2 k rr, recConfJ (eraseA vA) si = true →
      recurse vA si ctx2 k = .ok rr → k ≤ rr.2 ∧ ∀ i ∈ aids rr.1, k ≤ i) :
    ∀ (vals : List AJValue) (idx : Nat) (acc : AJValue) (n m : Nat)
      (r : AJValue × Nat), m ≤ n → (∀ i ∈ aids acc, m ≤ i) →
    (∀ e ∈ vals, ∀ si, subinst = some si → recConfJ (eraseA e) si = true) →
    conListObjElemsA recurse vals idx name subinst ctx acc n = .ok r →
    n ≤ r.2 ∧ ∀ i ∈ aids r.1, m ≤ i
  | [], idx, acc, n, m, r, hmn, hacc, _, hrun => by
      simp only [conListObjElemsA, Except.ok.injEq] at hrun
      cases hrun
      exact ⟨Nat.le_refl n, hacc⟩
  | v :: rest, idx, acc, n, m, r, hmn, hacc, helem, hrun => by
      have helemr : ∀ e ∈ rest, ∀ si, subinst = some si →
          recConfJ (eraseA e) si = true :=
        fun e he si hs => helem e (List.mem_cons_of_mem _ he) si hs
      have haddcont : ∀ (w : AJValue) (k : Nat), m ≤ k → n ≤ k →
          (∀ i ∈ aids w, m ≤ i) →
          (do
            let r1 ← wrapSchema (_add_to_listA acc name w none false false true
              false k)
            conListObjElemsA recurse rest (idx + 1) name subinst ctx r1.1 r1.2)
            = .ok r →
          n ≤ r.2 ∧ ∀ i ∈ aids r.1, m ≤ i := by
        intro w k hmk hnk hw hbody
        cases hss : _add_to_listA acc name w none false false true false k with
        | error e =>
            obtain ⟨e2, hw2⟩ := wrapSchema_error (α := AJValue × Nat) e
            rw [hss, hw2] at hbody
            simp [bind, Except.bind] at hbody
        | ok d1 =>
            rw [hss] at hbody
            simp only [wrapSchema, bind, Except.bind] at hbody
            have hs := _add_to_listA_fresh acc name w none false false true false
              k m d1 hmk hacc (Or.inl hw) hss
            have hih := conListObjElemsA_fresh name ctx recurse recConfJ subinst
              hrec rest (idx + 1) d1.1 d1.2 m r (Nat.le_trans hmk hs.1)
              hs.2 helemr hbody
            exact ⟨Nat.le_trans hnk (Nat.le_trans hs.1 hih.1), hih.2⟩
      cases v with
      | obj vid sub =>
          cases hsi : subinst with
          | none =>
              rw [hsi] at haddcont hrun
              simp only [conListObjElemsA] at hrun
              have hdc := deepcopyA_fresh (.obj vid sub) n
              exact haddcont (deepcopyA (.obj vid sub) n).1
                (deepcopyA (.obj vid sub) n).2 (Nat.le_trans hmn hdc.1) hdc.1
                (fun i hi => Nat.le_trans hmn (hdc.2 i hi)) hrun
          | some si =>
              have hoc : recConfJ (eraseA (.obj vid sub)) si = true :=
                helem (.obj vid sub) (by simp) si hsi
              rw [hsi] at haddcont hrun
              simp only [conListObjElemsA] at hrun
              cases hbn : recurse (.obj vid sub) si
                  (ctx ++ name ++ "[" ++ toString idx ++ "].") n with
              | error e => rw [hbn] at hrun; simp [bind, Except.bind] at hrun
              | ok ben =>
                  rw [hbn] at hrun
                  simp only [bind, Except.bind] at hrun
                  have hb := hrec (.obj vid sub) si
                    (ctx ++ name ++ "[" ++ toString idx ++ "].") n ben hoc hbn
                  exact haddcont ben.1 ben.2 (Nat.le_trans hmn hb.1) hb.1
                    (fun i hi => Nat.le_trans hmn (hb.2 i hi)) hrun
      | null => simp [conListObjElemsA] at hrun
      | b bv => simp [conListObjElemsA] at hrun
      | i iv => simp [conListObjElemsA] at hrun
      | s sv => simp [conListObjElemsA] at hrun
      | arr aid xs => simp [conListObjElemsA] at hrun

theorem conListsA_fresh (kvs : AJObj) (structs : List (String × Struct))
    (c : CoerceMap) (ctx : String)
    (recurse : AJValue → Struct → String → Nat → Except PyErr (AJValue × Nat))
    (recConfJ : JValue → Struct → Bool)
    (hrec : ∀ vA si ctx2 k rr, recConfJ (eraseA vA) si = true →
      recurse vA si ctx2 k = .ok rr → k ≤ rr.2 ∧ ∀ i ∈ aids rr.1, k ≤ i) :
    ∀ (lsts : List (String × ListInstr)) (acc : AJValue) (n m : Nat)
      (r : AJValue × Nat), m ≤ n → (∀ i ∈ aids acc, m ≤ i) →
    (∀ li ∈ lsts, listConformB recConfJ (eraseAObj kvs) structs c li = true) →
    conListsA recurse lsts structs kvs c ctx acc n = .ok r →
    n ≤ r.2 ∧ ∀ i ∈ aids r.1, m ≤ i
  | [], acc, n, m, r, hmn, hacc, _, hrun => by
      simp only [conListsA, Except.ok.injEq] at hrun
      cases hrun
      exact ⟨Nat.le_refl n, hacc⟩
  | (name, instr) :: rest, acc, n, m, r, hmn, hacc, hconf, hrun => by
      have hcfr : ∀ li ∈ rest, listConformB recConfJ (eraseAObj kvs) structs c li
          = true := fun li hli => hconf li (List.mem_cons_of_mem _ hli)
      cases hlk : alookup kvs name with
      | none =>
          simp only [conListsA, hlk] at hrun
          exact conListsA_fresh kvs structs c ctx recurse recConfJ hrec rest acc
            n m r hmn hacc hcfr hrun
      | some v =>
          cases v with
          | null =>
              simp only [conListsA, hlk] at hrun
              exact conListsA_fresh kvs structs c ctx recurse recConfJ hrec rest acc
                n m r hmn hacc hcfr hrun
          | b bv =>
              have hlc := hconf (name, instr) (by simp)
              have hlkE : alookup (eraseAObj kvs) name = some (.b bv) := by
                rw [eraseA_alookup, hlk]
                rfl
              simp [listConformB, hlkE] at hlc
          | i iv =>
              have hlc := hconf (name, instr) (by simp)
              have hlkE : alookup (eraseAObj kvs) name = some (.i iv) := by
                rw [eraseA_alookup, hlk]
                rfl
              simp [listConformB, hlkE] at hlc
          | s sv =>
              have hlc := hconf (name, instr) (by simp)
              have hlkE : alookup (eraseAObj kvs) name = some (.s sv) := by
                rw [eraseA_alookup, hlk]
                rfl
              simp [listConformB, hlkE] at hlc
          | obj vid sub =>
              have hlc := hconf (name, instr) (by simp)
              have hlkE : alookup (eraseAObj kvs) name
                  = some (.obj (eraseAObj sub)) := by
                rw [eraseA_alookup, hlk]
                rfl
              simp [listConformB, hlkE] at hlc
          | arr aid l =>
              have hlc := hconf (name, instr) (by simp)
              have hlkE : alookup (eraseAObj kvs) name
                  = some (.arr (eraseAList l)) := by
                rw [eraseA_alookup, hlk]
                rfl
              simp only [listConformB, hlkE, Bool.and_eq_true,
                decide_eq_true_eq] at hlc
              obtain ⟨hne, hX⟩ := hlc
              have hsq : seqItemsA (.arr aid l) = .ok l := rfl
              simp only [conListsA, hlk] at hrun
              by_cases hcf : instr.contains = some "field"
              · rw [if_pos hcf] at hrun hX
                cases hc : c (instr.coerce.getD "unicode") with
                | none => rw [hc] at hX; simp at hX
                | some fn =>
                    rw [hc] at hrun hX
                    simp only [Bool.and_eq_true] at hX
                    have helem : ∀ e ∈ l, ∃ w, fn (eraseA e) = .ok w := by
                      intro e he
                      have h0 := List.all_eq_true.mp hX.1 (eraseA e)
                        (eraseAList_mem l e he)
                      simp only [Bool.and_eq_true, decide_eq_true_eq] at h0
                      exact ⟨eraseA e, fixedPoint_eq fn (eraseA e) h0.2⟩
                    rw [hsq] at hrun
                    simp only [bind, Except.bind] at hrun
                    cases hfe : conListFieldElemsA l name fn instr acc n with
                    | error e => rw [hfe] at hrun; simp at hrun
                    | ok r1 =>
                        rw [hfe] at hrun
                        simp only [] at hrun
                        have h1 := conListFieldElemsA_fresh name fn instr l acc
                          n m r1 hmn hacc helem hfe
                        have hih := conListsA_fresh kvs structs c ctx recurse
                          recConfJ hrec rest r1.1 r1.2 m r
                          (Nat.le_trans hmn h1.1) h1.2 hcfr hrun
                        exact ⟨Nat.le_trans h1.1 hih.1, hih.2⟩
              · rw [if_neg hcf] at hrun hX
                by_cases hco : instr.contains = some "object"
                · rw [if_pos hco] at hrun hX
                  have helemO : ∀ e ∈ l, ∀ si, alookup structs name = some si →
                      recConfJ (eraseA e) si = true := by
                    intro e he si hs
                    have h0 := List.all_eq_true.mp hX (eraseA e)
                      (eraseAList_mem l e he)
                    cases he2 : eraseA e with
                    | obj esub =>
                        rw [he2] at h0
                        simp only [hs] at h0
                        exact h0
                    | null => rw [he2] at h0; simp at h0
                    | b bv => rw [he2] at h0; simp at h0
                    | i iv => rw [he2] at h0; simp at h0
                    | s sv => rw [he2] at h0; simp at h0
                    | arr xs => rw [he2] at h0; simp at h0
                  rw [hsq] at hrun
                  simp only [bind, Except.bind] at hrun
                  cases hoe : conListObjElemsA recurse l 0 name
                      (alookup structs name) ctx acc n with
                  | error e => rw [hoe] at hrun; simp at hrun
                  | ok r1 =>
                      rw [hoe] at hrun
                      simp only [] at hrun
                      have h1 := conListObjElemsA_fresh name ctx recurse recConfJ
                        (alookup structs name) hrec l 0 acc n m r1 hmn hacc
                        helemO hoe
                      have hih := conListsA_fresh kvs structs c ctx recurse
                        recConfJ hrec rest r1.1 r1.2 m r
                        (Nat.le_trans hmn h1.1) h1.2 hcfr hrun
                      exact ⟨Nat.le_trans h1.1 hih.1, hih.2⟩
                · rw [if_neg hco] at hX
                  simp at hX

theorem conformsToF_obj_shape (fuel : Nat) (v : JValue) (s : Struct)
    (c : CoerceMap) (h : conformsToF fuel v s c = true) : ∃ kvs, v = .obj kvs := by
  cases fuel with
  | zero => simp [conformsToF] at h
  | succ f =>
      cases v with
      | obj kvs => exact ⟨kvs, rfl⟩
      | null => simp [conformsToF] at h
      | b bv => simp [conformsToF] at h
      | i iv => simp [conformsToF] at h
      | s sv => simp [conformsToF] at h
      | arr xs => simp [conformsToF] at h

theorem constructAF_fresh : ∀ (fuel : Nat) (obj : AJValue) (s : Struct)
    (c : CoerceMap) (ctx : String) (sp : Bool) (n : Nat) (r : AJValue × Nat),
    (∃ jf, conformsToF jf (eraseA obj) s c = true) →
    constructAF fuel obj s c ctx sp n = .ok r →
    n ≤ r.2 ∧ ∀ i ∈ aids r.1, n ≤ i
  | 0, obj, s, c, ctx, sp, n, r, _, hrun => by simp [constructAF] at hrun
  | fuel + 1, obj, s, c, ctx, sp, n, r, hex, hrun => by
      obtain ⟨jf, hconf⟩ := hex
      obtain ⟨ekvs, hsh⟩ := conformsToF_obj_shape jf (eraseA obj) s c hconf
      cases obj with
      | null => exact absurd hsh (by simp [eraseA])
      | b bv => exact absurd hsh (by simp [eraseA])
      | i iv => exact absurd hsh (by simp [eraseA])
      | s sv => exact absurd hsh (by simp [eraseA])
      | arr aid xs => exact absurd hsh (by simp [eraseA])
      | obj oid kvs =>
          clear hsh
          simp only [eraseA] at hconf
          cases jf with
          | zero => simp [conformsToF] at hconf
          | succ jf2 =>
              simp only [conformsToF, Bool.and_eq_true] at hconf
              obtain ⟨⟨⟨⟨⟨⟨⟨_, _⟩, _⟩, _⟩, _⟩, hflds⟩, hobjs⟩, hlsts⟩ := hconf
              have hrec : ∀ vA si ctx2 k rr,
                  conformsToF jf2 (eraseA vA) si c = true →
                  constructAF fuel vA si c ctx2 sp k = .ok rr →
                  k ≤ rr.2 ∧ ∀ i ∈ aids rr.1, k ≤ i :=
                fun vA si ctx2 k rr h1 h2 =>
                  constructAF_fresh fuel vA si c ctx2 sp k rr ⟨jf2, h1⟩ h2
              simp only [constructAF] at hrun
              cases hf1 : s.required.find? (fun rq => ¬ (akeys kvs).contains rq) with
              | some rq => rw [hf1] at hrun; simp at hrun
              | none =>
                  rw [hf1] at hrun
                  cases hf2 : (if sp then none else (akeys kvs).find?
                      (fun k => ¬ (akeys s.fields ++ s.objects
                        ++ akeys s.lists).contains k)) with
                  | some k => rw [hf2] at hrun; simp at hrun
                  | none =>
                      rw [hf2] at hrun
                      simp only [bind, Except.bind] at hrun
                      cases hr1 : conFieldsA s.fields kvs c ctx (.obj n [])
                          (n + 1) with
                      | error e => rw [hr1] at hrun; simp at hrun
                      | ok r1 =>
                          rw [hr1] at hrun
                          simp only [] at hrun
                          have hrun2 := hrun
                          have hF := conFieldsA_fresh kvs c ctx s.fields
                            (.obj n []) (n + 1) n r1 (Nat.le_succ n)
                            (by
                              intro i hi
                              simp only [aids, aidsObj] at hi
                              rcases List.mem_cons.mp hi with he | hm
                              · exact he ▸ Nat.le_refl n
                              · simp at hm)
                            (fun fi hfi => List.all_eq_true.mp hflds fi hfi) hr1
                          cases hr2 : conObjectsA
                              (fun v sub ctx2 m => constructAF fuel v sub c ctx2 sp m)
                              s.objects s.structs kvs ctx r1.1 r1.2 with
                          | error e => rw [hr2] at hrun2; simp at hrun2
                          | ok r2 =>
                              rw [hr2] at hrun2
                              simp only [] at hrun2
                              have hrun3 := hrun2
                              have hO := conObjectsA_fresh kvs s.structs ctx
                                (fun v sub ctx2 m =>
                                  constructAF fuel v sub c ctx2 sp m)
                                (fun v si => conformsToF jf2 v si c) hrec
                                s.objects r1.1 r1.2 n r2
                                (Nat.le_trans (Nat.le_succ n) hF.1) hF.2
                                (fun nm hnm => List.all_eq_true.mp hobjs nm hnm) hr2
                              have hL := conListsA_fresh kvs s.structs c ctx
                                (fun v sub ctx2 m =>
                                  constructAF fuel v sub c ctx2 sp m)
                                (fun v si => conformsToF jf2 v si c) hrec
                                s.lists r2.1 r2.2 n r
                                (Nat.le_trans (Nat.le_trans (Nat.le_succ n) hF.1)
                                  hO.1) hO.2
                                (fun li hli => List.all_eq_true.mp hlsts li hli)
                                hrun3
                              exact ⟨Nat.le_trans (Nat.le_succ n)
                                (Nat.le_trans hF.1 (Nat.le_trans hO.1 hL.1)),
                                hL.2⟩

def c1schema : Struct :=
  .mk [("a", ⟨some "unicode", none, none, none, none, none⟩)]
      ["o"]
      [("l", ⟨some "field", some "unicode", none, none, none, some true⟩)]
      ["a"]
      [("o", .mk [("n", ⟨some "integer", none, none, none, none, none⟩)] [] [] [] [])]

def c1doc : JValue :=
  .obj [("a", .s "x"), ("o", .obj [("n", .i 3)]), ("l", .arr [.s "p", .s "q"])]

def c1adoc : AJValue :=
  .obj 0 [("a", .s "x"), ("o", .obj 1 [("n", .i 3)]), ("l", .arr 2 [.s "p", .s "q"])]

/-- C1: for every document `d` that already conforms to the schema `s` (under
the coercion map `c`), `construct(d, s, c)` succeeds and returns a document
equal to `d` up to the ordering of keys inside mappings; and in the addressed
semantics (where containers carry their Python `id()`), running `construct`
on a conforming document allocates every container of the output fresh
(conformance makes every applied coercion succeed as a fixed point, so the
accept-failure path that would alias the original object is never taken), so
every container address of the output is distinct from every container
address of the input document: mutating the result never mutates `d`. -/
theorem construct_idempotent_and_independent :
    (∀ (obj : JValue) (s : Struct) (c : CoerceMap) (sp : Bool),
        conformsTo obj s c = true →
        ∃ out, construct obj s c sp = .ok out ∧ equivOrder out obj = true)
    ∧ (∀ (adoc : AJValue) (s : Struct) (c : CoerceMap) (sp : Bool) (n : Nat)
          (r : AJValue × Nat), conformsTo (eraseA adoc) s c = true →
        (∀ j ∈ aids adoc, j < n) → constructA adoc s c sp n = .ok r →
        ∀ i ∈ aids r.1, i ∉ aids adoc) := by
  constructor
  · intro obj s c sp h
    unfold conformsTo at h
    obtain ⟨kvs, rfl⟩ := conformsToF_obj_shape (jsize obj) obj s c h
    obtain ⟨out, hrun, heq⟩ :=
      constructF_conform (jsize (.obj kvs)) kvs s c "" sp h
    exact ⟨.obj out, hrun, heq⟩
  · intro adoc s c sp n r hconf hin hrun
    unfold conformsTo at hconf
    have hf := constructAF_fresh (asize adoc) adoc s c "" sp n r
      ⟨jsize (eraseA adoc), hconf⟩ hrun
    intro i hi hmem
    exact absurd (hin i hmem) (Nat.not_lt.mpr (hf.2 i hi))

/-- Witness for C1 at a concrete conforming document (a string field, a
nested object with an integer field, a unique list of strings): `construct`
succeeds with a value equal to the input up to key ordering, and the
addressed run from counter 100 on the same document (addresses 0, 1, 2)
allocates only fresh containers. -/
theorem construct_idempotent_and_independent_witness :
    (∃ out, construct c1doc c1schema DEFAULT_COERCE false = .ok out
      ∧ equivOrder out c1doc = true)
    ∧ (∀ i ∈ aids (AJValue.obj 100 [("a", .s "x"), ("o", .obj 101 [("n", .i 3)]),
        ("l", .arr 102 [.s "p", .s "q"])]), i ∉ aids c1adoc) :=
  ⟨construct_idempotent_and_independent.1 c1doc c1schema DEFAULT_COERCE false
      (by rfl),
   construct_idempotent_and_independent.2 c1adoc c1schema DEFAULT_COERCE false 100
      (.obj 100 [("a", .s "x"), ("o", .obj 101 [("n", .i 3)]),
        ("l", .arr 102 [.s "p", .s "q"])], 103)
      (by rfl) (by decide) (by rfl)⟩
